import Mathlib

/-!
A shallow embedding of `msh.c`.

`msh` is a small interactive command interpreter.  This file embeds its
tokenizer (`msh_get_arguments`), its argument-vector destructor (`free_argv`)
and its resolver/dispatcher (`msh_exec`) together with the two circular
histories they maintain, and proves properties of them.

Conventions of the embedding.

* A C string is represented by the list of the characters that precede its
  terminating NUL.
* A `char*` that may be `NULL` is an `Option`; `none` is the `NULL` pointer.
* An array is a `List`; a read or a write outside the array is a fault.
* The C type `int` is represented by `Int`.  All arithmetic on cursors and
  counters stays far inside the 32-bit range whenever the cursors are inside
  their arrays; the one place where the range matters (`atoi`) is explicit.
* A computation that faults (an out-of-bounds access, a scan that runs off the
  end of an argument vector) is `none`; everything the program does to the
  outside world is appended to a trace of `Event`s.
-/

namespace Msh

/-! ## Constants (lines 7-11) -/

/-- The maximum length of an input line, also the size of the path buffer. -/
def LINE_MAX_LEN : Nat := 1024

/-- Number of slots of an argument vector. -/
def MAX_ARGS : Nat := 12

/-- Capacity of the process-identifier history. -/
def PID_HISTORY_SIZE : Nat := 20

/-- Capacity of the command history. -/
def ARGV_HISTORY_SIZE : Nat := 15

/-! ## Data model -/

/-- The content of a C string. -/
abbrev Token := List Char

/-- The array behind a `char**`: every slot is a string or `NULL`. -/
abbrev Argv := List (Option Token)

/-- The struct `pid_history_t` (lines 13-16). -/
structure pid_history_t where
  history : List Int
  current_index : Int
  deriving DecidableEq, Repr

/-- The struct `argv_history_t` (lines 18-21); a slot is `NULL` or a vector. -/
structure argv_history_t where
  history : List (Option Argv)
  current_index : Int
  deriving DecidableEq, Repr

/-- What the program does to the outside world, one constructor per call site. -/
inductive Event where
  /-- The call `free(argv[i])` of line 27. -/
  | free_str (s : Token)
  /-- The call `free(argv)` of line 29. -/
  | free_vec (v : Argv)
  /-- A call of `puts`. -/
  | puts (s : List Char)
  /-- The call `chdir(argv[1])` of line 71. -/
  | chdir (path : Token)
  /-- The call `printf("%d: %d\n", count, pid)` of line 83. -/
  | printf_pid (count : Int) (pid : Int)
  /-- The call `printf("%d: ", count)` of line 96. -/
  | printf_index (count : Int)
  /-- The call `printf("%s ", hargv[j])` of line 98. -/
  | printf_token (s : Token)
  /-- The call `putchar` of line 100. -/
  | putchar (c : Char)
  /-- The call `fork()` of line 106 and the value it returned in this process. -/
  | fork (pid : Int)
  /-- A call of `execvp` that failed and returned. -/
  | execvp_failed (path : List Char) (args : List Token)
  /-- The call `printf("%s: Command not found.\n", commandName)` of line 120. -/
  | printf_not_found (name : Token)
  /-- The call `perror("fork")` of line 128. -/
  | perror_fork
  /-- The call `wait(NULL)` of line 131. -/
  | wait
  /-- The call `printf("msh> ")` of line 184. -/
  | printf_prompt
  deriving DecidableEq, Repr

/-- How a call of `msh_exec` ends in the process that executes it. -/
inductive Outcome where
  /-- The call returned `keepRunning` to its caller. -/
  | ret (keepRunning : Int)
  /-- The child's image was replaced by a successful `execvp`. -/
  | exec (path : List Char) (args : List Token)
  /-- The child called `exit(status)` (line 126). -/
  | exit (status : Int)
  deriving DecidableEq, Repr

/-- The operating system as seen by one call of `msh_exec`: the value `fork`
returns in this process, and which `execvp` calls succeed. -/
structure Env where
  fork : Int
  execvp : List Char → List Token → Bool

/-- The result of one call of `msh_exec`. -/
structure Result where
  outcome : Outcome
  pid_history : pid_history_t
  argv_history : argv_history_t
  trace : List Event
  deriving DecidableEq, Repr

/-! ## Arrays and C arithmetic -/

/-- The read `a[i]`; a fault outside the array. -/
def read {α : Type} (a : List α) (i : Int) : Option α :=
  if 0 ≤ i then a[i.toNat]? else none

/-- The write `a[i] = x`; a fault outside the array. -/
def write {α : Type} (a : List α) (i : Int) (x : α) : Option (List α) :=
  if 0 ≤ i ∧ i < a.length then some (a.set i.toNat x) else none

/-- The C operator `%` on `int`: the remainder of the division truncated
towards zero. -/
def c_mod (a b : Int) : Int := Int.tmod a b

/-! ## `free_argv` (lines 24-31) -/

/-- The loop `for(i = 0; argv[i]; ++i)` over a vector, from slot `i` on: the
strings met before the first `NULL`.  The scan faults when it reaches the end
of the array without having met a `NULL`. -/
def scan : Argv → Option (List Token)
  | [] => none
  | none :: _ => some []
  | some s :: rest => (scan rest).map (fun ts => s :: ts)

/-- The function `free_argv`: nothing for a `NULL` vector; otherwise every
string before the first `NULL` is freed, then the vector. -/
def free_argv (argv : Option Argv) : Option (List Event) :=
  match argv with
  | none => some []
  | some v => (scan v).map (fun ts => ts.map Event.free_str ++ [Event.free_vec v])

/-! ## The tokenizer `msh_get_arguments` (lines 143-163) -/

/-- Membership in the delimiter string `" \n"`. -/
def is_delim (c : Char) : Bool := c = ' ' || c = '\n'

/-- One call of `strtok(_, " \n")` on the string that remains to be scanned:
the token returned (`NULL` when only delimiters are left) and the string that
remains for the next call. -/
def strtok (rest : List Char) : Option Token × List Char :=
  match rest.dropWhile is_delim with
  | [] => (none, [])
  | c :: cs =>
    (some ((c :: cs).takeWhile (fun x => !is_delim x)),
     ((c :: cs).dropWhile (fun x => !is_delim x)).drop 1)

/-- The loop of lines 155-160 with `fuel` iterations left: each iteration calls
`strtok` and stores the word it returns, or leaves the slot `NULL`. -/
def fill_args : Nat → List Char → Argv
  | 0, _ => []
  | fuel + 1, rest => (strtok rest).1 :: fill_args fuel (strtok rest).2

/-- The function `msh_get_arguments`: slot 0 receives the first word, the loop
fills the slots `1 .. MAX_ARGS - 1`. -/
def msh_get_arguments (buffer : List Char) : Argv :=
  (strtok buffer).1 :: fill_args (MAX_ARGS - 1) (strtok buffer).2

/-! ## `atoi` -/

/-- The C predicate `isspace` in the C locale: space and the controls 9-13. -/
def isspace (c : Char) : Bool := c = ' ' || (9 ≤ c.toNat && c.toNat ≤ 13)

/-- The value of the longest prefix of decimal digits of a string, accumulated
on top of `acc`. -/
def digits_value : List Char → Nat → Nat
  | [], acc => acc
  | c :: cs, acc =>
    if c.isDigit then digits_value cs (10 * acc + (c.toNat - 48)) else acc

/-- The largest `long` on an LP64 platform. -/
def LONG_MAX : Int := 2 ^ 63 - 1

/-- The smallest `long` on an LP64 platform. -/
def LONG_MIN : Int := -(2 ^ 63)

/-- The C library function `strtol(s, NULL, 10)`: white space is skipped, an
optional sign is read, then the longest run of digits; a value outside `long`
is clamped to `LONG_MIN` or `LONG_MAX`. -/
def strtol (s : List Char) : Int :=
  match s.dropWhile isspace with
  | [] => 0
  | c :: r =>
    if c = '-' then max LONG_MIN (-(digits_value r 0 : Int))
    else if c = '+' then min LONG_MAX (digits_value r 0 : Int)
    else min LONG_MAX (digits_value (c :: r) 0 : Int)

/-- The conversion of a `long` to the 32-bit `int`: the value modulo `2 ^ 32`
in two's complement. -/
def to_int (x : Int) : Int := (x + 2 ^ 31) % 2 ^ 32 - 2 ^ 31

/-- The C library function `atoi`.  It is not part of the repository; C leaves
its result undefined when the number does not fit an `int`.  This is the
definition of the GNU C library, `(int) strtol(s, NULL, 10)`, on an LP64
platform, which agrees with every conforming `atoi` on the numbers that fit. -/
def atoi (s : List Char) : Int := to_int (strtol s)

/-! ## `msh_exec` (lines 37-138) -/

/-- The loop of lines 77-85, at iteration `i` with `fuel` iterations left. -/
def listpids_loop (ph : pid_history_t) : Nat → Int → Int → Option (List Event)
  | 0, _, _ => some []
  | fuel + 1, i, count =>
    (read ph.history (c_mod (ph.current_index + i) PID_HISTORY_SIZE)).bind fun pid =>
      if pid > 0 then
        (listpids_loop ph fuel (i + 1) (count + 1)).map
          fun t => Event.printf_pid count pid :: t
      else listpids_loop ph fuel (i + 1) count

/-- The loop of lines 90-102, at iteration `i` with `fuel` iterations left. -/
def history_loop (ah : argv_history_t) : Nat → Int → Int → Option (List Event)
  | 0, _, _ => some []
  | fuel + 1, i, count =>
    (read ah.history (c_mod (ah.current_index + i) ARGV_HISTORY_SIZE)).bind fun hargv =>
      match hargv with
      | none => history_loop ah fuel (i + 1) count
      | some v =>
        (scan v).bind fun ts =>
          (history_loop ah fuel (i + 1) (count + 1)).map fun t =>
            Event.printf_index count ::
              (ts.map Event.printf_token ++ Event.putchar '\n' :: t)

/-- The call `sprintf(buffer, "<pre>%s", commandName)` into the buffer of
`LINE_MAX_LEN` bytes: a fault when the path and its NUL do not fit. -/
def sprintf_path (pre : List Char) (commandName : Token) : Option (List Char) :=
  if (pre ++ commandName).length < LINE_MAX_LEN then some (pre ++ commandName)
  else none

/-- One `sprintf` followed by one `execvp(buffer, argv)`: whether the image was
replaced, the path tried and the arguments passed. -/
def attempt (env : Env) (pre : List Char) (commandName : Token) (argv : Argv) :
    Option (Bool × List Char × List Token) :=
  (sprintf_path pre commandName).bind fun path =>
    (scan argv).map fun args => (env.execvp path args, path, args)

/-- The child branch, lines 107-126: four attempts in a fixed order, then the
message and `exit(1)`. -/
def child (env : Env) (commandName : Token) (argv : Argv) :
    Option (Outcome × List Event) :=
  (attempt env "./".toList commandName argv).bind fun a1 =>
  if a1.1 then some (Outcome.exec a1.2.1 a1.2.2, []) else
  (attempt env "/usr/local/bin/".toList commandName argv).bind fun a2 =>
  if a2.1 then some (Outcome.exec a2.2.1 a2.2.2,
    [Event.execvp_failed a1.2.1 a1.2.2]) else
  (attempt env "/usr/bin/".toList commandName argv).bind fun a3 =>
  if a3.1 then some (Outcome.exec a3.2.1 a3.2.2,
    [Event.execvp_failed a1.2.1 a1.2.2, Event.execvp_failed a2.2.1 a2.2.2]) else
  (attempt env "/bin/".toList commandName argv).bind fun a4 =>
  if a4.1 then some (Outcome.exec a4.2.1 a4.2.2,
    [Event.execvp_failed a1.2.1 a1.2.2, Event.execvp_failed a2.2.1 a2.2.2,
     Event.execvp_failed a3.2.1 a3.2.2]) else
  some (Outcome.exit 1,
    [Event.execvp_failed a1.2.1 a1.2.2, Event.execvp_failed a2.2.1 a2.2.2,
     Event.execvp_failed a3.2.1 a3.2.2, Event.execvp_failed a4.2.1 a4.2.2,
     Event.printf_not_found commandName])

/-- The dispatch on the effective command name and vector, lines 64-137. -/
def msh_dispatch (env : Env) (commandName : Option Token) (argv : Argv)
    (ph : pid_history_t) (ah : argv_history_t) : Option Result :=
  match commandName with
  | none => some ⟨Outcome.ret 1, ph, ah, []⟩
  | some name =>
    if name = "exit".toList ∨ name = "quit".toList then
      some ⟨Outcome.ret 0, ph, ah, []⟩
    else if name = "cd".toList then
      (read argv 1).map fun a1 =>
        match a1 with
        | some path => ⟨Outcome.ret 1, ph, ah, [Event.chdir path]⟩
        | none => ⟨Outcome.ret 1, ph, ah, []⟩
    else if name = "listpids".toList then
      (listpids_loop ph PID_HISTORY_SIZE 0 0).map fun t =>
        ⟨Outcome.ret 1, ph, ah, t⟩
    else if name = "history".toList then
      (history_loop ah ARGV_HISTORY_SIZE 0 0).map fun t =>
        ⟨Outcome.ret 1, ph, ah, t⟩
    else if env.fork = 0 then
      (child env name argv).map fun r =>
        ⟨r.1, ph, ah, Event.fork 0 :: r.2⟩
    else if env.fork < 0 then
      some ⟨Outcome.ret 0, ph, ah, [Event.fork env.fork, Event.perror_fork]⟩
    else
      (write ph.history ph.current_index env.fork).map fun h =>
        ⟨Outcome.ret 1, ⟨h, c_mod (ph.current_index + 1) PID_HISTORY_SIZE⟩, ah,
          [Event.fork env.fork, Event.wait]⟩

/-- The test `commandName && commandName[0] == '!'` of line 41; when it holds,
the string `commandName + 1`. -/
def recall_suffix : Option Token → Option (List Char)
  | some (c :: rest) => if c = '!' then some rest else none
  | _ => none

/-- Put the events of the resolution step in front of the trace of a result. -/
def Result.after (pre : List Event) (r : Result) : Result :=
  ⟨r.outcome, r.pid_history, r.argv_history, pre ++ r.trace⟩

/-- The function `msh_exec`: recall resolution or recording (lines 39-62),
then the dispatch. -/
def msh_exec (env : Env) (argv : Argv) (ph : pid_history_t)
    (ah : argv_history_t) : Option Result :=
  (read argv 0).bind fun commandName =>
    match recall_suffix commandName with
    | some rest =>
      (free_argv (some argv)).bind fun fr =>
        if 0 ≤ atoi rest ∧ atoi rest < ARGV_HISTORY_SIZE then
          (read ah.history
            (c_mod (ah.current_index - 1 - atoi rest + ARGV_HISTORY_SIZE)
              ARGV_HISTORY_SIZE)).bind fun slot =>
            match slot with
            | none =>
              some ⟨Outcome.ret 1, ph, ah,
                fr ++ [Event.puts "Command not in history.".toList]⟩
            | some v =>
              (read v 0).bind fun name =>
                (msh_dispatch env name v ph ah).map (Result.after fr)
        else
          some ⟨Outcome.ret 1, ph, ah, fr ++ [Event.puts "Invalid n.".toList]⟩
    | none =>
      (read ah.history ah.current_index).bind fun old =>
        (free_argv old).bind fun fr =>
          (write ah.history ah.current_index (some argv)).bind fun h =>
            (msh_dispatch env commandName argv ph
              ⟨h, c_mod (ah.current_index + 1) ARGV_HISTORY_SIZE⟩).map
              (Result.after fr)

/-! ## The initial state (lines 172-181 of `main`) -/

/-- The process-identifier history after the initialisation in `main`. -/
def init_pid_history : pid_history_t :=
  ⟨List.replicate PID_HISTORY_SIZE 0, 0⟩

/-- The command history after the initialisation in `main`. -/
def init_argv_history : argv_history_t :=
  ⟨List.replicate ARGV_HISTORY_SIZE none, 0⟩

/-! ## Notions used to state the properties -/

/-- The strings a vector holds before its first `NULL`, in order. -/
def argv_tokens (v : Argv) : List Token :=
  (v.takeWhile Option.isSome).reduceOption

/-- A vector is terminated when one of its slots is `NULL`. -/
def terminated (v : Argv) : Prop := none ∈ v

instance (v : Argv) : Decidable (terminated v) :=
  inferInstanceAs (Decidable (none ∈ v))

/-- A history slot is sound when it is `NULL` or holds a terminated vector. -/
def slot_terminated : Option Argv → Prop
  | none => True
  | some v => terminated v

instance (s : Option Argv) : Decidable (slot_terminated s) :=
  match s with
  | none => isTrue trivial
  | some v => inferInstanceAs (Decidable (terminated v))

/-- The process-identifier history has its 20 slots and its cursor is inside. -/
def pid_history_t.wf (ph : pid_history_t) : Prop :=
  ph.history.length = PID_HISTORY_SIZE ∧
    0 ≤ ph.current_index ∧ ph.current_index < PID_HISTORY_SIZE

instance (ph : pid_history_t) : Decidable ph.wf :=
  inferInstanceAs (Decidable (_ ∧ _ ∧ _))

/-- The command history has its 15 slots, its cursor is inside, and every
vector it holds is terminated. -/
def argv_history_t.wf (ah : argv_history_t) : Prop :=
  ah.history.length = ARGV_HISTORY_SIZE ∧
    0 ≤ ah.current_index ∧ ah.current_index < ARGV_HISTORY_SIZE ∧
    ∀ s ∈ ah.history, slot_terminated s

instance (ah : argv_history_t) : Decidable ah.wf :=
  inferInstanceAs (Decidable (_ ∧ _ ∧ _ ∧ _))

/-- The slots of the command history read from the write cursor on, that is
from the oldest entry to the newest. -/
def argv_history_t.view (ah : argv_history_t) : List (Option Argv) :=
  ah.history.rotate ah.current_index.toNat

/-- The slots of the process-identifier history read from the write cursor on. -/
def pid_history_t.view (ph : pid_history_t) : List Int :=
  ph.history.rotate ph.current_index.toNat

/-- Whether a vector is a recall: the test of line 41 on its first slot. -/
def is_recall (argv : Argv) : Bool :=
  (recall_suffix ((read argv 0).join)).isSome

/-- The store of lines 59-61: the vector is written at the cursor and the
cursor advances modulo the capacity. -/
def record_command (ah : argv_history_t) (argv : Argv) : argv_history_t :=
  ⟨ah.history.set ah.current_index.toNat (some argv),
    c_mod (ah.current_index + 1) ARGV_HISTORY_SIZE⟩

/-- The store of lines 133-134: the identifier is written at the cursor and
the cursor advances modulo the capacity. -/
def record_pid (ph : pid_history_t) (pid : Int) : pid_history_t :=
  ⟨ph.history.set ph.current_index.toNat pid,
    c_mod (ph.current_index + 1) PID_HISTORY_SIZE⟩

/-- The lookup of lines 45-47: the occupant of the slot `n` places before the
cursor, `none` when the slot is empty or outside the array. -/
def lookup_command (ah : argv_history_t) (n : Int) : Option Argv :=
  (read ah.history
    (c_mod (ah.current_index - 1 - n + ARGV_HISTORY_SIZE) ARGV_HISTORY_SIZE)).join

/-- The effective vector of a call, lines 41-62: the vector itself when it is
not a recall, and for a recall the occupant of the slot it designates; there
is none when the recall is rejected or the slot is empty. -/
def effective_argv (argv : Argv) (ah : argv_history_t) : Option Argv :=
  match recall_suffix ((read argv 0).join) with
  | none => some argv
  | some rest =>
    if 0 ≤ atoi rest ∧ atoi rest < ARGV_HISTORY_SIZE then
      lookup_command ah (atoi rest)
    else none

/-- The events of `free_argv` on a slot: nothing for `NULL`, otherwise one
`free` per string before the first `NULL`, then the `free` of the vector. -/
def released : Option Argv → List Event
  | none => []
  | some v => (argv_tokens v).map Event.free_str ++ [Event.free_vec v]

/-- An environment of the interpreter process: `fork` returns `pid`, and no
`execvp` succeeds. -/
def parent_env (pid : Int) : Env := ⟨pid, fun _ _ => false⟩

/-- The command name of a vector: its slot 0. -/
def command_name (v : Argv) : Option Token := (read v 0).join

/-- The names interpreted by the resolver itself. -/
def builtins : List Token :=
  ["exit".toList, "quit".toList, "cd".toList, "listpids".toList,
   "history".toList]

/-- A vector names an external command when its name is present and is not a
built-in. -/
def is_external (v : Argv) : Prop :=
  ∃ name, command_name v = some name ∧ name ∉ builtins

/-- A sequence of calls of `msh_exec` made by one process, each on its own
vector and under its own environment, every call returning to the caller:
the two histories after the last call and the trace of all the calls. -/
def msh_exec_seq : List (Env × Argv) → pid_history_t → argv_history_t →
    Option (pid_history_t × argv_history_t × List Event)
  | [], ph, ah => some (ph, ah, [])
  | input :: rest, ph, ah =>
    (msh_exec input.1 input.2 ph ah).bind fun r =>
      match r.outcome with
      | Outcome.ret _ =>
        (msh_exec_seq rest r.pid_history r.argv_history).map
          fun s => (s.1, s.2.1, r.trace ++ s.2.2)
      | _ => none

/-- The vectors of a sequence of inputs that are not recalls, in order. -/
def non_recalls (inputs : List (Env × Argv)) : List Argv :=
  (inputs.map Prod.snd).filter (fun v => !is_recall v)

/-- The words of a line: the maximal runs of characters other than space and
newline, in order of appearance. -/
def words (line : List Char) : List Token :=
  (line.splitOnP is_delim).filter (fun w => !w.isEmpty)

/-- The decimal numeral of a natural number. -/
def decimal (n : Nat) : List Char := Nat.toDigits 10 n

/-- The lines the `history` built-in prints for a list of vectors, numbered
from `count`: the index, every token followed by a space, a newline. -/
def history_lines : Int → List Argv → List Event
  | _, [] => []
  | count, v :: vs =>
    Event.printf_index count ::
      ((argv_tokens v).map Event.printf_token ++
        Event.putchar '\n' :: history_lines (count + 1) vs)

/-- The lines the `listpids` built-in prints for a list of identifiers,
numbered from `count`. -/
def pid_lines : Int → List Int → List Event
  | _, [] => []
  | count, p :: ps => Event.printf_pid count p :: pid_lines (count + 1) ps

/-- Whether an event releases memory. -/
def Event.is_free : Event → Bool
  | Event.free_str _ => true
  | Event.free_vec _ => true
  | _ => false

/-- The identifiers of the children created in a trace: the positive values
returned by `fork`. -/
def launched : List Event → List Int
  | [] => []
  | Event.fork p :: t => if p > 0 then p :: launched t else launched t
  | _ :: t => launched t


/-- The vector `msh_get_arguments` returns for a line given as a string. -/
def tokenize (line : String) : Argv := msh_get_arguments line.toList

/-- The session `cd /tmp`, `pwd`, each call made in the interpreter process. -/
def session_cd_pwd : List (Env × Argv) :=
  [(parent_env 100, tokenize "cd /tmp\n"), (parent_env 101, tokenize "pwd\n")]

/-- The session `cd /tmp`, `pwd`, `history`. -/
def session_cd_pwd_history : List (Env × Argv) :=
  session_cd_pwd ++ [(parent_env 102, tokenize "history\n")]

/-- A line of twelve words. -/
def twelve_words : String := "a b c d e f g h i j k l\n"

/-- The call of the interpreter process on the line `cmd<i>`, the child being
given the identifier `100 + i`. -/
def numbered_call (i : Nat) : Env × Argv :=
  (parent_env (100 + i), msh_get_arguments ("cmd".toList ++ decimal i))

/-- The calls number 2 to 15 of a session of numbered calls. -/
def calls_2_to_15 : List (Env × Argv) :=
  (List.range 14).map (fun i => numbered_call (i + 2))

/-- The session of 21 launches: the calls number 1 to 21, whose children get
the identifiers 101 to 121. -/
def session_21_launches : List (Env × Argv) :=
  (List.range 21).map (fun i => numbered_call (i + 1))

/-! ## The function `main` (lines 165-196) -/

/-- The loop of lines 191-193, at slot `i` with `fuel` iterations left: every
slot of the command history is passed to `free_argv`. -/
def teardown_loop (ah : argv_history_t) : Nat → Int → Option (List Event)
  | 0, _ => some []
  | fuel + 1, i =>
    (read ah.history i).bind fun slot =>
      (free_argv slot).bind fun fr =>
        (teardown_loop ah fuel (i + 1)).map fun t => fr ++ t

/-- How a run of `main` ends, or fails to end. -/
inductive Run where
  /-- The function `main` returned `status`. -/
  | returned (status : Int) (trace : List Event)
  /-- The process is a child created by `fork`: its image was replaced, or it
  called `exit`. -/
  | replaced (o : Outcome) (trace : List Event)
  /-- The run faulted: an out-of-bounds access or the read of a variable that
  was never written. -/
  | fault
  /-- The loop is still running after the iterations allowed. -/
  | unfinished (trace : List Event)
  deriving DecidableEq, Repr

/-- The test `while(keepRunning)` of line 189 when it leaves the loop, and
what follows: `none` when the loop goes on; otherwise the read of a
`keepRunning` that was never written is a fault, and the value 0 leads to the
loop of lines 191-193 and to `return 0`. -/
def loop_exit (keepRunning : Option Int) (ah : argv_history_t)
    (tr : List Event) : Option Run :=
  match keepRunning with
  | none => some Run.fault
  | some k =>
    if k ≠ 0 then none
    else
      match teardown_loop ah ARGV_HISTORY_SIZE 0 with
      | none => some Run.fault
      | some fr => some (Run.returned 0 (tr ++ fr))

/-- The loop of lines 183-189 with `fuel` iterations allowed.  The list holds
the lines `fgets` will return, each with the environment of the call made on
it; once the list is empty `fgets` returns `NULL` (end of input) and the body
of the `if` is skipped.  `keepRunning` is `none` until it is first written. -/
def main_loop : Nat → List (Env × List Char) → Option Int → pid_history_t →
    argv_history_t → List Event → Run
  | 0, _, _, _, _, tr => Run.unfinished tr
  | fuel + 1, [], keepRunning, ph, ah, tr =>
    match loop_exit keepRunning ah (tr ++ [Event.printf_prompt]) with
    | some run => run
    | none => main_loop fuel [] keepRunning ph ah (tr ++ [Event.printf_prompt])
  | fuel + 1, x :: rest, _, ph, ah, tr =>
    match msh_exec x.1 (msh_get_arguments x.2) ph ah with
    | none => Run.fault
    | some r =>
      match r.outcome with
      | Outcome.ret k =>
        match loop_exit (some k) r.argv_history
            (tr ++ Event.printf_prompt :: r.trace) with
        | some run => run
        | none =>
          main_loop fuel rest (some k) r.pid_history r.argv_history
            (tr ++ Event.printf_prompt :: r.trace)
      | o => Run.replaced o (tr ++ Event.printf_prompt :: r.trace)

/-- The function `main` on the lines of its input, with `fuel` iterations of
the loop allowed: both histories are initialised, `keepRunning` is not. -/
def main (fuel : Nat) (stdin : List (Env × List Char)) : Run :=
  main_loop fuel stdin none init_pid_history init_argv_history []

/-! ## The search of the executable, as the specification words it -/

/-- The four prefixes of lines 112-118, in the order they are tried. -/
def path_prefixes : List (List Char) :=
  ["./".toList, "/usr/local/bin/".toList, "/usr/bin/".toList, "/bin/".toList]

/-- The candidate paths of a command name, in the order they are tried. -/
def candidate_paths (c : Token) : List (List Char) :=
  path_prefixes.map (fun pre => pre ++ c)

/-- The ordered search: the candidates are tried in order, each with the same
arguments, up to the first one `execvp` accepts, which replaces the image;
when none is accepted the message is printed and the child exits with 1. -/
def search (env : Env) (c : Token) (args : List Token) : Outcome × List Event :=
  match (candidate_paths c).dropWhile (fun p => !env.execvp p args) with
  | p :: _ =>
    (Outcome.exec p args,
      ((candidate_paths c).takeWhile (fun p => !env.execvp p args)).map
        (fun q => Event.execvp_failed q args))
  | [] =>
    (Outcome.exit 1,
      ((candidate_paths c).takeWhile (fun p => !env.execvp p args)).map
        (fun q => Event.execvp_failed q args) ++ [Event.printf_not_found c])

/-! ## States used as examples -/

/-- The command history after the session `cd /tmp`, `pwd`. -/
def history_cd_pwd : argv_history_t :=
  record_command (record_command init_argv_history (tokenize "cd /tmp\n"))
    (tokenize "pwd\n")

/-- The process-identifier history after the session `cd /tmp`, `pwd`, the
child of `pwd` being 101. -/
def pids_cd_pwd : pid_history_t := record_pid init_pid_history 101

/-- An environment of a child: `fork` returned 0 and only the path `/bin/ls`
can be launched. -/
def child_env_bin_ls : Env := ⟨0, fun p _ => p = "/bin/ls".toList⟩

/-- An environment of a child in which no path can be launched. -/
def child_env_nothing : Env := ⟨0, fun _ _ => false⟩

/-! ## Ownership of the argument vectors -/

/-- The allocation model.  The vector `msh_get_arguments` allocates for the
call number `id` of a run is the allocation `id`.  `owners` tells which
allocation each slot of the command history holds, `freed` lists the
allocations passed to `free_argv` so far, in order. -/
structure Ownership where
  owners : List (Option Nat)
  freed : List Nat
  deriving DecidableEq, Repr

/-- The ownership after the initialisation in `main`: every slot is `NULL`
and nothing was freed. -/
def init_ownership : Ownership :=
  ⟨List.replicate ARGV_HISTORY_SIZE none, []⟩

/-- The ownership after the resolution step of a call on the allocation `id`:
line 43 frees the recall vector itself; lines 59-60 free the occupant of the
write slot and store the new vector there. -/
def Ownership.step (o : Ownership) (id : Nat) (argv : Argv)
    (ah : argv_history_t) : Ownership :=
  if is_recall argv then ⟨o.owners, o.freed ++ [id]⟩
  else
    ⟨o.owners.set ah.current_index.toNat (some id),
      o.freed ++ (o.owners[ah.current_index.toNat]?.join).toList⟩

/-- The ownership after the loop of lines 191-193: every occupant is freed. -/
def Ownership.teardown (o : Ownership) : Ownership :=
  ⟨o.owners, o.freed ++ o.owners.reduceOption⟩

/-- A sequence of calls as `msh_exec_seq` makes it, the vector of the call
number `id` being the allocation `id`, together with the ownership. -/
def msh_exec_owned : Nat → List (Env × Argv) → pid_history_t → argv_history_t →
    Ownership → Option (pid_history_t × argv_history_t × List Event × Ownership)
  | _, [], ph, ah, o => some (ph, ah, [], o)
  | id, input :: rest, ph, ah, o =>
    (msh_exec input.1 input.2 ph ah).bind fun r =>
      match r.outcome with
      | Outcome.ret _ =>
        (msh_exec_owned (id + 1) rest r.pid_history r.argv_history
          (o.step id input.2 ah)).map
          fun s => (s.1, s.2.1, r.trace ++ s.2.2.1, s.2.2.2)
      | _ => none


/-! ## A session ending with `exit` -/

/-- The lines `cd /tmp`, `pwd`, `!1`, `history`, `exit` on the input of
`main`, each with the environment of the call made on it. -/
def stdin_cd_pwd_exit : List (Env × List Char) :=
  [(parent_env 100, "cd /tmp\n".toList), (parent_env 101, "pwd\n".toList),
   (parent_env 102, "!1\n".toList), (parent_env 103, "history\n".toList),
   (parent_env 104, "exit\n".toList)]

/-- The calls `main` makes on the lines of `stdin_cd_pwd_exit`. -/
def session_cd_pwd_exit : List (Env × Argv) :=
  stdin_cd_pwd_exit.map (fun x => (x.1, msh_get_arguments x.2))
/-! ## Arrays, C arithmetic and scans -/

theorem read_natCast {α : Type} (a : List α) (i : Nat) :
    read a (i : Int) = a[i]? := by
  simp [read]

theorem write_natCast {α : Type} (a : List α) (i : Nat) (x : α)
    (h : i < a.length) : write a (i : Int) x = some (a.set i x) := by
  simp [write, h]

theorem c_mod_natCast (a n : Nat) : c_mod (a : Int) (n : Int) = ((a % n : Nat) : Int) := by
  unfold c_mod
  rw [Int.tmod_eq_emod (Int.ofNat_nonneg a) (Int.ofNat_nonneg n)]
  norm_cast

theorem scan_of_terminated (v : Argv) (h : terminated v) :
    scan v = some (argv_tokens v) := by
  induction v with
  | nil => simp [terminated] at h
  | cons a rest ih =>
    cases a with
    | none => simp [scan, argv_tokens, List.reduceOption]
    | some s =>
      have h2 : terminated rest := by
        simpa [terminated] using h
      simp [scan, ih h2, argv_tokens, List.reduceOption, List.takeWhile]

theorem scan_of_not_terminated (v : Argv) (h : ¬ terminated v) :
    scan v = none := by
  induction v with
  | nil => rfl
  | cons a rest ih =>
    cases a with
    | none => simp [terminated] at h
    | some s =>
      have h2 : ¬ terminated rest := by
        simpa [terminated] using h
      simp [scan, ih h2]

theorem free_argv_of_terminated (v : Argv) (h : terminated v) :
    free_argv (some v) =
      some ((argv_tokens v).map Event.free_str ++ [Event.free_vec v]) := by
  simp [free_argv, scan_of_terminated v h]

/-! ## The circular buffers -/

theorem ring_push {α : Type} (l : List α) (c : Nat) (x : α) (hc : c < l.length) :
    (l.set c x).rotate ((c + 1) % l.length) = (l.rotate c).drop 1 ++ [x] := by
  apply List.ext_getElem
  · simp; omega
  · intro i h1 h2
    simp only [List.length_rotate, List.length_set] at h1
    rw [List.getElem_rotate]
    simp only [List.length_set]
    rw [List.getElem_set]
    by_cases hi : i + 1 < l.length
    · rw [List.getElem_append_left (by simp; omega)]
      rw [List.getElem_drop, List.getElem_rotate]
      have hne : c ≠ (i + (c + 1) % l.length) % l.length := by
        intro h
        rcases Nat.lt_or_ge (c + 1) l.length with h3 | h3
        · rw [Nat.mod_eq_of_lt h3] at h
          rcases Nat.lt_or_ge (i + (c + 1)) l.length with h4 | h4
          · rw [Nat.mod_eq_of_lt h4] at h; omega
          · have : (i + (c + 1)) % l.length = i + (c + 1) - l.length := by
              rw [Nat.mod_eq_sub_mod h4, Nat.mod_eq_of_lt (by omega)]
            omega
        · have h5 : c + 1 = l.length := by omega
          rw [h5, Nat.mod_self, Nat.add_zero, Nat.mod_eq_of_lt h1] at h
          omega
      rw [if_neg hne]
      congr 1
      rcases Nat.lt_or_ge (c + 1) l.length with h3 | h3
      · rw [Nat.mod_eq_of_lt h3]; congr 1; omega
      · have h5 : c + 1 = l.length := by omega
        rw [h5, Nat.mod_self, Nat.add_zero]
        rw [← h5]
        have : 1 + i + c = i + (c + 1) := by omega
        rw [this, h5, Nat.add_mod_right]
    · have hi2 : i = l.length - 1 := by omega
      have he : c = (i + (c + 1) % l.length) % l.length := by
        rcases Nat.lt_or_ge (c + 1) l.length with h3 | h3
        · rw [Nat.mod_eq_of_lt h3]
          have h4 : i + (c + 1) = c + l.length := by omega
          rw [h4, Nat.add_mod_right, Nat.mod_eq_of_lt hc]
        · have h5 : c + 1 = l.length := by omega
          rw [h5, Nat.mod_self, Nat.add_zero, Nat.mod_eq_of_lt h1]; omega
      rw [if_pos he]
      rw [List.getElem_append_right (by simp; omega)]
      simp

/-- Reading slot `(cursor + i) % size` of a buffer is reading position `i` of
its view. -/
theorem read_ring {α : Type} (l : List α) (c i : Nat) (hi : i < l.length) :
    read l (c_mod ((c : Int) + (i : Int)) (l.length : Int)) = (l.rotate c)[i]? := by
  have h1 : ((c : Int) + (i : Int)) = ((c + i : Nat) : Int) := by norm_cast
  rw [h1, c_mod_natCast, read_natCast]
  have hlt : (c + i) % l.length < l.length := Nat.mod_lt _ (by omega)
  rw [List.getElem?_eq_getElem hlt, List.getElem?_eq_getElem (by simpa using hi),
    List.getElem_rotate]
  simp [Nat.add_comm]

/-- The recall index `(cursor - 1 - n + size) % size` designates position
`size - 1 - n` of the view. -/
theorem read_ring_back {α : Type} (l : List α) (c n : Nat)
    (hn : n < l.length) :
    read l (c_mod ((c : Int) - 1 - (n : Int) + (l.length : Int)) (l.length : Int)) =
      (l.rotate c)[l.length - 1 - n]? := by
  have h1 : ((c : Int) - 1 - (n : Int) + (l.length : Int)) =
      ((c + (l.length - 1 - n) : Nat) : Int) := by
    omega
  rw [h1]
  have := read_ring l c (l.length - 1 - n) (by omega)
  rw [← this]
  congr 1

/-! ## The two listing loops -/

theorem history_loop_eq (ah : argv_history_t) (hwf : ah.wf) :
    ∀ (fuel i : Nat) (count : Int), i + fuel = ARGV_HISTORY_SIZE →
      history_loop ah fuel (i : Int) count =
        some (history_lines count ((ah.view.drop i).reduceOption)) := by
  rcases ah with ⟨l, cur⟩
  obtain ⟨hlen, h0, h1, hterm⟩ := hwf
  simp only at hlen h0 h1 hterm
  lift cur to ℕ using h0
  intro fuel
  induction fuel with
  | zero =>
    intro i count hi
    have : l.length ≤ i := by omega
    simp [history_loop, argv_history_t.view, history_lines, List.drop_of_length_le, this]
  | succ fuel ih =>
    intro i count hi
    have hil : i < l.length := by omega
    have hr := read_ring l cur i hil
    rw [hlen] at hr
    have hv : i < (l.rotate cur).length := by simpa using hil
    simp only [history_loop, hr, argv_history_t.view, Int.toNat_ofNat]
    rw [List.getElem?_eq_getElem hv, List.drop_eq_getElem_cons hv]
    have hmem : (l.rotate cur)[i] ∈ l := by
      have h3 : (l.rotate cur)[i] ∈ l.rotate cur := List.getElem_mem hv
      exact List.mem_rotate.mp h3
    have hnext := ih (i + 1) 
    simp only [argv_history_t.view, Int.toNat_ofNat, Nat.cast_add, Nat.cast_one] at hnext
    cases hs : (l.rotate cur)[i] with
    | none =>
      simp only [Option.some_bind, List.reduceOption_cons_of_none]
      exact hnext count (by omega)
    | some v =>
      have ht : terminated v := by
        have := hterm _ hmem
        rw [hs] at this
        exact this
      simp only [Option.some_bind, List.reduceOption_cons_of_some, scan_of_terminated v ht,
        hnext (count + 1) (by omega), Option.map_some', history_lines]
      rfl

theorem listpids_loop_eq (ph : pid_history_t) (hwf : ph.wf) :
    ∀ (fuel i : Nat) (count : Int), i + fuel = PID_HISTORY_SIZE →
      listpids_loop ph fuel (i : Int) count =
        some (pid_lines count ((ph.view.drop i).filter (fun p => p > 0))) := by
  rcases ph with ⟨l, cur⟩
  obtain ⟨hlen, h0, h1⟩ := hwf
  simp only at hlen h0 h1
  lift cur to ℕ using h0
  intro fuel
  induction fuel with
  | zero =>
    intro i count hi
    have : l.length ≤ i := by omega
    simp [listpids_loop, pid_history_t.view, pid_lines, List.drop_of_length_le, this]
  | succ fuel ih =>
    intro i count hi
    have hil : i < l.length := by omega
    have hr := read_ring l cur i hil
    rw [hlen] at hr
    have hv : i < (l.rotate cur).length := by simpa using hil
    simp only [listpids_loop, hr, pid_history_t.view, Int.toNat_ofNat]
    rw [List.getElem?_eq_getElem hv, List.drop_eq_getElem_cons hv]
    have hnext := ih (i + 1)
    simp only [pid_history_t.view, Int.toNat_ofNat, Nat.cast_add, Nat.cast_one] at hnext
    by_cases hp : (l.rotate cur)[i] > 0
    · simp only [Option.some_bind, hp, if_true, hnext (count + 1) (by omega), Option.map_some',
        List.filter_cons, decide_True, pid_lines]
    · simp only [Option.some_bind, hp, if_false, hnext count (by omega),
        List.filter_cons, decide_False]
      rfl

/-- On a sound state the `history` loop prints the occupied slots from the
oldest to the newest, numbered from 0. -/
theorem history_loop_view (ah : argv_history_t) (hwf : ah.wf) :
    history_loop ah ARGV_HISTORY_SIZE 0 0 =
      some (history_lines 0 ah.view.reduceOption) := by
  have h := history_loop_eq ah hwf ARGV_HISTORY_SIZE 0 0 (by simp)
  simpa using h

/-- On a sound state the `listpids` loop prints the positive slots from the
oldest to the newest, numbered from 0. -/
theorem listpids_loop_view (ph : pid_history_t) (hwf : ph.wf) :
    listpids_loop ph PID_HISTORY_SIZE 0 0 =
      some (pid_lines 0 (ph.view.filter (fun p => p > 0))) := by
  have h := listpids_loop_eq ph hwf PID_HISTORY_SIZE 0 0 (by simp)
  simpa using h


/-! ## The dispatch -/

theorem command_name_cons (a : Option Token) (rest : Argv) :
    command_name (a :: rest) = a := by
  simp [command_name, read]

theorem read_zero_of_terminated (v : Argv) (h : terminated v) :
    read v 0 = some (command_name v) := by
  cases v with
  | nil => simp [terminated] at h
  | cons a rest => simp [command_name, read]

theorem launched_pid_lines (count : Int) (ps : List Int) :
    launched (pid_lines count ps) = [] := by
  induction ps generalizing count with
  | nil => rfl
  | cons p ps ih => simp [pid_lines, launched, ih]

theorem launched_map_token (ts : List Token) (rest : List Event) :
    launched (ts.map Event.printf_token ++ rest) = launched rest := by
  induction ts with
  | nil => rfl
  | cons t ts ih => simp [launched, ih]

theorem launched_history_lines (count : Int) (vs : List Argv) :
    launched (history_lines count vs) = [] := by
  induction vs generalizing count with
  | nil => rfl
  | cons v vs ih => simp [history_lines, launched, launched_map_token, ih]

theorem no_free_pid_lines (count : Int) (ps : List Int) :
    (pid_lines count ps).filter Event.is_free = [] := by
  induction ps generalizing count with
  | nil => rfl
  | cons p ps ih => simp [pid_lines, Event.is_free, ih]

theorem no_free_history_lines (count : Int) (vs : List Argv) :
    (history_lines count vs).filter Event.is_free = [] := by
  induction vs generalizing count with
  | nil => rfl
  | cons v vs ih =>
    simp only [history_lines, List.filter_cons, Event.is_free, List.filter_append, ih]
    simp [List.filter_eq_nil_iff, Event.is_free]

/-- What the dispatch does in the interpreter process, on a sound state. -/
theorem msh_dispatch_parent (env : Env) (v : Argv) (ph : pid_history_t)
    (ah : argv_history_t) (hph : ph.wf) (hah : ah.wf) (hv : terminated v)
    (hf : env.fork ≠ 0) :
    ∃ r, msh_dispatch env (command_name v) v ph ah = some r ∧
      r.argv_history = ah ∧
      r.pid_history = (launched r.trace).foldl record_pid ph ∧
      r.trace.filter Event.is_free = [] ∧
      (r.outcome = Outcome.ret 0 ∨ r.outcome = Outcome.ret 1) ∧
      (r.outcome = Outcome.ret 0 ↔
        (command_name v = some "exit".toList ∨ command_name v = some "quit".toList ∨
          (is_external v ∧ env.fork < 0))) := by
  cases v with
  | nil => simp [terminated] at hv
  | cons a rest =>
    rw [command_name_cons]
    cases a with
    | none =>
      refine ⟨_, rfl, rfl, rfl, rfl, Or.inr rfl, ?_⟩
      simp [is_external, command_name_cons]
    | some name =>
      unfold msh_dispatch
      simp only [is_external, command_name_cons, Option.some.injEq, exists_eq_left']
      by_cases h1 : name = "exit".toList ∨ name = "quit".toList
      · rw [if_pos h1]
        refine ⟨_, rfl, rfl, rfl, rfl, Or.inl rfl, ?_⟩
        simp only [true_iff]
        tauto
      · rw [if_neg h1]
        by_cases h2 : name = "cd".toList
        · rw [if_pos h2]
          cases rest with
          | nil => simp [terminated] at hv
          | cons b rest2 =>
            have hb : read (some name :: b :: rest2) 1 = some b := by
              simp [read]
            rw [hb]
            cases b with
            | none =>
              refine ⟨_, rfl, rfl, rfl, rfl, Or.inr rfl, ?_⟩
              subst h2
              simp [builtins]
            | some path =>
              refine ⟨_, rfl, rfl, rfl, rfl, Or.inr rfl, ?_⟩
              subst h2
              simp [builtins]
        · rw [if_neg h2]
          by_cases h3 : name = "listpids".toList
          · rw [if_pos h3, listpids_loop_view ph hph]
            refine ⟨_, rfl, rfl, ?_, ?_, Or.inr rfl, ?_⟩
            · simp [launched_pid_lines]
            · simp [no_free_pid_lines]
            · subst h3
              simp [builtins]
          · rw [if_neg h3]
            by_cases h4 : name = "history".toList
            · rw [if_pos h4, history_loop_view ah hah]
              refine ⟨_, rfl, rfl, ?_, ?_, Or.inr rfl, ?_⟩
              · simp [launched_history_lines]
              · simp [no_free_history_lines]
              · subst h4
                simp [builtins]
            · rw [if_neg h4, if_neg hf]
              have hext : name ∉ builtins := by
                simp only [builtins, List.mem_cons, List.mem_singleton, not_or]
                simp only [not_or] at h1
                exact ⟨h1.1, h1.2, h2, h3, h4, by simp⟩
              by_cases h5 : env.fork < 0
              · rw [if_pos h5]
                refine ⟨_, rfl, rfl, ?_, rfl, Or.inl rfl, ?_⟩
                · have : ¬ env.fork > 0 := by omega
                  simp [launched, this]
                · simp only [true_iff]
                  exact Or.inr (Or.inr ⟨hext, h5⟩)
              · rw [if_neg h5]
                obtain ⟨hlen, h0, hlt⟩ := hph
                have hw : write ph.history ph.current_index env.fork =
                    some (ph.history.set ph.current_index.toNat env.fork) := by
                  unfold write
                  rw [if_pos ⟨h0, by rw [hlen]; exact hlt⟩]
                rw [hw]
                refine ⟨_, rfl, rfl, ?_, rfl, Or.inr rfl, ?_⟩
                · have : env.fork > 0 := by omega
                  simp [launched, this, record_pid]
                · simp only [Option.map_some', Outcome.ret.injEq, one_ne_zero, false_iff]
                  rintro (h | h | ⟨_, h⟩)
                  · exact h1 (Or.inl h)
                  · exact h1 (Or.inr h)
                  · exact h5 h


/-! ## One call of `msh_exec` -/

theorem free_argv_of_slot (s : Option Argv) (h : slot_terminated s) :
    free_argv s = some (released s) := by
  cases s with
  | none => rfl
  | some v => exact free_argv_of_terminated v h

theorem record_command_wf (ah : argv_history_t) (argv : Argv) (hah : ah.wf)
    (hv : terminated argv) : (record_command ah argv).wf := by
  rcases ah with ⟨l, cur⟩
  obtain ⟨hlen, h0, h1, hterm⟩ := hah
  simp only at hlen h0 h1 hterm
  lift cur to ℕ using h0
  have hc : ((cur : Int) + 1) = ((cur + 1 : Nat) : Int) := by norm_cast
  refine ⟨by simpa [record_command] using hlen, ?_, ?_, ?_⟩
  · simp only [record_command, hc, c_mod_natCast]
    exact Int.ofNat_nonneg _
  · simp only [record_command, hc, c_mod_natCast]
    have : (cur + 1) % ARGV_HISTORY_SIZE < ARGV_HISTORY_SIZE := Nat.mod_lt _ (by decide)
    exact_mod_cast this
  · intro s hs
    simp only [record_command] at hs
    rcases List.mem_or_eq_of_mem_set hs with h | h
    · exact hterm s h
    · subst h; exact hv

theorem record_command_view (ah : argv_history_t) (argv : Argv) (hah : ah.wf) :
    (record_command ah argv).view = ah.view.drop 1 ++ [some argv] := by
  rcases ah with ⟨l, cur⟩
  obtain ⟨hlen, h0, h1, hterm⟩ := hah
  simp only at hlen h0 h1 hterm
  lift cur to ℕ using h0
  have hc : ((cur : Int) + 1) = ((cur + 1 : Nat) : Int) := by norm_cast
  have hcl : cur < l.length := by rw [hlen]; exact_mod_cast h1
  simp only [record_command, argv_history_t.view, hc, c_mod_natCast, Int.toNat_ofNat]
  rw [← hlen]
  exact ring_push l cur (some argv) hcl

theorem record_pid_wf (ph : pid_history_t) (pid : Int) (hph : ph.wf) :
    (record_pid ph pid).wf := by
  rcases ph with ⟨l, cur⟩
  obtain ⟨hlen, h0, h1⟩ := hph
  simp only at hlen h0 h1
  lift cur to ℕ using h0
  have hc : ((cur : Int) + 1) = ((cur + 1 : Nat) : Int) := by norm_cast
  refine ⟨by simpa [record_pid] using hlen, ?_, ?_⟩
  · simp only [record_pid, hc, c_mod_natCast]
    exact Int.ofNat_nonneg _
  · simp only [record_pid, hc, c_mod_natCast]
    have : (cur + 1) % PID_HISTORY_SIZE < PID_HISTORY_SIZE := Nat.mod_lt _ (by decide)
    exact_mod_cast this

theorem record_pid_view (ph : pid_history_t) (pid : Int) (hph : ph.wf) :
    (record_pid ph pid).view = ph.view.drop 1 ++ [pid] := by
  rcases ph with ⟨l, cur⟩
  obtain ⟨hlen, h0, h1⟩ := hph
  simp only at hlen h0 h1
  lift cur to ℕ using h0
  have hc : ((cur : Int) + 1) = ((cur + 1 : Nat) : Int) := by norm_cast
  have hcl : cur < l.length := by rw [hlen]; exact_mod_cast h1
  simp only [record_pid, pid_history_t.view, hc, c_mod_natCast, Int.toNat_ofNat]
  rw [← hlen]
  exact ring_push l cur pid hcl

/-- The slot at the write cursor is the head of the view. -/
theorem read_cursor (ah : argv_history_t) (hah : ah.wf) :
    read ah.history ah.current_index = some (ah.view.head?.join) ∧
      slot_terminated (ah.view.head?.join) := by
  rcases ah with ⟨l, cur⟩
  obtain ⟨hlen, h0, h1, hterm⟩ := hah
  simp only at hlen h0 h1 hterm
  lift cur to ℕ using h0
  have hcl : cur < l.length := by rw [hlen]; exact_mod_cast h1
  have h := read_ring l cur 0 (by omega)
  simp only [Nat.cast_zero, add_zero] at h
  have hm : c_mod (cur : Int) (l.length : Int) = (cur : Int) := by
    rw [c_mod_natCast, Nat.mod_eq_of_lt hcl]
  rw [hm] at h
  have hv : 0 < (l.rotate cur).length := by simpa using (by omega : 0 < l.length)
  simp only [argv_history_t.view, Int.toNat_ofNat]
  rw [h, List.getElem?_eq_getElem hv]
  have hh : (l.rotate cur).head? = some (l.rotate cur)[0] := by
    rw [List.head?_eq_getElem?, List.getElem?_eq_getElem hv]
  rw [hh]
  refine ⟨rfl, ?_⟩
  simp only [Option.join]
  apply hterm
  exact List.mem_rotate.mp (List.getElem_mem hv)

/-- The lookup of a recall offset is a read of the view from its newest end. -/
theorem lookup_command_view (ah : argv_history_t) (hah : ah.wf) (n : Nat)
    (hn : n < ARGV_HISTORY_SIZE) :
    read ah.history
        (c_mod (ah.current_index - 1 - (n : Int) + ARGV_HISTORY_SIZE) ARGV_HISTORY_SIZE) =
      ah.view[ARGV_HISTORY_SIZE - 1 - n]? := by
  rcases ah with ⟨l, cur⟩
  obtain ⟨hlen, h0, h1, hterm⟩ := hah
  simp only at hlen h0 h1 hterm
  lift cur to ℕ using h0
  have h := read_ring_back l cur n (by omega)
  rw [hlen] at h
  simpa [argv_history_t.view] using h

/-- A call on a vector that is not a recall: the occupant of the write slot is
released, the vector is recorded, and the dispatch runs on the vector itself. -/
theorem msh_exec_record (env : Env) (argv : Argv) (ph : pid_history_t)
    (ah : argv_history_t) (hah : ah.wf) (hv : terminated argv)
    (hr : is_recall argv = false) :
    msh_exec env argv ph ah =
      (msh_dispatch env (command_name argv) argv ph (record_command ah argv)).map
        (Result.after (released (ah.view.head?.join))) := by
  obtain ⟨hread, hslot⟩ := read_cursor ah hah
  have h0 := read_zero_of_terminated argv hv
  have hrs : recall_suffix (command_name argv) = none := by
    simpa [is_recall, command_name] using hr
  have hw : write ah.history ah.current_index (some argv) =
      some (ah.history.set ah.current_index.toNat (some argv)) := by
    obtain ⟨hlen, h0, h1, _⟩ := hah
    unfold write
    rw [if_pos ⟨h0, by rw [hlen]; exact h1⟩]
  unfold msh_exec
  rw [h0]
  simp only [Option.some_bind, hrs, hread, free_argv_of_slot _ hslot, hw]
  rfl

/-- A call on a recall vector: the vector is released, then the offset is
checked, the slot is looked up, and the dispatch runs on its occupant. -/
theorem msh_exec_recall (env : Env) (argv : Argv) (ph : pid_history_t)
    (ah : argv_history_t) (hah : ah.wf) (hv : terminated argv) (rest : List Char)
    (hr : recall_suffix (command_name argv) = some rest) :
    msh_exec env argv ph ah =
      if 0 ≤ atoi rest ∧ atoi rest < ARGV_HISTORY_SIZE then
        match lookup_command ah (atoi rest) with
        | none =>
          some ⟨Outcome.ret 1, ph, ah,
            released (some argv) ++ [Event.puts "Command not in history.".toList]⟩
        | some v =>
          (msh_dispatch env (command_name v) v ph ah).map
            (Result.after (released (some argv)))
      else
        some ⟨Outcome.ret 1, ph, ah,
          released (some argv) ++ [Event.puts "Invalid n.".toList]⟩ := by
  have h0 := read_zero_of_terminated argv hv
  unfold msh_exec
  rw [h0]
  simp only [Option.some_bind, hr, free_argv_of_terminated argv hv, released]
  by_cases hn : 0 ≤ atoi rest ∧ atoi rest < ARGV_HISTORY_SIZE
  · rw [if_pos hn, if_pos hn]
    obtain ⟨n, hn2⟩ := Int.eq_ofNat_of_zero_le hn.1
    have hlt : n < ARGV_HISTORY_SIZE := by
      have := hn.2
      rw [hn2] at this
      exact_mod_cast this
    have hl := lookup_command_view ah hah n hlt
    simp only [lookup_command, hn2]
    rw [hl]
    have hvl : ARGV_HISTORY_SIZE - 1 - n < ah.view.length := by
      simp [argv_history_t.view, hah.1]
      omega
    rw [List.getElem?_eq_getElem hvl]
    cases hs : ah.view[ARGV_HISTORY_SIZE - 1 - n] with
    | none => rfl
    | some v =>
      have hm : ah.view[ARGV_HISTORY_SIZE - 1 - n] ∈ ah.history :=
        List.mem_rotate.mp (List.getElem_mem hvl)
      have ht : terminated v := by
        have := hah.2.2.2 _ hm
        rw [hs] at this
        exact this
      simp only [Option.some_bind, Option.join, read_zero_of_terminated v ht]
      rfl
  · rw [if_neg hn, if_neg hn]


theorem launched_append (a b : List Event) :
    launched (a ++ b) = launched a ++ launched b := by
  induction a with
  | nil => rfl
  | cons e a ih =>
    cases e with
    | fork p => by_cases hp : p > 0 <;> simp [launched, hp, ih]
    | _ => simp [launched, ih]

theorem launched_released (s : Option Argv) : launched (released s) = [] := by
  cases s with
  | none => rfl
  | some v =>
    simp only [released, launched_append]
    have : ∀ ts : List Token, launched (ts.map Event.free_str) = [] := by
      intro ts
      induction ts with
      | nil => rfl
      | cons t ts ih => simp [launched, ih]
    simp [this, launched]

theorem filter_free_released (s : Option Argv) :
    (released s).filter Event.is_free = released s := by
  cases s with
  | none => rfl
  | some v =>
    simp only [released, List.filter_eq_self]
    intro e he
    simp only [List.mem_append, List.mem_map, List.mem_singleton] at he
    rcases he with ⟨t, _, rfl⟩ | rfl <;> rfl

theorem foldl_record_pid_wf (ps : List Int) (ph : pid_history_t) (hph : ph.wf) :
    (ps.foldl record_pid ph).wf := by
  induction ps generalizing ph with
  | nil => exact hph
  | cons p ps ih => exact ih _ (record_pid_wf ph p hph)

/-- One call in the interpreter process on a sound state: it returns, and its
effect on the two histories and the memory it releases are those of the
resolution step. -/
theorem msh_exec_step (env : Env) (argv : Argv) (ph : pid_history_t)
    (ah : argv_history_t) (hph : ph.wf) (hah : ah.wf) (hv : terminated argv)
    (hf : env.fork ≠ 0) :
    ∃ r k, msh_exec env argv ph ah = some r ∧ r.outcome = Outcome.ret k ∧
      r.argv_history = (if is_recall argv then ah else record_command ah argv) ∧
      r.pid_history = (launched r.trace).foldl record_pid ph ∧
      r.trace.filter Event.is_free =
        (if is_recall argv then released (some argv)
          else released (ah.view.head?.join)) := by
  cases hr : is_recall argv with
  | false =>
    rw [msh_exec_record env argv ph ah hah hv hr]
    obtain ⟨r, hd, h1, h2, h3, h4, _⟩ :=
      msh_dispatch_parent env argv ph (record_command ah argv) hph
        (record_command_wf ah argv hah hv) hv hf
    rw [hd]
    have hk : ∃ k, r.outcome = Outcome.ret k := by
      rcases h4 with h | h
      · exact ⟨0, h⟩
      · exact ⟨1, h⟩
    obtain ⟨k, hk⟩ := hk
    refine ⟨_, k, rfl, hk, ?_, ?_, ?_⟩
    · simpa [Result.after] using h1
    · simpa [Result.after, launched_append, launched_released] using h2
    · simp [Result.after, List.filter_append, filter_free_released, h3]
  | true =>
    have hrs : ∃ rest, recall_suffix (command_name argv) = some rest := by
      simp only [is_recall] at hr
      exact Option.isSome_iff_exists.mp hr
    obtain ⟨rest, hrs⟩ := hrs
    rw [msh_exec_recall env argv ph ah hah hv rest hrs]
    have hnone : launched (released (some argv)) = [] := launched_released _
    have hfree := filter_free_released (some argv)
    by_cases hn : 0 ≤ atoi rest ∧ atoi rest < ARGV_HISTORY_SIZE
    · rw [if_pos hn]
      cases hl : lookup_command ah (atoi rest) with
      | none =>
        refine ⟨_, 1, rfl, rfl, by simp, ?_, ?_⟩
        · simp [launched_append, hnone, launched]
        · simp [List.filter_append, hfree, Event.is_free]
      | some v =>
        have hvt : terminated v := by
          obtain ⟨n, hn2⟩ := Int.eq_ofNat_of_zero_le hn.1
          have hlt : n < ARGV_HISTORY_SIZE := by
            have := hn.2
            rw [hn2] at this
            exact_mod_cast this
          have h := lookup_command_view ah hah n hlt
          simp only [lookup_command, hn2, h] at hl
          have hvl : ARGV_HISTORY_SIZE - 1 - n < ah.view.length := by
            simp [argv_history_t.view, hah.1]
            omega
          rw [List.getElem?_eq_getElem hvl] at hl
          have hm : ah.view[ARGV_HISTORY_SIZE - 1 - n] ∈ ah.history :=
            List.mem_rotate.mp (List.getElem_mem hvl)
          have := hah.2.2.2 _ hm
          have hl2 : ah.view[ARGV_HISTORY_SIZE - 1 - n] = some v := by
            simpa [Option.join] using hl
          rw [hl2] at this
          exact this
        obtain ⟨r, hd, h1, h2, h3, h4, _⟩ :=
          msh_dispatch_parent env v ph ah hph hah hvt hf
        simp only [hd, Option.map_some']
        have hk : ∃ k, r.outcome = Outcome.ret k := by
          rcases h4 with h | h
          · exact ⟨0, h⟩
          · exact ⟨1, h⟩
        obtain ⟨k, hk⟩ := hk
        refine ⟨_, k, rfl, hk, ?_, ?_, ?_⟩
        · simpa [Result.after] using h1
        · simpa [Result.after, launched_append, hnone] using h2
        · simp [Result.after, List.filter_append, hfree, h3]
    · rw [if_neg hn]
      refine ⟨_, 1, rfl, rfl, by simp, ?_, ?_⟩
      · simp [launched_append, hnone, launched]
      · simp [List.filter_append, hfree, Event.is_free]

/-- A sequence of calls in the interpreter process from a sound state: every
call returns, the command history has recorded exactly the vectors that are
not recalls, and the process-identifier history exactly the children created. -/
theorem msh_exec_seq_spec (inputs : List (Env × Argv)) :
    ∀ (ph : pid_history_t) (ah : argv_history_t), ph.wf → ah.wf →
      (∀ x ∈ inputs, terminated x.2 ∧ x.1.fork ≠ 0) →
      ∃ ph2 ah2 tr, msh_exec_seq inputs ph ah = some (ph2, ah2, tr) ∧
        ph2.wf ∧ ah2.wf ∧
        ah2 = (non_recalls inputs).foldl record_command ah ∧
        ph2 = (launched tr).foldl record_pid ph := by
  induction inputs with
  | nil =>
    intro ph ah hph hah _
    exact ⟨ph, ah, [], rfl, hph, hah, rfl, rfl⟩
  | cons x rest ih =>
    intro ph ah hph hah hin
    obtain ⟨hx1, hx2⟩ := hin x (List.mem_cons_self _ _)
    obtain ⟨r, k, he, hk, ha, hp, _⟩ := msh_exec_step x.1 x.2 ph ah hph hah hx1 hx2
    have hah2 : r.argv_history.wf := by
      rw [ha]
      split
      · exact hah
      · exact record_command_wf ah x.2 hah hx1
    have hph2 : r.pid_history.wf := by
      rw [hp]
      exact foldl_record_pid_wf _ ph hph
    obtain ⟨ph3, ah3, tr, hs, w1, w2, e1, e2⟩ :=
      ih r.pid_history r.argv_history hph2 hah2
        (fun y hy => hin y (List.mem_cons_of_mem _ hy))
    refine ⟨ph3, ah3, r.trace ++ tr, ?_, w1, w2, ?_, ?_⟩
    · simp only [msh_exec_seq, he, Option.some_bind, hk, hs, Option.map_some']
    · rw [e1, ha]
      simp only [non_recalls, List.map_cons, List.filter_cons]
      cases hrec : is_recall x.2 <;> simp
    · rw [e2, hp, launched_append, List.foldl_append]

/-! ## The content of the buffers after a sequence of stores -/

theorem drop_push {α : Type} (v : List α) (x : α) (xs : List α) (hv : v ≠ []) :
    ((v.drop 1 ++ [x]) ++ xs).drop xs.length = (v ++ x :: xs).drop (xs.length + 1) := by
  cases v with
  | nil => exact absurd rfl hv
  | cons a v =>
    simp

theorem foldl_record_command_view (cs : List Argv) :
    ∀ ah : argv_history_t, ah.wf → (∀ c ∈ cs, terminated c) →
      (cs.foldl record_command ah).view = (ah.view ++ cs.map some).drop cs.length := by
  induction cs with
  | nil => intro ah _ _; simp
  | cons c cs ih =>
    intro ah hah hcs
    have hc := hcs c (List.mem_cons_self _ _)
    rw [List.foldl_cons, ih _ (record_command_wf ah c hah hc)
      (fun d hd => hcs d (List.mem_cons_of_mem _ hd)), record_command_view ah c hah]
    have hne : ah.view ≠ [] := by
      intro h
      have := congrArg List.length h
      simp [argv_history_t.view, hah.1, ARGV_HISTORY_SIZE] at this
    have := drop_push ah.view (some c) (cs.map some) hne
    simpa using this

theorem foldl_record_pid_view (ps : List Int) :
    ∀ ph : pid_history_t, ph.wf →
      (ps.foldl record_pid ph).view = (ph.view ++ ps).drop ps.length := by
  induction ps with
  | nil => intro ph _; simp
  | cons p ps ih =>
    intro ph hph
    rw [List.foldl_cons, ih _ (record_pid_wf ph p hph), record_pid_view ph p hph]
    have hne : ph.view ≠ [] := by
      intro h
      have := congrArg List.length h
      simp [pid_history_t.view, hph.1, PID_HISTORY_SIZE] at this
    exact drop_push ph.view p ps hne


/-! ## `atoi` on decimal numerals -/

theorem digitChar_isDigit (d : Nat) (hd : d < 10) :
    (Nat.digitChar d).isDigit = true ∧ (Nat.digitChar d).toNat - 48 = d ∧
      isspace (Nat.digitChar d) = false ∧ Nat.digitChar d ≠ '-' ∧ Nat.digitChar d ≠ '+' := by
  interval_cases d <;> decide

theorem digits_value_toDigitsCore (fuel : Nat) :
    ∀ (n : Nat) (ds : List Char), n < fuel →
      ∃ xs, Nat.toDigitsCore 10 fuel n ds = xs ++ ds ∧ xs ≠ [] ∧
        (∀ c ∈ xs.head?, c.isDigit = true ∧ isspace c = false ∧ c ≠ '-' ∧ c ≠ '+') ∧
        ∀ (rest : List Char) (acc : Nat),
          digits_value (xs ++ rest) acc = digits_value rest (acc * 10 ^ xs.length + n) := by
  induction fuel with
  | zero => intro n ds h; omega
  | succ fuel ih =>
    intro n ds hn
    have hd := digitChar_isDigit (n % 10) (Nat.mod_lt _ (by decide))
    unfold Nat.toDigitsCore
    by_cases h0 : n / 10 = 0
    · simp only [h0, if_true]
      refine ⟨[Nat.digitChar (n % 10)], rfl, by simp, ?_, ?_⟩
      · intro c hc
        simp only [List.head?_cons, Option.mem_def, Option.some.injEq] at hc
        subst hc
        exact ⟨hd.1, hd.2.2.1, hd.2.2.2.1, hd.2.2.2.2⟩
      · intro rest acc
        simp only [List.singleton_append, digits_value, hd.1, if_true, hd.2.1,
          List.length_singleton, pow_one]
        congr 1
        omega
    · simp only [h0, if_false]
      obtain ⟨xs, hx, hne, hhead, hval⟩ :=
        ih (n / 10) (Nat.digitChar (n % 10) :: ds) (by omega)
      refine ⟨xs ++ [Nat.digitChar (n % 10)], by simp [hx], by simp, ?_, ?_⟩
      · intro c hc
        apply hhead
        cases xs with
        | nil => exact absurd rfl hne
        | cons a xs => simpa using hc
      · intro rest acc
        rw [List.append_assoc, hval]
        simp only [List.singleton_append, digits_value, hd.1, if_true, hd.2.1,
          List.length_append, List.length_singleton]
        congr 1
        rw [pow_succ]
        have := Nat.div_add_mod n 10
        nlinarith [Nat.div_add_mod n 10]

theorem strtol_decimal (n : Nat) (rest : List Char)
    (hrest : ∀ c ∈ rest.head?, c.isDigit = false) :
    strtol (decimal n ++ rest) = min LONG_MAX (n : Int) := by
  obtain ⟨xs, hx, hne, hhead, hval⟩ := digits_value_toDigitsCore (n + 1) n [] (by omega)
  simp only [List.append_nil] at hx
  have hdec : decimal n = xs := hx
  rw [hdec]
  cases xs with
  | nil => exact absurd rfl hne
  | cons c cs =>
    obtain ⟨h1, h2, h3, h4⟩ := hhead c (by simp)
    have hv := hval rest 0
    have hrv : digits_value rest (0 * 10 ^ (c :: cs).length + n) = n := by
      cases rest with
      | nil => simp [digits_value]
      | cons a rest =>
        have := hrest a (by simp)
        simp [digits_value, this]
    rw [hrv] at hv
    unfold strtol
    simp only [List.cons_append, List.dropWhile_cons, h2, Bool.false_eq_true, if_false, h3, h4]
    rw [← List.cons_append, hv]

theorem atoi_decimal (n : Nat) (hn : n < 2 ^ 31) : atoi (decimal n) = n := by
  have h := strtol_decimal n [] (by simp)
  simp only [List.append_nil] at h
  unfold atoi to_int
  rw [h]
  have : min LONG_MAX (n : Int) = n := by
    unfold LONG_MAX
    omega
  rw [this]
  omega


/-! ## The histories after a sequence of calls from the initial state -/

theorem init_argv_history_wf : init_argv_history.wf := by decide

theorem init_pid_history_wf : init_pid_history.wf := by decide

theorem init_argv_history_view :
    init_argv_history.view = List.replicate ARGV_HISTORY_SIZE none := by decide

theorem init_pid_history_view :
    init_pid_history.view = List.replicate PID_HISTORY_SIZE 0 := by decide

theorem non_recalls_terminated (inputs : List (Env × Argv))
    (hin : ∀ x ∈ inputs, terminated x.2 ∧ x.1.fork ≠ 0) :
    ∀ c ∈ non_recalls inputs, terminated c := by
  intro c hc
  simp only [non_recalls, List.mem_filter, List.mem_map] at hc
  obtain ⟨⟨x, hx, rfl⟩, _⟩ := hc
  exact (hin x hx).1

theorem foldl_record_command_wf (cs : List Argv) :
    ∀ ah : argv_history_t, ah.wf → (∀ c ∈ cs, terminated c) →
      (cs.foldl record_command ah).wf := by
  induction cs with
  | nil => intro ah h _; exact h
  | cons c cs ih =>
    intro ah h hl
    exact ih _ (record_command_wf ah c h (hl c (List.mem_cons_self _ _)))
      (fun d hd => hl d (List.mem_cons_of_mem _ hd))

/-- The lookup of offset `n` after the vectors `cs` were recorded from the
initial state. -/
theorem lookup_after_records (cs : List Argv) (hcs : ∀ c ∈ cs, terminated c)
    (n : Nat) (hn : n < ARGV_HISTORY_SIZE) :
    lookup_command (cs.foldl record_command init_argv_history) (n : Int) =
      if n < cs.length then cs[cs.length - 1 - n]? else none := by
  have hwf := foldl_record_command_wf cs _ init_argv_history_wf hcs
  unfold lookup_command
  rw [lookup_command_view _ hwf n hn,
    foldl_record_command_view cs _ init_argv_history_wf hcs, init_argv_history_view,
    List.getElem?_drop]
  simp only [ARGV_HISTORY_SIZE] at hn ⊢
  by_cases hk : n < cs.length
  · rw [if_pos hk, List.getElem?_append_right (by simp; omega)]
    simp only [List.length_replicate, List.getElem?_map]
    have : cs.length + (15 - 1 - n) - 15 = cs.length - 1 - n := by omega
    rw [this]
    cases cs[cs.length - 1 - n]? <;> rfl
  · rw [if_neg hk, List.getElem?_append_left (by simp; omega)]
    rw [List.getElem?_replicate]
    rw [if_pos (by omega)]
    rfl

theorem recall_suffix_of_name (argv : Argv) (rest : List Char)
    (h : command_name argv = some ('!' :: rest)) :
    recall_suffix (command_name argv) = some rest := by
  rw [h]
  simp [recall_suffix]

theorem reduceOption_map_some {α : Type} (l : List α) :
    (l.map some).reduceOption = l := by
  induction l with
  | nil => rfl
  | cons a l ih => simp [List.reduceOption_cons_of_some, ih]

theorem reduceOption_replicate_none {α : Type} (n : Nat) :
    (List.replicate n (none : Option α)).reduceOption = [] := by
  induction n with
  | zero => rfl
  | succ n ih => simp [List.replicate_succ, List.reduceOption_cons_of_none, ih]

/-! ## The tokenizer and the words of a line -/

theorem words_nil : words [] = [] := by
  simp [words, List.splitOnP_nil]

theorem words_cons_delim (c : Char) (l : List Char) (h : is_delim c = true) :
    words (c :: l) = words l := by
  simp [words, List.splitOnP_cons, h]

theorem words_dropWhile (l : List Char) : words (l.dropWhile is_delim) = words l := by
  induction l with
  | nil => rfl
  | cons c l ih =>
    by_cases h : is_delim c = true
    · rw [List.dropWhile_cons_of_pos h, ih, words_cons_delim c l h]
    · rw [List.dropWhile_cons_of_neg h]

/-- A line that starts with a character of a word: its first word is the run
up to the next delimiter, and its other words are those of what follows that
delimiter. -/
theorem words_cons_token (c : Char) (cs : List Char) (hc : is_delim c = false) :
    words (c :: cs) =
      (c :: cs).takeWhile (fun x => !is_delim x) ::
        words (((c :: cs).dropWhile (fun x => !is_delim x)).drop 1) := by
  have hsplit := List.takeWhile_append_dropWhile (fun x => !is_delim x) (c :: cs)
  have htok : ∀ x ∈ (c :: cs).takeWhile (fun x => !is_delim x), ¬ is_delim x = true := by
    intro x hx
    have := List.mem_takeWhile_imp hx
    simpa using this
  have hne : (c :: cs).takeWhile (fun x => !is_delim x) ≠ [] := by
    simp [List.takeWhile_cons, hc]
  cases hr : (c :: cs).dropWhile (fun x => !is_delim x) with
  | nil =>
    rw [hr, List.append_nil] at hsplit
    have h1 : words (c :: cs) = [(c :: cs).takeWhile (fun x => !is_delim x)] := by
      conv_lhs => rw [← hsplit]
      unfold words
      rw [List.splitOnP_eq_single _ _ htok]
      simp [hne]
    rw [h1]
    simp [words_nil]
  | cons d r =>
    rw [hr] at hsplit
    have hd : is_delim d = true := by
      have := List.head_dropWhile_not (fun x => !is_delim x) (c :: cs)
        (by rw [hr]; simp)
      simp only [hr, List.head_cons] at this
      simpa using this
    have h1 : words (c :: cs) =
        (c :: cs).takeWhile (fun x => !is_delim x) :: words r := by
      conv_lhs => rw [← hsplit]
      unfold words
      rw [List.splitOnP_first _ _ htok d hd]
      simp [hne]
    rw [h1]
    simp

/-- One call of `strtok` returns the first word of what remains, and leaves
the other words for the next calls. -/
theorem strtok_words (l : List Char) :
    (strtok l).1 = (words l).head? ∧ words (strtok l).2 = (words l).tail := by
  unfold strtok
  rw [← words_dropWhile l]
  cases hd : l.dropWhile is_delim with
  | nil => simp [words_nil]
  | cons c cs =>
    have hc : is_delim c = false := by
      have := List.head_dropWhile_not is_delim l (by rw [hd]; simp)
      simp only [hd, List.head_cons] at this
      simpa using this
    rw [words_cons_token c cs hc]
    simp

theorem fill_args_words (fuel : Nat) :
    ∀ l : List Char,
      fill_args fuel l = (List.range fuel).map (fun i => (words l)[i]?) := by
  induction fuel with
  | zero => intro l; rfl
  | succ fuel ih =>
    intro l
    obtain ⟨h1, h2⟩ := strtok_words l
    rw [fill_args, ih, h1, h2, List.range_succ_eq_map]
    simp only [List.map_cons, List.map_map, List.head?_eq_getElem?]
    congr 1
    apply List.map_congr_left
    intro i _
    simp [List.getElem?_tail]

/-- The vector of a line: slot `i` holds the word number `i` of the line, or
`NULL` when the line has no such word. -/
theorem msh_get_arguments_slots (line : List Char) :
    msh_get_arguments line = (List.range MAX_ARGS).map (fun i => (words line)[i]?) := by
  have h := fill_args_words MAX_ARGS line
  rw [← h]
  rfl

theorem range_map_getElem? {α : Type} (ws : List α) (n : Nat) (h : ws.length ≤ n) :
    (List.range n).map (fun i => ws[i]?) =
      ws.map some ++ List.replicate (n - ws.length) none := by
  apply List.ext_getElem?
  intro i
  by_cases hi : i < ws.length
  · rw [List.getElem?_append_left (by simpa using hi)]
    simp [List.getElem?_range, hi, show i < n by omega, List.getElem?_eq_getElem hi]
  · rw [List.getElem?_append_right (by simpa using hi)]
    by_cases hn : i < n
    · simp [List.getElem?_range, hn, List.getElem?_replicate, hi]
      omega
    · have h1 : (List.range n)[i]? = none := by
        apply List.getElem?_eq_none
        simp only [List.length_range]
        omega
      have h2 : ¬ i - ws.length < n - ws.length := by omega
      simp [h1, List.getElem?_replicate, h2]

/-- A line of at most 11 words gives a terminated vector. -/
theorem msh_get_arguments_terminated (line : List Char)
    (h : (words line).length ≤ MAX_ARGS - 1) :
    terminated (msh_get_arguments line) := by
  have h12 : (words line).length ≤ MAX_ARGS := by
    simp only [MAX_ARGS] at h ⊢
    omega
  rw [msh_get_arguments_slots, range_map_getElem? _ _ h12]
  have hpos : 0 < MAX_ARGS - (words line).length := by
    simp only [MAX_ARGS] at h ⊢
    omega
  unfold terminated
  apply List.mem_append_right
  exact List.mem_replicate.mpr ⟨by omega, rfl⟩

/-- A line of at least 12 words gives a vector without any `NULL` slot. -/
theorem msh_get_arguments_full (line : List Char)
    (h : MAX_ARGS ≤ (words line).length) :
    ¬ terminated (msh_get_arguments line) := by
  rw [msh_get_arguments_slots]
  simp only [terminated, List.mem_map, List.mem_range, not_exists, not_and]
  intro i hi hnone
  have : i < (words line).length := by omega
  rw [List.getElem?_eq_getElem this] at hnone
  exact absurd hnone (by simp)

/-! ## The value returned -/

/-- The child branch never returns to the caller. -/
theorem child_outcome (env : Env) (name : Token) (argv : Argv) (o : Outcome)
    (t : List Event) (h : child env name argv = some (o, t)) (k : Int) :
    o ≠ Outcome.ret k := by
  unfold child at h
  simp only [Option.bind_eq_some] at h
  obtain ⟨a1, _, h⟩ := h
  split_ifs at h
  · simp only [Option.some.injEq, Prod.mk.injEq] at h
    rw [← h.1]; simp
  · simp only [Option.bind_eq_some] at h
    obtain ⟨a2, _, h⟩ := h
    split_ifs at h
    · simp only [Option.some.injEq, Prod.mk.injEq] at h
      rw [← h.1]; simp
    · simp only [Option.bind_eq_some] at h
      obtain ⟨a3, _, h⟩ := h
      split_ifs at h
      · simp only [Option.some.injEq, Prod.mk.injEq] at h
        rw [← h.1]; simp
      · simp only [Option.bind_eq_some] at h
        obtain ⟨a4, _, h⟩ := h
        split_ifs at h
        · simp only [Option.some.injEq, Prod.mk.injEq] at h
          rw [← h.1]; simp
        · simp only [Option.some.injEq, Prod.mk.injEq] at h
          rw [← h.1]; simp

theorem outcome_iff_of_one (o : Outcome) (P Q : Prop) (ho : o = Outcome.ret 1)
    (hP : ¬ P) (hQ : ¬ Q) :
    (o = Outcome.ret 0 ↔ P) ∧ (o = Outcome.ret 1 ↔ ¬ P ∧ ¬ Q) := by
  subst ho
  have hne : Outcome.ret 1 ≠ Outcome.ret 0 := by simp
  exact ⟨⟨fun h => absurd h hne, fun h => absurd h hP⟩, ⟨fun _ => ⟨hP, hQ⟩, fun _ => rfl⟩⟩

theorem outcome_iff_of_zero (o : Outcome) (P Q : Prop) (ho : o = Outcome.ret 0)
    (hP : P) :
    (o = Outcome.ret 0 ↔ P) ∧ (o = Outcome.ret 1 ↔ ¬ P ∧ ¬ Q) := by
  subst ho
  have hne : Outcome.ret 0 ≠ Outcome.ret 1 := by simp
  exact ⟨⟨fun _ => hP, fun _ => rfl⟩, ⟨fun h => absurd h hne, fun h => absurd hP h.1⟩⟩

theorem outcome_iff_of_child (o : Outcome) (P Q : Prop) (ho : ∀ k, o ≠ Outcome.ret k)
    (hP : ¬ P) (hQ : Q) :
    (o = Outcome.ret 0 ↔ P) ∧ (o = Outcome.ret 1 ↔ ¬ P ∧ ¬ Q) :=
  ⟨⟨fun h => absurd h (ho 0), fun h => absurd h hP⟩,
    ⟨fun h => absurd h (ho 1), fun h => absurd hQ h.2⟩⟩

/-- The value the dispatch returns, whatever the state, whenever it does not
fault. -/
theorem msh_dispatch_outcome (env : Env) (a : Option Token) (rest : Argv)
    (ph : pid_history_t) (ah : argv_history_t) (r : Result)
    (h : msh_dispatch env a (a :: rest) ph ah = some r) :
    (r.outcome = Outcome.ret 0 ↔
      (a = some "exit".toList ∨ a = some "quit".toList ∨
        (is_external (a :: rest) ∧ env.fork < 0))) ∧
    (r.outcome = Outcome.ret 1 ↔
      ¬ (a = some "exit".toList ∨ a = some "quit".toList ∨
        (is_external (a :: rest) ∧ env.fork < 0)) ∧
      ¬ (is_external (a :: rest) ∧ env.fork = 0)) := by
  cases a with
  | none =>
    simp only [msh_dispatch, Option.some.injEq] at h
    apply outcome_iff_of_one
    · rw [← h]
    · simp [is_external, command_name_cons]
    · simp [is_external, command_name_cons]
  | some name =>
    unfold msh_dispatch at h
    dsimp only at h
    have hext_iff : is_external (some name :: rest) ↔ name ∉ builtins := by
      simp only [is_external, command_name_cons, Option.some.injEq, exists_eq_left']
    rw [hext_iff]
    simp only [Option.some.injEq]
    by_cases h1 : name = "exit".toList ∨ name = "quit".toList
    · rw [if_pos h1] at h
      simp only [Option.some.injEq] at h
      apply outcome_iff_of_zero
      · rw [← h]
      · rcases h1 with e | e
        · exact Or.inl e
        · exact Or.inr (Or.inl e)
    · rw [if_neg h1] at h
      have h1a : name ≠ "exit".toList := fun e => h1 (Or.inl e)
      have h1b : name ≠ "quit".toList := fun e => h1 (Or.inr e)
      have hP : ∀ hb : name ∈ builtins,
          ¬ (name = "exit".toList ∨ name = "quit".toList ∨
            (name ∉ builtins ∧ env.fork < 0)) := by
        rintro hb (e | e | ⟨e, _⟩)
        · exact h1a e
        · exact h1b e
        · exact e hb
      have hQ : ∀ hb : name ∈ builtins, ¬ (name ∉ builtins ∧ env.fork = 0) :=
        fun hb e => e.1 hb
      by_cases h2 : name = "cd".toList
      · rw [if_pos h2] at h
        have hb : name ∈ builtins := by subst h2; simp [builtins]
        simp only [Option.map_eq_some'] at h
        obtain ⟨a1, _, h⟩ := h
        apply outcome_iff_of_one _ _ _ _ (hP hb) (hQ hb)
        cases a1 <;> (simp only at h; rw [← h])
      · rw [if_neg h2] at h
        by_cases h3 : name = "listpids".toList
        · rw [if_pos h3] at h
          have hb : name ∈ builtins := by subst h3; simp [builtins]
          simp only [Option.map_eq_some'] at h
          obtain ⟨t, _, h⟩ := h
          apply outcome_iff_of_one _ _ _ _ (hP hb) (hQ hb)
          rw [← h]
        · rw [if_neg h3] at h
          by_cases h4 : name = "history".toList
          · rw [if_pos h4] at h
            have hb : name ∈ builtins := by subst h4; simp [builtins]
            simp only [Option.map_eq_some'] at h
            obtain ⟨t, _, h⟩ := h
            apply outcome_iff_of_one _ _ _ _ (hP hb) (hQ hb)
            rw [← h]
          · rw [if_neg h4] at h
            have hext : name ∉ builtins := by
              simp only [builtins, List.mem_cons, List.mem_singleton, not_or]
              exact ⟨h1a, h1b, h2, h3, h4, by simp⟩
            by_cases h5 : env.fork = 0
            · rw [if_pos h5] at h
              simp only [Option.map_eq_some'] at h
              obtain ⟨c, hc, h⟩ := h
              have hno := child_outcome env name (some name :: rest) c.1 c.2 hc
              apply outcome_iff_of_child
              · rw [← h]; exact hno
              · rintro (e | e | ⟨_, e⟩)
                · exact h1a e
                · exact h1b e
                · omega
              · exact ⟨hext, h5⟩
            · rw [if_neg h5] at h
              by_cases h6 : env.fork < 0
              · rw [if_pos h6] at h
                simp only [Option.some.injEq] at h
                apply outcome_iff_of_zero
                · rw [← h]
                · exact Or.inr (Or.inr ⟨hext, h6⟩)
              · rw [if_neg h6] at h
                simp only [Option.map_eq_some'] at h
                obtain ⟨t, _, h⟩ := h
                apply outcome_iff_of_one
                · rw [← h]
                · rintro (e | e | ⟨_, e⟩)
                  · exact h1a e
                  · exact h1b e
                  · exact h6 e
                · exact fun e => h5 e.2

theorem read_zero_cons (v : Argv) (a : Option Token) (h : read v 0 = some a) :
    ∃ rest, v = a :: rest := by
  cases v with
  | nil => simp [read] at h
  | cons b rest =>
    simp only [read, le_refl, if_true, Int.toNat_zero, List.getElem?_cons_zero,
      Option.some.injEq] at h
    exact ⟨rest, by rw [h]⟩

/-- The value `msh_exec` returns, whatever the state, whenever it does not
fault: it is decided by the effective vector. -/
theorem msh_exec_outcome (env : Env) (argv : Argv) (ph : pid_history_t)
    (ah : argv_history_t) (r : Result) (h : msh_exec env argv ph ah = some r) :
    (r.outcome = Outcome.ret 0 ↔
      ∃ v, effective_argv argv ah = some v ∧
        (command_name v = some "exit".toList ∨ command_name v = some "quit".toList ∨
          (is_external v ∧ env.fork < 0))) ∧
    (r.outcome = Outcome.ret 1 ↔
      (¬ ∃ v, effective_argv argv ah = some v ∧
        (command_name v = some "exit".toList ∨ command_name v = some "quit".toList ∨
          (is_external v ∧ env.fork < 0))) ∧
      ¬ ∃ v, effective_argv argv ah = some v ∧ is_external v ∧ env.fork = 0) := by
  unfold msh_exec at h
  simp only [Option.bind_eq_some] at h
  obtain ⟨a, ha, h⟩ := h
  obtain ⟨rest0, rfl⟩ := read_zero_cons argv a ha
  have hj : (read (a :: rest0) 0).join = a := by rw [ha]; rfl
  cases hr : recall_suffix a with
  | none =>
    simp only [hr, Option.bind_eq_some, Option.map_eq_some'] at h
    obtain ⟨old, _, fr, _, hist, _, r0, hd, hr0⟩ := h
    have ho : r.outcome = r0.outcome := by rw [← hr0]; rfl
    have heff : effective_argv (a :: rest0) ah = some (a :: rest0) := by
      simp only [effective_argv, hj, hr]
    have := msh_dispatch_outcome env a rest0 ph _ r0 hd
    simp only [heff, Option.some.injEq, exists_eq_left', command_name_cons, ho]
    simpa only [command_name_cons] using this
  | some rs =>
    simp only [hr, Option.bind_eq_some] at h
    obtain ⟨fr, _, h⟩ := h
    by_cases hn : 0 ≤ atoi rs ∧ atoi rs < ARGV_HISTORY_SIZE
    · rw [if_pos hn] at h
      simp only [Option.bind_eq_some] at h
      obtain ⟨slot, hslot, h⟩ := h
      have heff : effective_argv (a :: rest0) ah = slot := by
        simp only [effective_argv, hj, hr, lookup_command]
        rw [if_pos hn, hslot]
        rfl
      cases slot with
      | none =>
        simp only [Option.some.injEq] at h
        subst h
        simp [heff]
      | some v =>
        simp only [Option.bind_eq_some, Option.map_eq_some'] at h
        obtain ⟨name, hname, r0, hd, hr0⟩ := h
        obtain ⟨rest1, rfl⟩ := read_zero_cons v name hname
        have ho : r.outcome = r0.outcome := by rw [← hr0]; rfl
        have := msh_dispatch_outcome env name rest1 ph ah r0 hd
        simp only [heff, Option.some.injEq, exists_eq_left', command_name_cons, ho]
        simpa only [command_name_cons] using this
    · rw [if_neg hn] at h
      simp only [Option.some.injEq] at h
      subst h
      have heff : effective_argv (a :: rest0) ah = none := by
        simp only [effective_argv, hj, hr]
        rw [if_neg hn]
      simp [heff]

/-! ## What a sequence of recordings releases -/

theorem non_recalls_of_all (inputs : List (Env × Argv))
    (h : ∀ x ∈ inputs, is_recall x.2 = false) :
    non_recalls inputs = inputs.map Prod.snd := by
  unfold non_recalls
  rw [List.filter_eq_self]
  intro v hv
  obtain ⟨x, hx, rfl⟩ := List.mem_map.mp hv
  simp [h x hx]

/-- A sequence of calls on vectors that are not recalls releases exactly the
occupants it evicts: the first entries of the view followed by the vectors
recorded, as many as there are calls. -/
theorem msh_exec_seq_frees (inputs : List (Env × Argv)) :
    ∀ (ph : pid_history_t) (ah : argv_history_t), ph.wf → ah.wf →
      (∀ x ∈ inputs, terminated x.2 ∧ x.1.fork ≠ 0 ∧ is_recall x.2 = false) →
      ∀ ph2 ah2 tr, msh_exec_seq inputs ph ah = some (ph2, ah2, tr) →
        tr.filter Event.is_free =
          ((ah.view ++ inputs.map (fun x => some x.2)).take inputs.length).flatMap
            released := by
  induction inputs with
  | nil =>
    intro ph ah _ _ _ ph2 ah2 tr hs
    simp only [msh_exec_seq, Option.some.injEq, Prod.mk.injEq] at hs
    rw [← hs.2.2]
    simp
  | cons x rest ih =>
    intro ph ah hph hah hin ph2 ah2 tr hs
    obtain ⟨hx1, hx2, hx3⟩ := hin x (List.mem_cons_self _ _)
    obtain ⟨r, k, he, hk, ha, hp, hfree⟩ := msh_exec_step x.1 x.2 ph ah hph hah hx1 hx2
    rw [hx3] at ha hfree
    simp only [Bool.false_eq_true, if_false] at ha hfree
    have hah2 : r.argv_history.wf := by
      rw [ha]; exact record_command_wf ah x.2 hah hx1
    have hph2 : r.pid_history.wf := by
      rw [hp]; exact foldl_record_pid_wf _ ph hph
    simp only [msh_exec_seq, he, Option.some_bind, hk, Option.map_eq_some'] at hs
    obtain ⟨s, hs1, hs2⟩ := hs
    have htr : tr = r.trace ++ s.2.2 := by
      simp only [Prod.mk.injEq] at hs2
      exact hs2.2.2.symm
    have hrec := ih r.pid_history r.argv_history hph2 hah2
      (fun y hy => hin y (List.mem_cons_of_mem _ hy)) s.1 s.2.1 s.2.2 hs1
    rw [htr, List.filter_append, hfree, hrec, ha, record_command_view ah x.2 hah]
    have hne : ah.view ≠ [] := by
      intro h
      have := congrArg List.length h
      simp [argv_history_t.view, hah.1, ARGV_HISTORY_SIZE] at this
    cases hview : ah.view with
    | nil => exact absurd hview hne
    | cons a v =>
      simp [List.flatMap_cons, Option.join]

theorem getElem?_map_some_join {α : Type} (l : List α) (i : Nat) :
    ((l.map some)[i]?).join = l[i]? := by
  rw [List.getElem?_map]
  cases l[i]? <;> rfl

/-! ## The identifiers listed by `listpids` -/

theorem launched_pos (tr : List Event) : ∀ p ∈ launched tr, p > 0 := by
  induction tr with
  | nil => intro p hp; simp [launched] at hp
  | cons e tr ih =>
    intro p hp
    cases e with
    | fork q =>
      by_cases hq : q > 0
      · simp only [launched, hq, if_true, List.mem_cons] at hp
        rcases hp with h | h
        · rw [h]; exact hq
        · exact ih p h
      · simp only [launched, hq, if_false] at hp
        exact ih p hp
    | _ => exact ih p (by simpa [launched] using hp)

/-- The positive slots of the view after the identifiers `ps`, all positive,
were recorded from the initial state: the last 20 of them. -/
theorem filter_pos_after_records (ps : List Int) (hps : ∀ p ∈ ps, p > 0) :
    ((List.replicate PID_HISTORY_SIZE (0 : Int) ++ ps).drop ps.length).filter
        (fun p => p > 0) =
      ps.drop (ps.length - PID_HISTORY_SIZE) := by
  rw [List.drop_append_eq_append_drop, List.filter_append, List.drop_replicate,
    List.filter_replicate]
  simp only [gt_iff_lt, lt_self_iff_false, decide_False, Bool.false_eq_true, if_false,
    List.nil_append, List.length_replicate]
  rw [List.filter_eq_self]
  intro p hp
  have := hps p (List.mem_of_mem_drop hp)
  simpa using this

/-! ## Recall of recorded commands -/

/-- C1: starting from the empty history, after any sequence of calls whose
vectors that are not recalls are `c_1 .. c_k`, a recall vector whose first
token is `!n` with `n < min k 15` has `c_(k-n)` as its effective vector, and
`msh_exec` on it is the dispatch on `c_(k-n)` in the unchanged histories, after
the release of the recall vector. -/
theorem recall_dispatches_on_recorded (inputs : List (Env × Argv)) (env : Env)
    (argv : Argv) (n : Nat)
    (hin : ∀ x ∈ inputs, terminated x.2 ∧ x.1.fork ≠ 0)
    (hv : terminated argv)
    (hname : command_name argv = some ('!' :: decimal n))
    (hn : n < min (non_recalls inputs).length ARGV_HISTORY_SIZE) :
    ∃ ph ah tr c,
      msh_exec_seq inputs init_pid_history init_argv_history = some (ph, ah, tr) ∧
      (non_recalls inputs)[(non_recalls inputs).length - 1 - n]? = some c ∧
      effective_argv argv ah = some c ∧
      msh_exec env argv ph ah =
        (msh_dispatch env (command_name c) c ph ah).map
          (Result.after (released (some argv))) := by
  obtain ⟨ph, ah, tr, hs, _, hah, ea, _⟩ :=
    msh_exec_seq_spec inputs _ _ init_pid_history_wf init_argv_history_wf hin
  have hct := non_recalls_terminated inputs hin
  have hn15 : n < ARGV_HISTORY_SIZE := lt_of_lt_of_le hn (min_le_right _ _)
  have hnk : n < (non_recalls inputs).length := lt_of_lt_of_le hn (min_le_left _ _)
  have hat : atoi (decimal n) = (n : Int) :=
    atoi_decimal n (by simp only [ARGV_HISTORY_SIZE] at hn15; omega)
  have hl := lookup_after_records (non_recalls inputs) hct n hn15
  rw [if_pos hnk, ← ea] at hl
  have hidx : (non_recalls inputs).length - 1 - n < (non_recalls inputs).length := by omega
  rw [List.getElem?_eq_getElem hidx] at hl
  have hrs := recall_suffix_of_name argv _ hname
  have hrange : 0 ≤ atoi (decimal n) ∧ atoi (decimal n) < ARGV_HISTORY_SIZE := by
    rw [hat]
    exact ⟨Int.ofNat_nonneg _, by exact_mod_cast hn15⟩
  refine ⟨ph, ah, tr, _, hs, List.getElem?_eq_getElem hidx, ?_, ?_⟩
  · have hrs2 : recall_suffix ((read argv 0).join) = some (decimal n) := hrs
    simp only [effective_argv, hrs2]
    rw [if_pos hrange, hat, hl]
  · rw [msh_exec_recall env argv ph ah hah hv _ hrs, if_pos hrange, hat, hl]

/-- The scenario `cd /tmp`, `pwd`, then `!1`: the recall resolves to the vector
of `cd /tmp`. -/
theorem recall_dispatches_on_recorded_witness :
    (∀ x ∈ session_cd_pwd,
      terminated x.2 ∧ x.1.fork ≠ 0) ∧
    terminated (tokenize "!1\n") ∧
    command_name (tokenize "!1\n") = some ('!' :: decimal 1) ∧
    1 < min (non_recalls session_cd_pwd).length ARGV_HISTORY_SIZE ∧
    (∃ ph ah tr c,
      msh_exec_seq session_cd_pwd
        init_pid_history init_argv_history = some (ph, ah, tr) ∧
      (non_recalls session_cd_pwd)[
          (non_recalls session_cd_pwd).length - 1 - 1]? = some c ∧
      effective_argv (tokenize "!1\n") ah = some c ∧
      msh_exec (parent_env 102) (tokenize "!1\n") ph ah =
        (msh_dispatch (parent_env 102) (command_name c) c ph ah).map
          (Result.after (released (some (tokenize "!1\n"))))) ∧
    (msh_exec_seq (session_cd_pwd ++ [(parent_env 102, tokenize "!1\n")])
        init_pid_history init_argv_history).map (fun s => s.2.2) =
      some [Event.chdir "/tmp".toList, Event.fork 101, Event.wait,
        Event.free_str "!1".toList, Event.free_vec (tokenize "!1\n"),
        Event.chdir "/tmp".toList] :=
  ⟨by decide, by decide, by decide, by decide,
    recall_dispatches_on_recorded _ (parent_env 102) _ 1 (by decide) (by decide)
      (by decide) (by decide),
    by decide⟩

/-! ## Recall offsets out of range -/

/-- A recall whose offset is a decimal numeral between 15 and the largest
`int` is rejected on every sound state: the recall vector is released,
"Invalid n." is printed, nothing is dispatched, both histories are unchanged
and 1 is returned. -/
theorem recall_offset_rejected (env : Env) (argv : Argv) (ph : pid_history_t)
    (ah : argv_history_t) (n : Nat) (hah : ah.wf) (hv : terminated argv)
    (hname : command_name argv = some ('!' :: decimal n))
    (hn : ARGV_HISTORY_SIZE ≤ n) (hmax : n < 2 ^ 31) :
    msh_exec env argv ph ah =
      some ⟨Outcome.ret 1, ph, ah,
        released (some argv) ++ [Event.puts "Invalid n.".toList]⟩ := by
  have hat : atoi (decimal n) = (n : Int) := atoi_decimal n hmax
  rw [msh_exec_recall env argv ph ah hah hv _ (recall_suffix_of_name argv _ hname),
    if_neg]
  rw [hat]
  intro h
  have : (n : Int) < ARGV_HISTORY_SIZE := h.2
  have : n < ARGV_HISTORY_SIZE := by exact_mod_cast this
  omega

/-- C2: the offset 4294967296 is at least 15, but `atoi` returns 0 for its
numeral, so the recall `!4294967296` is not rejected: after `ls` was launched,
it releases the recall vector and launches `ls` again, and "Invalid n." is not
printed. -/
theorem recall_offset_wraps :
    atoi (decimal 4294967296) = 0 ∧
    command_name (tokenize "!4294967296\n") = some ('!' :: decimal 4294967296) ∧
    (msh_exec_seq
      [(parent_env 100, tokenize "ls\n"), (parent_env 101, tokenize "!4294967296\n")]
      init_pid_history init_argv_history).map (fun s => s.2.2) =
      some [Event.fork 100, Event.wait,
        Event.free_str "!4294967296".toList,
        Event.free_vec (tokenize "!4294967296\n"),
        Event.fork 101, Event.wait] := by
  decide

/-! ## Recall of a command that was never recorded -/

/-- C3: starting from the empty history, when at most `n` vectors that are not
recalls have been recorded and `n < 15`, a recall vector whose first token is
`!n` has no effective vector: `msh_exec` releases the recall vector, prints
"Command not in history.", dispatches nothing, leaves both histories as they
were and returns 1. -/
theorem recall_not_in_history (inputs : List (Env × Argv)) (env : Env)
    (argv : Argv) (n : Nat)
    (hin : ∀ x ∈ inputs, terminated x.2 ∧ x.1.fork ≠ 0)
    (hv : terminated argv)
    (hname : command_name argv = some ('!' :: decimal n))
    (hk : (non_recalls inputs).length ≤ n) (hn : n < ARGV_HISTORY_SIZE) :
    ∃ ph ah tr,
      msh_exec_seq inputs init_pid_history init_argv_history = some (ph, ah, tr) ∧
      effective_argv argv ah = none ∧
      msh_exec env argv ph ah =
        some ⟨Outcome.ret 1, ph, ah,
          released (some argv) ++ [Event.puts "Command not in history.".toList]⟩ := by
  obtain ⟨ph, ah, tr, hs, _, hah, ea, _⟩ :=
    msh_exec_seq_spec inputs _ _ init_pid_history_wf init_argv_history_wf hin
  have hct := non_recalls_terminated inputs hin
  have hat : atoi (decimal n) = (n : Int) :=
    atoi_decimal n (by simp only [ARGV_HISTORY_SIZE] at hn; omega)
  have hl := lookup_after_records (non_recalls inputs) hct n hn
  rw [if_neg (by omega), ← ea] at hl
  have hrs := recall_suffix_of_name argv _ hname
  have hrange : 0 ≤ atoi (decimal n) ∧ atoi (decimal n) < ARGV_HISTORY_SIZE := by
    rw [hat]
    exact ⟨Int.ofNat_nonneg _, by exact_mod_cast hn⟩
  refine ⟨ph, ah, tr, hs, ?_, ?_⟩
  · have hrs2 : recall_suffix ((read argv 0).join) = some (decimal n) := hrs
    simp only [effective_argv, hrs2]
    rw [if_pos hrange, hat, hl]
  · rw [msh_exec_recall env argv ph ah hah hv _ hrs, if_pos hrange, hat, hl]

/-- The scenario `cd /tmp`, `pwd`, then `!2`: two commands recorded, offset 2. -/
theorem recall_not_in_history_witness :
    (∀ x ∈ session_cd_pwd, terminated x.2 ∧ x.1.fork ≠ 0) ∧
    terminated (tokenize "!2\n") ∧
    command_name (tokenize "!2\n") = some ('!' :: decimal 2) ∧
    (non_recalls session_cd_pwd).length ≤ 2 ∧ 2 < ARGV_HISTORY_SIZE ∧
    ∃ ph ah tr,
      msh_exec_seq session_cd_pwd init_pid_history init_argv_history =
        some (ph, ah, tr) ∧
      effective_argv (tokenize "!2\n") ah = none ∧
      msh_exec (parent_env 102) (tokenize "!2\n") ph ah =
        some ⟨Outcome.ret 1, ph, ah,
          released (some (tokenize "!2\n")) ++
            [Event.puts "Command not in history.".toList]⟩ :=
  ⟨by decide, by decide, by decide, by decide, by decide,
    recall_not_in_history session_cd_pwd (parent_env 102) (tokenize "!2\n") 2
      (by decide) (by decide) (by decide) (by decide) (by decide)⟩

/-! ## The `history` listing -/

/-- C4: starting from the empty history, after any sequence of calls whose
vectors that are not recalls are `c_1 .. c_k` with `k ≤ 15`, the `history`
loop prints exactly `c_1 .. c_k` in that order, numbered 0, 1, .., k-1, each
line being the index followed by the tokens of the vector; the dispatch of
`history` prints this and nothing else and returns 1. -/
theorem history_lists_recorded (inputs : List (Env × Argv)) (env : Env) (v : Argv)
    (hin : ∀ x ∈ inputs, terminated x.2 ∧ x.1.fork ≠ 0)
    (hk : (non_recalls inputs).length ≤ ARGV_HISTORY_SIZE) :
    ∃ ph ah tr,
      msh_exec_seq inputs init_pid_history init_argv_history = some (ph, ah, tr) ∧
      history_loop ah ARGV_HISTORY_SIZE 0 0 =
        some (history_lines 0 (non_recalls inputs)) ∧
      msh_dispatch env (some "history".toList) v ph ah =
        some ⟨Outcome.ret 1, ph, ah, history_lines 0 (non_recalls inputs)⟩ := by
  obtain ⟨ph, ah, tr, hs, _, hah, ea, _⟩ :=
    msh_exec_seq_spec inputs _ _ init_pid_history_wf init_argv_history_wf hin
  have hct := non_recalls_terminated inputs hin
  have hview : ah.view.reduceOption = non_recalls inputs := by
    rw [ea, foldl_record_command_view _ _ init_argv_history_wf hct, init_argv_history_view]
    have hsplit : List.drop (non_recalls inputs).length
        (List.replicate ARGV_HISTORY_SIZE none ++ (non_recalls inputs).map some) =
        List.replicate (ARGV_HISTORY_SIZE - (non_recalls inputs).length) none ++
          (non_recalls inputs).map some := by
      rw [List.drop_append_of_le_length (by simpa using hk), List.drop_replicate]
    rw [hsplit, List.reduceOption_append, reduceOption_map_some,
      reduceOption_replicate_none, List.nil_append]
  have hloop := history_loop_view ah hah
  rw [hview] at hloop
  refine ⟨ph, ah, tr, hs, hloop, ?_⟩
  have hne1 : ¬ ("history".toList = "exit".toList ∨ "history".toList = "quit".toList) := by
    decide
  have hne2 : ¬ "history".toList = "cd".toList := by decide
  have hne3 : ¬ "history".toList = "listpids".toList := by decide
  simp only [msh_dispatch, if_neg hne1, if_neg hne2, if_neg hne3, if_true, hloop,
    Option.map_some']


/-- The scenario `cd /tmp`, `pwd`, `history`. -/
theorem history_lists_recorded_witness :
    (∀ x ∈ session_cd_pwd_history, terminated x.2 ∧ x.1.fork ≠ 0) ∧
    (non_recalls session_cd_pwd_history).length ≤ ARGV_HISTORY_SIZE ∧
    ∃ ph ah tr,
      msh_exec_seq session_cd_pwd_history init_pid_history init_argv_history =
        some (ph, ah, tr) ∧
      history_loop ah ARGV_HISTORY_SIZE 0 0 =
        some (history_lines 0 (non_recalls session_cd_pwd_history)) ∧
      msh_dispatch (parent_env 103) (some "history".toList) (tokenize "history\n") ph ah =
        some ⟨Outcome.ret 1, ph, ah,
          history_lines 0 (non_recalls session_cd_pwd_history)⟩ :=
  ⟨by decide, by decide,
    history_lists_recorded session_cd_pwd_history (parent_env 103)
      (tokenize "history\n") (by decide) (by decide)⟩

/-! ## Eviction of the oldest command -/

/-- C5: starting from the empty history, let 16 vectors that are not recalls
be recorded, `c_1` (of `first`), `c_2 .. c_15` (of `mid`) and `c_16` (of
`last`).  The first 15 calls release nothing and fill the 15 slots; the 16th
call releases exactly `c_1` (its strings, then the vector, once) and stores
`c_16`; afterwards the store holds exactly `c_2 .. c_16`, offset `n` resolves
to the entry `14 - n` of `c_2 .. c_16` (so `!14` resolves to `c_2`), and no
offset resolves to `c_1` unless an equal vector was recorded again. -/
theorem oldest_entry_evicted (first last : Env × Argv) (mid : List (Env × Argv))
    (hlen : mid.length = 14)
    (hin : ∀ x ∈ first :: (mid ++ [last]),
      terminated x.2 ∧ x.1.fork ≠ 0 ∧ is_recall x.2 = false) :
    ∃ ph ah tr r,
      msh_exec_seq (first :: mid) init_pid_history init_argv_history =
        some (ph, ah, tr) ∧
      tr.filter Event.is_free = [] ∧
      ah.view = (first :: mid).map (fun x => some x.2) ∧
      msh_exec last.1 last.2 ph ah = some r ∧
      r.trace.filter Event.is_free = released (some first.2) ∧
      r.argv_history.view = (mid ++ [last]).map (fun x => some x.2) ∧
      (∀ n : Nat, n < ARGV_HISTORY_SIZE →
        lookup_command r.argv_history n =
          ((mid ++ [last]).map Prod.snd)[ARGV_HISTORY_SIZE - 1 - n]?) ∧
      (first.2 ∉ (mid ++ [last]).map Prod.snd →
        ∀ n : Nat, n < ARGV_HISTORY_SIZE →
          lookup_command r.argv_history n ≠ some first.2) := by
  have hin15 : ∀ x ∈ first :: mid,
      terminated x.2 ∧ x.1.fork ≠ 0 ∧ is_recall x.2 = false := by
    intro x hx
    apply hin
    rcases List.mem_cons.mp hx with h | h
    · exact List.mem_cons.mpr (Or.inl h)
    · exact List.mem_cons_of_mem _ (List.mem_append_left _ h)
  have hlast : terminated last.2 ∧ last.1.fork ≠ 0 ∧ is_recall last.2 = false :=
    hin last (List.mem_cons_of_mem _ (List.mem_append_right _ (List.mem_singleton.mpr rfl)))
  obtain ⟨ph, ah, tr, hs, hph, hah, ea, _⟩ :=
    msh_exec_seq_spec (first :: mid) _ _ init_pid_history_wf init_argv_history_wf
      (fun x hx => ⟨(hin15 x hx).1, (hin15 x hx).2.1⟩)
  have hnr : non_recalls (first :: mid) = (first :: mid).map Prod.snd :=
    non_recalls_of_all _ (fun x hx => (hin15 x hx).2.2)
  have hct : ∀ c ∈ (first :: mid).map Prod.snd, terminated c := by
    intro c hc
    obtain ⟨x, hx, rfl⟩ := List.mem_map.mp hc
    exact (hin15 x hx).1
  have hl15 : ((first :: mid).map Prod.snd).length = ARGV_HISTORY_SIZE := by
    simp [hlen, ARGV_HISTORY_SIZE]
  have hview : ah.view = (first :: mid).map (fun x => some x.2) := by
    rw [ea, hnr, foldl_record_command_view _ _ init_argv_history_wf hct,
      init_argv_history_view, hl15]
    rw [List.drop_append_eq_append_drop, List.map_map]
    simp
  have hfree := msh_exec_seq_frees (first :: mid) _ _ init_pid_history_wf
    init_argv_history_wf hin15 ph ah tr hs
  have hfree2 : tr.filter Event.is_free = [] := by
    rw [hfree, init_argv_history_view]
    have hl : (first :: mid).length = ARGV_HISTORY_SIZE := by
      simp [hlen, ARGV_HISTORY_SIZE]
    rw [hl]
    rw [List.take_append_eq_append_take]
    simp [released]
  obtain ⟨r, k, he, _, ha, _, hfr⟩ :=
    msh_exec_step last.1 last.2 ph ah hph hah hlast.1 hlast.2.1
  rw [hlast.2.2] at ha hfr
  simp only [Bool.false_eq_true, if_false] at ha hfr
  have hrv : r.argv_history.view = (mid ++ [last]).map (fun x => some x.2) := by
    rw [ha, record_command_view ah last.2 hah, hview]
    simp
  have hrwf : r.argv_history.wf := by
    rw [ha]; exact record_command_wf ah last.2 hah hlast.1
  have hlook : ∀ n : Nat, n < ARGV_HISTORY_SIZE →
      lookup_command r.argv_history n =
        ((mid ++ [last]).map Prod.snd)[ARGV_HISTORY_SIZE - 1 - n]? := by
    intro n hn
    unfold lookup_command
    rw [lookup_command_view _ hrwf n hn, hrv]
    have : (mid ++ [last]).map (fun x => some x.2) =
        ((mid ++ [last]).map Prod.snd).map some := by
      rw [List.map_map]; rfl
    rw [this, getElem?_map_some_join]
  refine ⟨ph, ah, tr, r, hs, hfree2, hview, he, ?_, hrv, hlook, ?_⟩
  · rw [hfr, hview]
    rfl
  · intro hnot n hn hc
    rw [hlook n hn] at hc
    exact hnot (List.getElem?_mem hc)

/-- The scenario of the sixteen lines `cmd1` .. `cmd16`. -/
theorem oldest_entry_evicted_witness :
    calls_2_to_15.length = 14 ∧
    (∀ x ∈ numbered_call 1 :: (calls_2_to_15 ++ [numbered_call 16]),
      terminated x.2 ∧ x.1.fork ≠ 0 ∧ is_recall x.2 = false) ∧
    (numbered_call 1).2 ∉ (calls_2_to_15 ++ [numbered_call 16]).map Prod.snd ∧
    ∃ ph ah tr r,
      msh_exec_seq (numbered_call 1 :: calls_2_to_15)
        init_pid_history init_argv_history = some (ph, ah, tr) ∧
      tr.filter Event.is_free = [] ∧
      ah.view = (numbered_call 1 :: calls_2_to_15).map (fun x => some x.2) ∧
      msh_exec (numbered_call 16).1 (numbered_call 16).2 ph ah = some r ∧
      r.trace.filter Event.is_free = released (some (numbered_call 1).2) ∧
      r.argv_history.view =
        (calls_2_to_15 ++ [numbered_call 16]).map (fun x => some x.2) ∧
      (∀ n : Nat, n < ARGV_HISTORY_SIZE →
        lookup_command r.argv_history n =
          ((calls_2_to_15 ++ [numbered_call 16]).map Prod.snd)[
            ARGV_HISTORY_SIZE - 1 - n]?) ∧
      ((numbered_call 1).2 ∉ (calls_2_to_15 ++ [numbered_call 16]).map Prod.snd →
        ∀ n : Nat, n < ARGV_HISTORY_SIZE →
          lookup_command r.argv_history n ≠ some (numbered_call 1).2) :=
  ⟨by decide, by decide, by decide,
    oldest_entry_evicted (numbered_call 1) (numbered_call 16) calls_2_to_15
      (by decide) (by decide)⟩

/-! ## The `listpids` listing -/

/-- C6: starting from the empty histories, after any sequence of calls in
which the children created (the positive values returned by `fork`) are
`p_1 .. p_k` in that order, the `listpids` loop prints exactly the last
`min k 20` of them, oldest first, each once, numbered from 0; the dispatch of
`listpids` prints this and nothing else and returns 1. -/
theorem listpids_lists_launched (inputs : List (Env × Argv)) (env : Env) (v : Argv)
    (hin : ∀ x ∈ inputs, terminated x.2 ∧ x.1.fork ≠ 0) :
    ∃ ph ah tr,
      msh_exec_seq inputs init_pid_history init_argv_history = some (ph, ah, tr) ∧
      listpids_loop ph PID_HISTORY_SIZE 0 0 =
        some (pid_lines 0
          ((launched tr).drop ((launched tr).length - PID_HISTORY_SIZE))) ∧
      msh_dispatch env (some "listpids".toList) v ph ah =
        some ⟨Outcome.ret 1, ph, ah,
          pid_lines 0 ((launched tr).drop ((launched tr).length - PID_HISTORY_SIZE))⟩ := by
  obtain ⟨ph, ah, tr, hs, hph, _, _, ep⟩ :=
    msh_exec_seq_spec inputs _ _ init_pid_history_wf init_argv_history_wf hin
  have hview : ph.view.filter (fun p => p > 0) =
      (launched tr).drop ((launched tr).length - PID_HISTORY_SIZE) := by
    rw [ep, foldl_record_pid_view _ _ init_pid_history_wf, init_pid_history_view]
    exact filter_pos_after_records _ (launched_pos tr)
  have hloop := listpids_loop_view ph hph
  rw [hview] at hloop
  refine ⟨ph, ah, tr, hs, hloop, ?_⟩
  have hne1 : ¬ ("listpids".toList = "exit".toList ∨ "listpids".toList = "quit".toList) := by
    decide
  have hne2 : ¬ "listpids".toList = "cd".toList := by decide
  simp only [msh_dispatch, if_neg hne1, if_neg hne2, if_true, hloop, Option.map_some']

/-- The scenario of 21 launches with the identifiers 101 .. 121: the listing
is 102 .. 121, numbered 0 .. 19. -/
theorem listpids_lists_launched_witness :
    (∀ x ∈ session_21_launches, terminated x.2 ∧ x.1.fork ≠ 0) ∧
    (∃ ph ah tr,
      msh_exec_seq session_21_launches init_pid_history init_argv_history =
        some (ph, ah, tr) ∧
      listpids_loop ph PID_HISTORY_SIZE 0 0 =
        some (pid_lines 0
          ((launched tr).drop ((launched tr).length - PID_HISTORY_SIZE))) ∧
      msh_dispatch (parent_env 200) (some "listpids".toList) (tokenize "listpids\n") ph ah =
        some ⟨Outcome.ret 1, ph, ah,
          pid_lines 0
            ((launched tr).drop ((launched tr).length - PID_HISTORY_SIZE))⟩) ∧
    (msh_exec_seq session_21_launches init_pid_history init_argv_history).bind
        (fun s => listpids_loop s.1 PID_HISTORY_SIZE 0 0) =
      some (pid_lines 0 ((List.range 20).map (fun i => ((102 + i : Nat) : Int)))) :=
  ⟨by decide,
    listpids_lists_launched session_21_launches (parent_env 200)
      (tokenize "listpids\n") (by decide),
    by decide⟩

/-! ## The tokenizer -/

/-- C7: for every line of at most 11 words, `msh_get_arguments` returns the 12
slots made of the words of the line, in order, followed by `NULL` in every
remaining slot. -/
theorem msh_get_arguments_words (line : List Char)
    (h : (words line).length ≤ MAX_ARGS - 1) :
    msh_get_arguments line =
        (words line).map some ++
          List.replicate (MAX_ARGS - (words line).length) none ∧
      (msh_get_arguments line).length = MAX_ARGS := by
  have h12 : (words line).length ≤ MAX_ARGS := by
    simp only [MAX_ARGS] at h ⊢
    omega
  rw [msh_get_arguments_slots, range_map_getElem? _ _ h12]
  refine ⟨rfl, ?_⟩
  simp only [List.length_append, List.length_map, List.length_replicate]
  omega

/-- The lines `ls -l ./src` and a line made of separators only. -/
theorem msh_get_arguments_words_witness :
    (words "ls -l ./src".toList).length ≤ MAX_ARGS - 1 ∧
    msh_get_arguments "ls -l ./src".toList =
      [some "ls".toList, some "-l".toList, some "./src".toList,
        none, none, none, none, none, none, none, none, none] ∧
    (words " \n".toList).length ≤ MAX_ARGS - 1 ∧
    msh_get_arguments " \n".toList = List.replicate 12 none :=
  ⟨by decide,
    (msh_get_arguments_words "ls -l ./src".toList (by decide)).1.trans (by decide),
    by decide,
    (msh_get_arguments_words " \n".toList (by decide)).1.trans (by decide)⟩

/-- C8: the vector of the twelve-word line `a b c d e f g h i j k l` holds 12
word tokens and no `NULL` slot, its last slot included: it is not terminated,
the scan of `free_argv` runs off its end, and so does the `history` listing
once the vector has been recorded. -/
theorem msh_get_arguments_twelve_words :
    tokenize twelve_words =
      ["a".toList, "b".toList, "c".toList, "d".toList, "e".toList, "f".toList,
        "g".toList, "h".toList, "i".toList, "j".toList, "k".toList,
        "l".toList].map some ∧
    read (tokenize twelve_words) 11 = some (some "l".toList) ∧
    ¬ terminated (tokenize twelve_words) ∧
    free_argv (some (tokenize twelve_words)) = none ∧
    msh_exec_seq
      [(parent_env 100, tokenize twelve_words), (parent_env 101, tokenize "history\n")]
      init_pid_history init_argv_history = none := by
  decide

/-! ## The empty line -/

/-- C9, as stated, fails: on the initial state the call on the vector of an
empty line changes the command history (slot 0 receives the empty vector and
the write cursor moves to 1). -/
theorem empty_line_changes_history :
    (msh_exec (parent_env 100) (tokenize "\n") init_pid_history
        init_argv_history).map Result.argv_history =
      some ⟨some (List.replicate 12 none) :: List.replicate 14 none, 1⟩ ∧
    (msh_exec (parent_env 100) (tokenize "\n") init_pid_history
        init_argv_history).map Result.argv_history ≠ some init_argv_history := by
  decide

/-- C9, amended: for every sound command history and every line without a
word, `msh_exec` on the vector of the line returns 1, dispatches nothing (the
only events are the release of the former occupant of the write slot) and
leaves the process-identifier history unchanged; the empty vector is recorded
in the command history like any vector that is not a recall. -/
theorem empty_line_is_recorded (env : Env) (line : List Char)
    (ph : pid_history_t) (ah : argv_history_t) (hah : ah.wf)
    (hw : words line = []) :
    msh_get_arguments line = List.replicate MAX_ARGS none ∧
    msh_exec env (msh_get_arguments line) ph ah =
      some ⟨Outcome.ret 1, ph,
        record_command ah (List.replicate MAX_ARGS none),
        released (ah.view.head?.join)⟩ := by
  have hv : msh_get_arguments line = List.replicate MAX_ARGS none := by
    rw [msh_get_arguments_slots, range_map_getElem? _ _ (by simp [hw]), hw]
    simp
  have ht : terminated (List.replicate MAX_ARGS none) := by decide
  have hr : is_recall (List.replicate MAX_ARGS none) = false := by decide
  refine ⟨hv, ?_⟩
  rw [hv, msh_exec_record env _ ph ah hah ht hr]
  have hc : command_name (List.replicate MAX_ARGS none) = none := by decide
  rw [hc]
  simp [msh_dispatch, Result.after]

/-- A line of separators only, on the initial state. -/
theorem empty_line_is_recorded_witness :
    init_argv_history.wf ∧ words "  \n".toList = [] ∧
    msh_get_arguments "  \n".toList = List.replicate MAX_ARGS none ∧
    msh_exec (parent_env 100) (msh_get_arguments "  \n".toList) init_pid_history
        init_argv_history =
      some ⟨Outcome.ret 1, init_pid_history,
        record_command init_argv_history (List.replicate MAX_ARGS none),
        released (init_argv_history.view.head?.join)⟩ :=
  ⟨by decide, by decide,
    empty_line_is_recorded (parent_env 100) "  \n".toList init_pid_history
      init_argv_history (by decide) (by decide)⟩

/-! ## The value returned by `msh_exec` -/

/-- C10: whatever the state and the vector, a call of `msh_exec` that does not
fault returns 0 exactly when the effective command name is `exit` or `quit`,
or the effective command is external and `fork` failed; it returns 1 exactly
when neither holds and the call is not the child of an external command (the
child never returns).  On a sound state, in the interpreter process, the call
does not fault and returns 0 or 1. -/
theorem msh_exec_return_value (env : Env) (argv : Argv) (ph : pid_history_t)
    (ah : argv_history_t) :
    (∀ r, msh_exec env argv ph ah = some r →
      (r.outcome = Outcome.ret 0 ↔
        ∃ v, effective_argv argv ah = some v ∧
          (command_name v = some "exit".toList ∨
            command_name v = some "quit".toList ∨
            (is_external v ∧ env.fork < 0))) ∧
      (r.outcome = Outcome.ret 1 ↔
        (¬ ∃ v, effective_argv argv ah = some v ∧
          (command_name v = some "exit".toList ∨
            command_name v = some "quit".toList ∨
            (is_external v ∧ env.fork < 0))) ∧
        ¬ ∃ v, effective_argv argv ah = some v ∧ is_external v ∧ env.fork = 0)) ∧
    (ph.wf → ah.wf → terminated argv → env.fork ≠ 0 →
      ∃ r, msh_exec env argv ph ah = some r ∧
        (r.outcome = Outcome.ret 0 ∨ r.outcome = Outcome.ret 1)) := by
  refine ⟨fun r h => msh_exec_outcome env argv ph ah r h, ?_⟩
  intro hph hah hv hf
  obtain ⟨r, k, he, hk, _⟩ := msh_exec_step env argv ph ah hph hah hv hf
  refine ⟨r, he, ?_⟩
  obtain ⟨h0, h1⟩ := msh_exec_outcome env argv ph ah r he
  by_cases hc : ∃ v, effective_argv argv ah = some v ∧
      (command_name v = some "exit".toList ∨ command_name v = some "quit".toList ∨
        (is_external v ∧ env.fork < 0))
  · exact Or.inl (h0.mpr hc)
  · refine Or.inr (h1.mpr ⟨hc, ?_⟩)
    rintro ⟨v, _, _, h⟩
    exact hf h

/-- The line `exit now` on the initial state: the call returns 0. -/
theorem msh_exec_return_value_witness :
    init_pid_history.wf ∧ init_argv_history.wf ∧ terminated (tokenize "exit now\n") ∧
    (parent_env 100).fork ≠ 0 ∧
    ∃ r, msh_exec (parent_env 100) (tokenize "exit now\n") init_pid_history
        init_argv_history = some r ∧ r.outcome = Outcome.ret 0 := by
  refine ⟨by decide, by decide, by decide, by decide, ?_⟩
  have h := msh_exec_return_value (parent_env 100) (tokenize "exit now\n")
    init_pid_history init_argv_history
  obtain ⟨r, he, _⟩ := h.2 (by decide) (by decide) (by decide) (by decide)
  exact ⟨r, he, (h.1 r he).1.mpr ⟨tokenize "exit now\n", by decide, Or.inl (by decide)⟩⟩

/-! ## The effect of a call on the two histories -/

theorem write_eq_some {α : Type} (a : List α) (i : Int) (x : α) (b : List α)
    (h : write a i x = some b) : b = a.set i.toNat x ∧ 0 ≤ i ∧ i < a.length := by
  unfold write at h
  split_ifs at h with hc
  simp only [Option.some.injEq] at h
  exact ⟨h.symm, hc.1, hc.2⟩

/-- The effect of the dispatch on the two histories, whatever the state,
whenever it does not fault: the command history is untouched, and the
process-identifier history records the child of an external command, and
nothing else. -/
theorem msh_dispatch_effect (env : Env) (a : Option Token) (rest : Argv)
    (ph : pid_history_t) (ah : argv_history_t) (r : Result)
    (h : msh_dispatch env a (a :: rest) ph ah = some r) :
    r.argv_history = ah ∧
    ((is_external (a :: rest) ∧ env.fork > 0 ∧
        r.pid_history = record_pid ph env.fork ∧
        0 ≤ ph.current_index ∧ ph.current_index < ph.history.length) ∨
      (¬ (is_external (a :: rest) ∧ env.fork > 0) ∧ r.pid_history = ph)) := by
  cases a with
  | none =>
    simp only [msh_dispatch, Option.some.injEq] at h
    subst h
    refine ⟨rfl, Or.inr ⟨?_, rfl⟩⟩
    simp [is_external, command_name_cons]
  | some name =>
    unfold msh_dispatch at h
    dsimp only at h
    have hext_iff : is_external (some name :: rest) ↔ name ∉ builtins := by
      simp only [is_external, command_name_cons, Option.some.injEq, exists_eq_left']
    rw [hext_iff]
    by_cases h1 : name = "exit".toList ∨ name = "quit".toList
    · rw [if_pos h1] at h
      simp only [Option.some.injEq] at h
      subst h
      have hb : name ∈ builtins := by
        rcases h1 with e | e <;> (subst e; simp [builtins])
      exact ⟨rfl, Or.inr ⟨fun e => e.1 hb, rfl⟩⟩
    · rw [if_neg h1] at h
      have h1a : name ≠ "exit".toList := fun e => h1 (Or.inl e)
      have h1b : name ≠ "quit".toList := fun e => h1 (Or.inr e)
      by_cases h2 : name = "cd".toList
      · rw [if_pos h2] at h
        have hb : name ∈ builtins := by subst h2; simp [builtins]
        simp only [Option.map_eq_some'] at h
        obtain ⟨a1, _, h⟩ := h
        have hr : r.argv_history = ah ∧ r.pid_history = ph := by
          cases a1 <;> (simp only at h; rw [← h]; exact ⟨rfl, rfl⟩)
        exact ⟨hr.1, Or.inr ⟨fun e => e.1 hb, hr.2⟩⟩
      · rw [if_neg h2] at h
        by_cases h3 : name = "listpids".toList
        · rw [if_pos h3] at h
          have hb : name ∈ builtins := by subst h3; simp [builtins]
          simp only [Option.map_eq_some'] at h
          obtain ⟨t, _, h⟩ := h
          rw [← h]
          exact ⟨rfl, Or.inr ⟨fun e => e.1 hb, rfl⟩⟩
        · rw [if_neg h3] at h
          by_cases h4 : name = "history".toList
          · rw [if_pos h4] at h
            have hb : name ∈ builtins := by subst h4; simp [builtins]
            simp only [Option.map_eq_some'] at h
            obtain ⟨t, _, h⟩ := h
            rw [← h]
            exact ⟨rfl, Or.inr ⟨fun e => e.1 hb, rfl⟩⟩
          · rw [if_neg h4] at h
            have hext : name ∉ builtins := by
              simp only [builtins, List.mem_cons, List.mem_singleton, not_or]
              exact ⟨h1a, h1b, h2, h3, h4, by simp⟩
            by_cases h5 : env.fork = 0
            · rw [if_pos h5] at h
              simp only [Option.map_eq_some'] at h
              obtain ⟨c, _, h⟩ := h
              rw [← h]
              exact ⟨rfl, Or.inr ⟨fun e => by omega, rfl⟩⟩
            · rw [if_neg h5] at h
              by_cases h6 : env.fork < 0
              · rw [if_pos h6] at h
                simp only [Option.some.injEq] at h
                rw [← h]
                exact ⟨rfl, Or.inr ⟨fun e => by omega, rfl⟩⟩
              · rw [if_neg h6] at h
                simp only [Option.map_eq_some'] at h
                obtain ⟨hist, hw, h⟩ := h
                obtain ⟨hset, hlo, hhi⟩ := write_eq_some _ _ _ _ hw
                rw [← h]
                refine ⟨rfl, Or.inl ⟨hext, by omega, ?_, hlo, hhi⟩⟩
                simp only [record_pid, hset]

/-- The effect of a call on the two histories, whatever the state, whenever
it does not fault: a recall leaves the command history as it is and any other
vector is recorded; the process-identifier history records the child of an
external effective command, and nothing else. -/
theorem msh_exec_effect (env : Env) (argv : Argv) (ph : pid_history_t)
    (ah : argv_history_t) (r : Result) (h : msh_exec env argv ph ah = some r) :
    r.argv_history = (if is_recall argv then ah else record_command ah argv) ∧
    (is_recall argv = false →
      0 ≤ ah.current_index ∧ ah.current_index < ah.history.length) ∧
    (((∃ v, effective_argv argv ah = some v ∧ is_external v) ∧ env.fork > 0 ∧
        r.pid_history = record_pid ph env.fork ∧
        0 ≤ ph.current_index ∧ ph.current_index < ph.history.length) ∨
      (¬ ((∃ v, effective_argv argv ah = some v ∧ is_external v) ∧ env.fork > 0) ∧
        r.pid_history = ph)) := by
  unfold msh_exec at h
  simp only [Option.bind_eq_some] at h
  obtain ⟨a, ha, h⟩ := h
  obtain ⟨rest0, rfl⟩ := read_zero_cons argv a ha
  have hj : (read (a :: rest0) 0).join = a := by rw [ha]; rfl
  cases hr : recall_suffix a with
  | none =>
    have hrec : is_recall (a :: rest0) = false := by
      simp only [is_recall, hj, hr]; rfl
    simp only [hr, Option.bind_eq_some, Option.map_eq_some'] at h
    obtain ⟨old, _, fr, _, hist, hw, r0, hd, hr0⟩ := h
    obtain ⟨hset, hlo, hhi⟩ := write_eq_some _ _ _ _ hw
    have heff : effective_argv (a :: rest0) ah = some (a :: rest0) := by
      simp only [effective_argv, hj, hr]
    obtain ⟨e1, e2⟩ := msh_dispatch_effect env a rest0 ph _ r0 hd
    have ea : r.argv_history = r0.argv_history := by rw [← hr0]; rfl
    have ep : r.pid_history = r0.pid_history := by rw [← hr0]; rfl
    refine ⟨?_, fun _ => ⟨hlo, hhi⟩, ?_⟩
    · rw [hrec, ea, e1]
      simp only [Bool.false_eq_true, if_false, record_command, hset]
    · simp only [heff, Option.some.injEq, exists_eq_left', ep]
      exact e2
  | some rs =>
    have hrec : is_recall (a :: rest0) = true := by
      simp only [is_recall, hj, hr]; rfl
    rw [hrec]
    simp only [if_true]
    suffices hs : r.argv_history = ah ∧
        (((∃ v, effective_argv (a :: rest0) ah = some v ∧ is_external v) ∧
            env.fork > 0 ∧ r.pid_history = record_pid ph env.fork ∧
            0 ≤ ph.current_index ∧ ph.current_index < ph.history.length) ∨
          (¬ ((∃ v, effective_argv (a :: rest0) ah = some v ∧ is_external v) ∧
              env.fork > 0) ∧ r.pid_history = ph)) from
      ⟨hs.1, fun hc => absurd hc (by simp), hs.2⟩
    simp only [hr, Option.bind_eq_some] at h
    obtain ⟨fr, _, h⟩ := h
    by_cases hn : 0 ≤ atoi rs ∧ atoi rs < ARGV_HISTORY_SIZE
    · rw [if_pos hn] at h
      simp only [Option.bind_eq_some] at h
      obtain ⟨slot, hslot, h⟩ := h
      have heff : effective_argv (a :: rest0) ah = slot := by
        simp only [effective_argv, hj, hr, lookup_command]
        rw [if_pos hn, hslot]
        rfl
      cases slot with
      | none =>
        simp only [Option.some.injEq] at h
        subst h
        refine ⟨rfl, Or.inr ⟨?_, rfl⟩⟩
        simp [heff]
      | some v =>
        simp only [Option.bind_eq_some, Option.map_eq_some'] at h
        obtain ⟨name, hname, r0, hd, hr0⟩ := h
        obtain ⟨rest1, rfl⟩ := read_zero_cons v name hname
        obtain ⟨e1, e2⟩ := msh_dispatch_effect env name rest1 ph ah r0 hd
        have ea : r.argv_history = r0.argv_history := by rw [← hr0]; rfl
        have ep : r.pid_history = r0.pid_history := by rw [← hr0]; rfl
        refine ⟨by rw [ea, e1], ?_⟩
        simp only [heff, Option.some.injEq, exists_eq_left', ep]
        exact e2
    · rw [if_neg hn] at h
      simp only [Option.some.injEq] at h
      subst h
      have heff : effective_argv (a :: rest0) ah = none := by
        simp only [effective_argv, hj, hr]
        rw [if_neg hn]
      refine ⟨rfl, Or.inr ⟨?_, rfl⟩⟩
      simp [heff]

theorem is_recall_of_name (argv : Argv) (rest : List Char)
    (h : command_name argv = some ('!' :: rest)) : is_recall argv = true := by
  have := recall_suffix_of_name argv rest h
  simp only [is_recall]
  have h2 : recall_suffix ((read argv 0).join) = some rest := this
  rw [h2]
  rfl

/-- A recall that has no effective vector, whenever the call does not fault:
the recall vector is released, one of the two messages is printed, and the
call returns 1 with both histories as they were. -/
theorem msh_exec_rejected (env : Env) (argv : Argv) (ph : pid_history_t)
    (ah : argv_history_t) (r : Result) (hrec : is_recall argv = true)
    (hnone : effective_argv argv ah = none)
    (h : msh_exec env argv ph ah = some r) :
    ∃ fr, free_argv (some argv) = some fr ∧
      (r = ⟨Outcome.ret 1, ph, ah, fr ++ [Event.puts "Invalid n.".toList]⟩ ∨
        r = ⟨Outcome.ret 1, ph, ah,
          fr ++ [Event.puts "Command not in history.".toList]⟩) := by
  unfold msh_exec at h
  simp only [Option.bind_eq_some] at h
  obtain ⟨a, ha, h⟩ := h
  have hj : (read argv 0).join = a := by rw [ha]; rfl
  cases hr : recall_suffix a with
  | none =>
    simp only [is_recall, hj, hr] at hrec
    exact absurd hrec (by simp)
  | some rs =>
    simp only [hr, Option.bind_eq_some] at h
    obtain ⟨fr, hfr, h⟩ := h
    refine ⟨fr, hfr, ?_⟩
    by_cases hn : 0 ≤ atoi rs ∧ atoi rs < ARGV_HISTORY_SIZE
    · rw [if_pos hn] at h
      simp only [Option.bind_eq_some] at h
      obtain ⟨slot, hslot, h⟩ := h
      have heff : effective_argv argv ah = slot := by
        simp only [effective_argv, hj, hr, lookup_command]
        rw [if_pos hn, hslot]
        rfl
      rw [hnone] at heff
      subst heff
      simp only [Option.some.injEq] at h
      exact Or.inr h.symm
    · rw [if_neg hn] at h
      simp only [Option.some.injEq] at h
      exact Or.inl h.symm

theorem c_mod_range (a b : Int) (ha : 0 ≤ a) (hb : 0 < b) :
    0 ≤ c_mod a b ∧ c_mod a b < b := by
  unfold c_mod
  rw [Int.tmod_eq_emod ha (le_of_lt hb)]
  exact ⟨Int.emod_nonneg _ (ne_of_gt hb), Int.emod_lt_of_pos _ hb⟩

theorem c_mod_eq_emod (a b : Int) (ha : 0 ≤ a) (hb : 0 < b) : c_mod a b = a % b := by
  unfold c_mod
  exact Int.tmod_eq_emod ha (le_of_lt hb)

/-- A sequence of calls, whenever none of them faults: the command history
has recorded exactly the vectors that are not recalls. -/
theorem msh_exec_seq_effect (inputs : List (Env × Argv)) :
    ∀ (ph : pid_history_t) (ah : argv_history_t) ph2 ah2 tr,
      msh_exec_seq inputs ph ah = some (ph2, ah2, tr) →
      ah2 = (non_recalls inputs).foldl record_command ah := by
  induction inputs with
  | nil =>
    intro ph ah ph2 ah2 tr h
    simp only [msh_exec_seq, Option.some.injEq, Prod.mk.injEq] at h
    simp [non_recalls, h.2.1]
  | cons x rest ih =>
    intro ph ah ph2 ah2 tr h
    simp only [msh_exec_seq, Option.bind_eq_some] at h
    obtain ⟨r, he, h⟩ := h
    cases ho : r.outcome with
    | ret k =>
      simp only [ho, Option.map_eq_some'] at h
      obtain ⟨s, hs, h⟩ := h
      simp only [Prod.mk.injEq] at h
      have := ih r.pid_history r.argv_history s.1 s.2.1 s.2.2 hs
      rw [← h.2.1, this, (msh_exec_effect x.1 x.2 ph ah r he).1]
      simp only [non_recalls, List.map_cons, List.filter_cons]
      cases is_recall x.2 <;> simp
    | exec p a => simp [ho] at h
    | exit s => simp [ho] at h

theorem mem_foldl_record_command (cs : List Argv) :
    ∀ (ah : argv_history_t) (v : Argv),
      some v ∈ (cs.foldl record_command ah).history →
      some v ∈ ah.history ∨ v ∈ cs := by
  induction cs with
  | nil => intro ah v h; exact Or.inl h
  | cons c cs ih =>
    intro ah v h
    rcases ih (record_command ah c) v h with h1 | h1
    · simp only [record_command] at h1
      rcases List.mem_or_eq_of_mem_set h1 with h2 | h2
      · exact Or.inl h2
      · simp only [Option.some.injEq] at h2
        exact Or.inr (by rw [h2]; exact List.mem_cons_self _ _)
    · exact Or.inr (List.mem_cons_of_mem _ h1)

theorem read_mem {α : Type} (a : List α) (i : Int) (x : α) (h : read a i = some x) :
    x ∈ a := by
  unfold read at h
  split_ifs at h
  exact List.getElem?_mem h

/-! ## The listing and the recall offsets after any number of recordings -/

theorem reduceOption_view_after_records (cs : List Argv) :
    ((List.replicate ARGV_HISTORY_SIZE (none : Option Argv) ++ cs.map some).drop
        cs.length).reduceOption =
      cs.drop (cs.length - ARGV_HISTORY_SIZE) := by
  rw [List.drop_append_eq_append_drop, List.reduceOption_append, List.drop_replicate,
    reduceOption_replicate_none, List.nil_append, List.length_replicate,
    ← List.map_drop, reduceOption_map_some]

/-! ## `atoi` on tokens that are not plain numerals -/

theorem digits_value_decimal (n : Nat) (rest : List Char)
    (hrest : ∀ c ∈ rest.head?, c.isDigit = false) :
    digits_value (decimal n ++ rest) 0 = n := by
  obtain ⟨xs, hx, _, _, hval⟩ := digits_value_toDigitsCore (n + 1) n [] (by omega)
  simp only [List.append_nil] at hx
  have hdec : decimal n = xs := hx
  rw [hdec, hval rest 0]
  cases rest with
  | nil => simp [digits_value]
  | cons a rest =>
    have := hrest a (by simp)
    simp [digits_value, this]

/-- A token without a leading digit, sign or white space has the value 0. -/
theorem atoi_no_digits (c : Char) (s : List Char) (h1 : isspace c = false)
    (h2 : c ≠ '-') (h3 : c ≠ '+') (h4 : c.isDigit = false) :
    atoi (c :: s) = 0 := by
  unfold atoi strtol
  simp only [List.dropWhile_cons, h1, Bool.false_eq_true, if_false, h2, h3,
    digits_value, h4]
  decide

theorem atoi_nil : atoi [] = 0 := by decide

/-- Leading digits followed by other text: the value of the digits is used
when it fits an `int`. -/
theorem atoi_decimal_then_text (n : Nat) (x : Char) (s : List Char)
    (hx : x.isDigit = false) (hn : n < 2 ^ 31) :
    atoi (decimal n ++ x :: s) = n := by
  have h := strtol_decimal n (x :: s) (by simpa using hx)
  unfold atoi to_int
  rw [h]
  have : min LONG_MAX (n : Int) = n := by
    unfold LONG_MAX
    omega
  rw [this]
  omega

/-- A minus sign followed by the numeral of `m`, for `1 ≤ m ≤ 2 ^ 31`: the
value is `-m`. -/
theorem atoi_minus_decimal (m : Nat) (hm : m ≤ 2 ^ 31) :
    atoi ('-' :: decimal m) = -(m : Int) := by
  have hv := digits_value_decimal m [] (by simp)
  simp only [List.append_nil] at hv
  unfold atoi strtol
  have hsp : isspace '-' = false := by decide
  simp only [List.dropWhile_cons, hsp, Bool.false_eq_true, if_false, if_true, hv]
  unfold to_int LONG_MIN
  have : max (-(2 ^ 63 : Int)) (-(m : Int)) = -(m : Int) := by omega
  rw [this]
  omega

/-- The recall `!-m` is rejected for `1 ≤ m ≤ 2 ^ 31`. -/
theorem recall_negative_rejected (env : Env) (argv : Argv) (ph : pid_history_t)
    (ah : argv_history_t) (m : Nat) (hah : ah.wf) (hv : terminated argv)
    (hname : command_name argv = some ('!' :: '-' :: decimal m))
    (hm1 : 1 ≤ m) (hm : m ≤ 2 ^ 31) :
    msh_exec env argv ph ah =
      some ⟨Outcome.ret 1, ph, ah,
        released (some argv) ++ [Event.puts "Invalid n.".toList]⟩ := by
  rw [msh_exec_recall env argv ph ah hah hv _ (recall_suffix_of_name argv _ hname),
    if_neg]
  rw [atoi_minus_decimal m hm]
  intro h
  omega

/-! ## The child of an external command -/

theorem attempt_eq (env : Env) (pre : List Char) (c : Token) (argv : Argv)
    (hv : terminated argv) (hfit : (pre ++ c).length < LINE_MAX_LEN) :
    attempt env pre c argv =
      some (env.execvp (pre ++ c) (argv_tokens argv), pre ++ c, argv_tokens argv) := by
  unfold attempt sprintf_path
  rw [if_pos hfit, scan_of_terminated argv hv]
  rfl

/-- The chain of lines 112-126 is the ordered search over the four candidate
paths, as long as every path fits the buffer. -/
theorem child_eq_search (env : Env) (c : Token) (argv : Argv)
    (hv : terminated argv) (hfit : c.length + 15 < LINE_MAX_LEN) :
    child env c argv = some (search env c (argv_tokens argv)) := by
  have l1 : "./".toList.length = 2 := rfl
  have l2 : "/usr/local/bin/".toList.length = 15 := rfl
  have l3 : "/usr/bin/".toList.length = 9 := rfl
  have l4 : "/bin/".toList.length = 5 := rfl
  have f1 : ("./".toList ++ c).length < LINE_MAX_LEN := by
    rw [List.length_append, l1]; omega
  have f2 : ("/usr/local/bin/".toList ++ c).length < LINE_MAX_LEN := by
    rw [List.length_append, l2]; omega
  have f3 : ("/usr/bin/".toList ++ c).length < LINE_MAX_LEN := by
    rw [List.length_append, l3]; omega
  have f4 : ("/bin/".toList ++ c).length < LINE_MAX_LEN := by
    rw [List.length_append, l4]; omega
  unfold child
  rw [attempt_eq env _ c argv hv f1, attempt_eq env _ c argv hv f2,
    attempt_eq env _ c argv hv f3, attempt_eq env _ c argv hv f4]
  simp only [Option.some_bind, search, candidate_paths, path_prefixes, List.map_cons,
    List.map_nil]
  generalize "./".toList ++ c = p1
  generalize "/usr/local/bin/".toList ++ c = p2
  generalize "/usr/bin/".toList ++ c = p3
  generalize "/bin/".toList ++ c = p4
  cases h1 : env.execvp p1 (argv_tokens argv) <;>
  cases h2 : env.execvp p2 (argv_tokens argv) <;>
  cases h3 : env.execvp p3 (argv_tokens argv) <;>
  cases h4 : env.execvp p4 (argv_tokens argv) <;>
  simp [List.dropWhile_cons, List.takeWhile_cons, h1, h2, h3, h4]

/-- The dispatch of an external command in the child and in the parent. -/
theorem msh_dispatch_external (env : Env) (c : Token) (argv : Argv)
    (ph : pid_history_t) (ah : argv_history_t)
    (hext : c ∉ builtins) (hv : terminated argv)
    (hfit : c.length + 15 < LINE_MAX_LEN) :
    (env.fork = 0 →
      msh_dispatch env (some c) argv ph ah =
        some ⟨(search env c (argv_tokens argv)).1, ph, ah,
          Event.fork 0 :: (search env c (argv_tokens argv)).2⟩) ∧
    (env.fork > 0 → ph.wf →
      msh_dispatch env (some c) argv ph ah =
        some ⟨Outcome.ret 1, record_pid ph env.fork, ah,
          [Event.fork env.fork, Event.wait]⟩) := by
  have hb : ¬ (c = "exit".toList ∨ c = "quit".toList) ∧ ¬ c = "cd".toList ∧
      ¬ c = "listpids".toList ∧ ¬ c = "history".toList := by
    simp only [builtins, List.mem_cons, List.mem_singleton, not_or] at hext
    exact ⟨fun h => h.elim hext.1 hext.2.1, hext.2.2.1, hext.2.2.2.1, hext.2.2.2.2.1⟩
  refine ⟨?_, ?_⟩
  · intro hf
    simp only [msh_dispatch, if_neg hb.1, if_neg hb.2.1, if_neg hb.2.2.1,
      if_neg hb.2.2.2, if_pos hf, child_eq_search env c argv hv hfit, Option.map_some']
  · intro hf hph
    have h0 : ¬ env.fork = 0 := by omega
    have h1 : ¬ env.fork < 0 := by omega
    obtain ⟨hlen, hlo, hhi⟩ := hph
    have hw : write ph.history ph.current_index env.fork =
        some (ph.history.set ph.current_index.toNat env.fork) := by
      unfold write
      rw [if_pos ⟨hlo, by rw [hlen]; exact hhi⟩]
    simp only [msh_dispatch, if_neg hb.1, if_neg hb.2.1, if_neg hb.2.2.1,
      if_neg hb.2.2.2, if_neg h0, if_neg h1, hw, Option.map_some', record_pid]

/-- The effective vector of a call on a sound command history is terminated. -/
theorem effective_terminated (argv v : Argv) (ah : argv_history_t) (hah : ah.wf)
    (hv : terminated argv) (heff : effective_argv argv ah = some v) :
    terminated v := by
  cases hr : recall_suffix ((read argv 0).join) with
  | none =>
    simp only [effective_argv, hr, Option.some.injEq] at heff
    rw [← heff]; exact hv
  | some rs =>
    simp only [effective_argv, hr] at heff
    split_ifs at heff
    simp only [lookup_command] at heff
    cases hread : read ah.history
        (c_mod (ah.current_index - 1 - atoi rs + ARGV_HISTORY_SIZE)
          ARGV_HISTORY_SIZE) with
    | none => rw [hread] at heff; simp [Option.join] at heff
    | some slot =>
      rw [hread] at heff
      have : slot = some v := by simpa [Option.join] using heff
      rw [this] at hread
      exact hah.2.2.2 _ (read_mem _ _ _ hread)

/-- On a sound command history a call is the resolution step followed by the
dispatch on the effective vector. -/
theorem msh_exec_dispatches (env : Env) (argv v : Argv) (ph : pid_history_t)
    (ah : argv_history_t) (hah : ah.wf) (hv : terminated argv)
    (heff : effective_argv argv ah = some v) :
    msh_exec env argv ph ah =
      (msh_dispatch env (command_name v) v ph
        (if is_recall argv then ah else record_command ah argv)).map
        (Result.after
          (if is_recall argv then released (some argv)
            else released (ah.view.head?.join))) := by
  cases hr : recall_suffix ((read argv 0).join) with
  | none =>
    have hrec : is_recall argv = false := by simp only [is_recall, hr]; rfl
    simp only [effective_argv, hr, Option.some.injEq] at heff
    rw [hrec, ← heff, msh_exec_record env argv ph ah hah hv hrec]
    simp
  | some rs =>
    have hrec : is_recall argv = true := by simp only [is_recall, hr]; rfl
    simp only [effective_argv, hr] at heff
    rw [hrec, msh_exec_recall env argv ph ah hah hv rs hr]
    split_ifs at heff with hn
    rw [if_pos hn, heff]
    simp

/-! ## The loop of `main` at the end of the input -/

/-- Once the input is exhausted and `keepRunning` holds a value other than 0,
every further iteration prints the prompt and nothing else, and the loop is
not left, whatever the number of iterations. -/
theorem main_loop_eof (fuel : Nat) :
    ∀ (k : Int) (ph : pid_history_t) (ah : argv_history_t) (tr : List Event),
      k ≠ 0 →
      main_loop fuel [] (some k) ph ah tr =
        Run.unfinished (tr ++ List.replicate fuel Event.printf_prompt) := by
  induction fuel with
  | zero => intro k ph ah tr _; simp [main_loop]
  | succ fuel ih =>
    intro k ph ah tr hk
    simp only [main_loop, loop_exit, hk, ne_eq, not_false_eq_true, if_true]
    rw [ih k ph ah _ hk, List.replicate_succ]
    simp

/-! ## Ownership of the argument vectors -/

theorem reduceOption_set_count (l : List (Option Nat)) (c y a : Nat)
    (hc : c < l.length) :
    List.count a ((l[c]?.join).toList) + List.count a (l.set c (some y)).reduceOption =
      List.count a l.reduceOption + List.count a [y] := by
  have hsplit : l = l.take c ++ l[c] :: l.drop (c + 1) := by
    conv_lhs => rw [← List.take_append_drop c l, List.drop_eq_getElem_cons hc]
  rw [List.set_eq_take_append_cons_drop, if_pos hc, List.getElem?_eq_getElem hc]
  conv_rhs => rw [hsplit]
  simp only [List.reduceOption_append, List.count_append,
    List.reduceOption_cons_of_some]
  cases l[c] with
  | none =>
    simp only [Option.join, Option.toList, List.reduceOption_cons_of_none,
      List.count_cons, List.count_nil]
    simp
    omega
  | some x =>
    simp only [List.reduceOption_cons_of_some, List.count_cons, List.count_nil]
    simp [Option.join, Option.toList, List.count_cons]
    omega

theorem flatMap_released_slots (owners : List (Option Nat)) (val : Nat → Option Argv) :
    (owners.map (fun s => s.bind val)).flatMap released =
      owners.reduceOption.flatMap (fun j => released (val j)) := by
  induction owners with
  | nil => rfl
  | cons s owners ih =>
    cases s with
    | none =>
      simp only [List.map_cons, List.flatMap_cons, Option.none_bind,
        List.reduceOption_cons_of_none, ih]
      rfl
    | some j =>
      simp only [List.map_cons, List.flatMap_cons, Option.some_bind,
        List.reduceOption_cons_of_some, ih]

/-- On a sound command history the loop of lines 191-193 releases the
occupants of the slots, in the order of the slots. -/
theorem teardown_loop_eq (ah : argv_history_t) (hah : ah.wf) :
    ∀ (fuel i : Nat), i + fuel = ARGV_HISTORY_SIZE →
      teardown_loop ah fuel (i : Int) = some ((ah.history.drop i).flatMap released) := by
  intro fuel
  induction fuel with
  | zero =>
    intro i hi
    have : ah.history.length ≤ i := by rw [hah.1]; omega
    simp [teardown_loop, List.drop_of_length_le this]
  | succ fuel ih =>
    intro i hi
    have hil : i < ah.history.length := by rw [hah.1]; omega
    have hnext := ih (i + 1) (by omega)
    simp only [Nat.cast_add, Nat.cast_one] at hnext
    have hslot : slot_terminated ah.history[i] := hah.2.2.2 _ (List.getElem_mem hil)
    simp only [teardown_loop, read_natCast, List.getElem?_eq_getElem hil,
      Option.some_bind, free_argv_of_slot _ hslot, hnext, Option.map_some']
    rw [List.drop_eq_getElem_cons hil, List.flatMap_cons]

/-- The invariant of ownership along a sequence of calls that starts at the
allocation `id` on a state whose slots hold the vectors of their owners. -/
theorem msh_exec_owned_inv (val : Nat → Option Argv) (inputs : List (Env × Argv)) :
    ∀ (id : Nat) (ph : pid_history_t) (ah : argv_history_t) (o : Ownership),
      ph.wf → ah.wf →
      (∀ x ∈ inputs, terminated x.2 ∧ x.1.fork ≠ 0) →
      (∀ k, k < inputs.length → val (id + k) = inputs[k]?.map Prod.snd) →
      ah.history = o.owners.map (fun s => s.bind val) →
      ∃ ph2 ah2 tr o2 fresh,
        msh_exec_owned id inputs ph ah o = some (ph2, ah2, tr, o2) ∧
        ah2.wf ∧
        ah2.history = o2.owners.map (fun s => s.bind val) ∧
        o2.freed = o.freed ++ fresh ∧
        tr.filter Event.is_free = fresh.flatMap (fun j => released (val j)) ∧
        ∀ a, List.count a fresh + List.count a o2.owners.reduceOption =
          List.count a o.owners.reduceOption +
            List.count a (List.range' id inputs.length) := by
  induction inputs with
  | nil =>
    intro id ph ah o _ hah _ _ hag
    exact ⟨ph, ah, [], o, [], rfl, hah, hag, by simp, rfl, by simp⟩
  | cons x rest ih =>
    intro id ph ah o hph hah hin hval hag
    obtain ⟨hx1, hx2⟩ := hin x (List.mem_cons_self _ _)
    obtain ⟨r, k, he, hk, ha, hp, hfree⟩ :=
      msh_exec_step x.1 x.2 ph ah hph hah hx1 hx2
    have hvid : val id = some x.2 := by
      have := hval 0 (by simp)
      simpa using this
    have hph2 : r.pid_history.wf := by
      rw [hp]; exact foldl_record_pid_wf _ ph hph
    have hah2 : r.argv_history.wf := by
      rw [ha]
      split
      · exact hah
      · exact record_command_wf ah x.2 hah hx1
    have hval2 : ∀ k, k < rest.length → val (id + 1 + k) = rest[k]?.map Prod.snd := by
      intro k hk
      have := hval (k + 1) (by simp; omega)
      rw [show id + 1 + k = id + (k + 1) by omega, this]
      simp
    have hlen : o.owners.length = ARGV_HISTORY_SIZE := by
      have := congrArg List.length hag
      rw [hah.1] at this
      simpa using this.symm
    have hcur : ah.current_index.toNat < o.owners.length := by
      rw [hlen]
      have h0 := hah.2.1
      have h1 := hah.2.2.1
      omega
    have hag2 : r.argv_history.history =
        (o.step id x.2 ah).owners.map (fun s => s.bind val) := by
      rw [ha]
      unfold Ownership.step
      cases hrec : is_recall x.2
      · simp only [Bool.false_eq_true, if_false, record_command, List.map_set,
          Option.some_bind, hvid, hag]
      · simp only [if_true, hag]
    obtain ⟨ph3, ah3, tr, o3, fresh, hs, w3, hag3, hfr3, htr3, hcount3⟩ :=
      ih (id + 1) r.pid_history r.argv_history (o.step id x.2 ah) hph2 hah2
        (fun y hy => hin y (List.mem_cons_of_mem _ hy)) hval2 hag2
    cases hrec : is_recall x.2 with
    | true =>
      rw [hrec] at hfree
      simp only [if_true] at hfree
      have hstep : o.step id x.2 ah = ⟨o.owners, o.freed ++ [id]⟩ := by
        simp [Ownership.step, hrec]
      rw [hstep] at hfr3 hcount3
      refine ⟨ph3, ah3, r.trace ++ tr, o3, id :: fresh, ?_, w3, hag3, ?_, ?_, ?_⟩
      · simp only [msh_exec_owned, he, Option.some_bind, hk, hs, Option.map_some']
      · rw [hfr3]; simp
      · rw [List.filter_append, hfree, htr3, List.flatMap_cons, hvid]
      · intro a
        have := hcount3 a
        simp only [List.length_cons, List.range'_succ, List.count_cons] at this ⊢
        omega
    | false =>
      rw [hrec] at hfree
      simp only [Bool.false_eq_true, if_false] at hfree
      have hstep : o.step id x.2 ah =
          ⟨o.owners.set ah.current_index.toNat (some id),
            o.freed ++ (o.owners[ah.current_index.toNat]?.join).toList⟩ := by
        simp [Ownership.step, hrec]
      rw [hstep] at hfr3 hcount3
      have hhead : ah.view.head?.join =
          (o.owners[ah.current_index.toNat]?.join).bind val := by
        obtain ⟨hread, _⟩ := read_cursor ah hah
        unfold read at hread
        rw [if_pos hah.2.1] at hread
        have hcl : ah.current_index.toNat < ah.history.length := by
          rw [hag]; simpa using hcur
        rw [List.getElem?_eq_getElem hcl] at hread
        simp only [Option.some.injEq] at hread
        rw [← hread, List.getElem?_eq_getElem hcur]
        simp only [hag, List.getElem_map, Option.join]
        cases o.owners[ah.current_index.toNat] <;> rfl
      refine ⟨ph3, ah3, r.trace ++ tr, o3,
        (o.owners[ah.current_index.toNat]?.join).toList ++ fresh, ?_, w3, hag3, ?_, ?_, ?_⟩
      · simp only [msh_exec_owned, he, Option.some_bind, hk, hs, Option.map_some']
      · rw [hfr3]; simp
      · rw [List.filter_append, hfree, htr3, List.flatMap_append, hhead]
        congr 1
        cases o.owners[ah.current_index.toNat]?.join <;> simp [released, Option.toList]
      · intro a
        have h1 := hcount3 a
        have h2 := reduceOption_set_count o.owners ah.current_index.toNat id a hcur
        simp only [List.length_cons, List.range'_succ, List.count_cons, List.count_append,
          List.count_nil] at h1 h2 ⊢
        omega

/-- The run with ownership is the run of `msh_exec_seq`. -/
theorem msh_exec_owned_seq (inputs : List (Env × Argv)) :
    ∀ (id : Nat) (ph : pid_history_t) (ah : argv_history_t) (o : Ownership),
      (msh_exec_owned id inputs ph ah o).map (fun s => (s.1, s.2.1, s.2.2.1)) =
        msh_exec_seq inputs ph ah := by
  induction inputs with
  | nil => intro id ph ah o; rfl
  | cons x rest ih =>
    intro id ph ah o
    simp only [msh_exec_owned, msh_exec_seq]
    cases he : msh_exec x.1 x.2 ph ah with
    | none => rfl
    | some r =>
      simp only [Option.some_bind]
      cases ho : r.outcome with
      | ret k =>
        simp only
        rw [← ih (id + 1) r.pid_history r.argv_history (o.step id x.2 ah)]
        cases msh_exec_owned (id + 1) rest r.pid_history r.argv_history
          (o.step id x.2 ah) <;> rfl
      | exec p a => rfl
      | exit s => rfl


/-! ## A run of `main` -/

theorem filter_free_flatMap_released (l : List (Option Argv)) :
    (l.flatMap released).filter Event.is_free = l.flatMap released := by
  induction l with
  | nil => rfl
  | cons s l ih =>
    rw [List.flatMap_cons, List.filter_append, ih, filter_free_released]

/-- On a sound command history the loop is left exactly when `keepRunning` is
0, and then every occupant of a slot is released before `main` returns 0. -/
theorem loop_exit_eq (k : Int) (ah : argv_history_t) (hah : ah.wf)
    (tr : List Event) :
    loop_exit (some k) ah tr =
      if k ≠ 0 then none
      else some (Run.returned 0 (tr ++ ah.history.flatMap released)) := by
  have htd := teardown_loop_eq ah hah ARGV_HISTORY_SIZE 0 (by simp)
  simp only [Nat.cast_zero, List.drop_zero] at htd
  simp only [loop_exit, htd]

/-- A call whose vector is named `exit` or `quit` returns 0. -/
theorem msh_exec_exit (env : Env) (argv : Argv) (ph : pid_history_t)
    (ah : argv_history_t) (r : Result) (h : msh_exec env argv ph ah = some r)
    (hn : command_name argv = some "exit".toList ∨
      command_name argv = some "quit".toList) :
    r.outcome = Outcome.ret 0 := by
  refine (msh_exec_outcome env argv ph ah r h).1.mpr ⟨argv, ?_, ?_⟩
  · have hj : (read argv 0).join = command_name argv := rfl
    rcases hn with e | e
    · simp only [effective_argv, hj, e]; rfl
    · simp only [effective_argv, hj, e]; rfl
  · rcases hn with e | e
    · exact Or.inl e
    · exact Or.inr (Or.inl e)

/-- A run of the loop of `main` in the interpreter process, from a sound
state, that returns: it made `n` iterations, one call per line on the first
`n` lines, the last of which returned 0, and its trace ends with the release
of the occupants of the slots. -/
theorem main_loop_returned (stdin : List (Env × List Char)) :
    ∀ (fuel : Nat) (kr : Option Int) (ph : pid_history_t) (ah : argv_history_t)
      (tr0 : List Event) (status : Int) (t : List Event),
      ph.wf → ah.wf → kr ≠ some 0 →
      (∀ x ∈ stdin, terminated (msh_get_arguments x.2) ∧ x.1.fork ≠ 0) →
      main_loop fuel stdin kr ph ah tr0 = Run.returned status t →
      status = 0 ∧
      ∃ n ph2 ah2 tr pre,
        0 < n ∧ n ≤ stdin.length ∧ n ≤ fuel ∧
        (∀ f, f < n → ∃ u, main_loop f stdin kr ph ah tr0 = Run.unfinished u) ∧
        main_loop n stdin kr ph ah tr0 = Run.returned 0 t ∧
        msh_exec_seq ((stdin.take n).map (fun x => (x.1, msh_get_arguments x.2)))
          ph ah = some (ph2, ah2, tr) ∧
        ah2.wf ∧
        t = tr0 ++ pre ++ ah2.history.flatMap released ∧
        pre.filter Event.is_free = tr.filter Event.is_free := by
  induction stdin with
  | nil =>
    intro fuel kr ph ah tr0 status t _ hah hkr _ h
    cases fuel with
    | zero => simp [main_loop] at h
    | succ fuel =>
      cases kr with
      | none => simp [main_loop, loop_exit] at h
      | some k =>
        have hk : k ≠ 0 := fun e => hkr (by rw [e])
        rw [main_loop_eof (fuel + 1) k ph ah tr0 hk] at h
        simp at h
  | cons x rest ih =>
    intro fuel kr ph ah tr0 status t hph hah hkr hin h
    cases fuel with
    | zero => simp [main_loop] at h
    | succ fuel =>
      obtain ⟨hx1, hx2⟩ := hin x (List.mem_cons_self _ _)
      obtain ⟨r, k, he, hk, ha, hp, _⟩ :=
        msh_exec_step x.1 (msh_get_arguments x.2) ph ah hph hah hx1 hx2
      have hph2 : r.pid_history.wf := by
        rw [hp]; exact foldl_record_pid_wf _ ph hph
      have hah2 : r.argv_history.wf := by
        rw [ha]
        split
        · exact hah
        · exact record_command_wf ah _ hah hx1
      have hstep : ∀ g, main_loop (g + 1) (x :: rest) kr ph ah tr0 =
          if k ≠ 0 then
            main_loop g rest (some k) r.pid_history r.argv_history
              (tr0 ++ Event.printf_prompt :: r.trace)
          else
            Run.returned 0
              ((tr0 ++ Event.printf_prompt :: r.trace) ++
                r.argv_history.history.flatMap released) := by
        intro g
        simp only [main_loop, he, hk, loop_exit_eq k r.argv_history hah2]
        by_cases hk0 : k ≠ 0
        · simp only [if_pos hk0]
        · simp only [if_neg hk0]
      rw [hstep fuel] at h
      by_cases hk0 : k ≠ 0
      · rw [if_pos hk0] at h
        have hkr2 : (some k : Option Int) ≠ some 0 := by
          intro e; exact hk0 (Option.some.inj e)
        obtain ⟨hs, n, ph2, ah2, tr, pre, hn0, hn1, hn2, hunf, hret, hseq, hw, ht, hf⟩ :=
          ih fuel (some k) r.pid_history r.argv_history
            (tr0 ++ Event.printf_prompt :: r.trace) status t hph2 hah2 hkr2
            (fun y hy => hin y (List.mem_cons_of_mem _ hy)) h
        refine ⟨hs, n + 1, ph2, ah2, r.trace ++ tr,
          Event.printf_prompt :: r.trace ++ pre, by omega, by simp; omega, by omega,
          ?_, ?_, ?_, hw, ?_, ?_⟩
        · intro f hf2
          cases f with
          | zero => exact ⟨tr0, by simp [main_loop]⟩
          | succ f =>
            rw [hstep f, if_pos hk0]
            exact hunf f (by omega)
        · rw [hstep n, if_pos hk0]; exact hret
        · simp only [List.take_succ_cons, List.map_cons, msh_exec_seq, he,
            Option.some_bind, hk, hseq, Option.map_some']
        · rw [ht]; simp
        · simp only [List.filter_append, List.filter_cons, Event.is_free, hf]
          simp
      · rw [if_neg hk0] at h
        simp only [Run.returned.injEq] at h
        refine ⟨h.1.symm, 1, r.pid_history, r.argv_history, r.trace,
          Event.printf_prompt :: r.trace, by omega, by simp, by omega,
          ?_, ?_, ?_, hah2, ?_, ?_⟩
        · intro f hf2
          have : f = 0 := by omega
          subst this
          exact ⟨tr0, by simp [main_loop]⟩
        · rw [hstep 0, if_neg hk0, h.2]
        · simp only [List.take_succ_cons, List.take_zero, List.map_cons, List.map_nil,
            msh_exec_seq, he, Option.some_bind, hk, Option.map_some',
            List.append_nil]
        · rw [← h.2]
        · simp [List.filter_cons, Event.is_free]

/-- A run of the loop of `main` in the interpreter process whose input holds a
line naming `exit` or `quit` returns 0, given one iteration per line. -/
theorem main_loop_exits (stdin : List (Env × List Char)) :
    ∀ (fuel : Nat) (kr : Option Int) (ph : pid_history_t) (ah : argv_history_t)
      (tr0 : List Event),
      ph.wf → ah.wf →
      (∀ x ∈ stdin, terminated (msh_get_arguments x.2) ∧ x.1.fork ≠ 0) →
      (∃ x ∈ stdin, command_name (msh_get_arguments x.2) = some "exit".toList ∨
        command_name (msh_get_arguments x.2) = some "quit".toList) →
      stdin.length ≤ fuel →
      ∃ t, main_loop fuel stdin kr ph ah tr0 = Run.returned 0 t := by
  induction stdin with
  | nil =>
    intro fuel kr ph ah tr0 _ _ _ hex _
    obtain ⟨x, hx, _⟩ := hex
    cases hx
  | cons x rest ih =>
    intro fuel kr ph ah tr0 hph hah hin hex hfuel
    cases fuel with
    | zero => simp at hfuel
    | succ fuel =>
      obtain ⟨hx1, hx2⟩ := hin x (List.mem_cons_self _ _)
      obtain ⟨r, k, he, hk, ha, hp, _⟩ :=
        msh_exec_step x.1 (msh_get_arguments x.2) ph ah hph hah hx1 hx2
      have hph2 : r.pid_history.wf := by
        rw [hp]; exact foldl_record_pid_wf _ ph hph
      have hah2 : r.argv_history.wf := by
        rw [ha]
        split
        · exact hah
        · exact record_command_wf ah _ hah hx1
      simp only [main_loop, he, hk, loop_exit_eq k r.argv_history hah2]
      by_cases hk0 : k ≠ 0
      · simp only [if_pos hk0]
        apply ih fuel (some k) r.pid_history r.argv_history _ hph2 hah2
          (fun y hy => hin y (List.mem_cons_of_mem _ hy))
        · obtain ⟨y, hy, hname⟩ := hex
          rcases List.mem_cons.mp hy with e | e
          · subst e
            have h0 := msh_exec_exit _ _ _ _ r he hname
            rw [hk] at h0
            simp only [Outcome.ret.injEq] at h0
            exact absurd h0 hk0
          · exact ⟨y, e, hname⟩
        · simpa using hfuel
      · simp only [if_neg hk0]
        exact ⟨_, rfl⟩

/-- The ownership after a sequence of calls from the initial state, the
allocation `j` being the vector `val j`: the slots hold the vectors of their
owners, the trace releases the allocations freed, and the allocations freed
together with the allocations held are the allocations made, each once. -/
theorem msh_exec_owned_init (val : Nat → Option Argv) (inputs : List (Env × Argv))
    (hin : ∀ x ∈ inputs, terminated x.2 ∧ x.1.fork ≠ 0)
    (hval : ∀ k, k < inputs.length → val k = inputs[k]?.map Prod.snd) :
    ∃ ph ah tr o,
      msh_exec_owned 0 inputs init_pid_history init_argv_history init_ownership =
        some (ph, ah, tr, o) ∧
      msh_exec_seq inputs init_pid_history init_argv_history = some (ph, ah, tr) ∧
      ah.wf ∧
      ah.history = o.owners.map (fun s => s.bind val) ∧
      tr.filter Event.is_free = o.freed.flatMap (fun j => released (val j)) ∧
      (o.freed ++ o.owners.reduceOption).Perm (List.range inputs.length) ∧
      (o.freed ++ o.owners.reduceOption).Nodup ∧
      (∀ j ∈ o.owners.reduceOption, j ∉ o.freed) ∧
      teardown_loop ah ARGV_HISTORY_SIZE 0 =
        some (o.owners.reduceOption.flatMap (fun j => released (val j))) := by
  obtain ⟨ph, ah, tr, o, fresh, hs, hah, hag, hfr, htr, hcount⟩ :=
    msh_exec_owned_inv val inputs 0
      init_pid_history init_argv_history init_ownership init_pid_history_wf
      init_argv_history_wf hin (fun k hk => by rw [Nat.zero_add]; exact hval k hk)
      (by simp [init_argv_history, init_ownership])
  have hfresh : o.freed = fresh := by
    rw [hfr]; simp [init_ownership]
  have hperm : (o.freed ++ o.owners.reduceOption).Perm (List.range inputs.length) := by
    rw [List.perm_iff_count]
    intro a
    have := hcount a
    rw [List.count_append, hfresh, this, List.range_eq_range']
    simp [init_ownership, reduceOption_replicate_none]
  have hnodup : (o.freed ++ o.owners.reduceOption).Nodup :=
    hperm.nodup_iff.mpr (List.nodup_range _)
  have hseq := msh_exec_owned_seq inputs 0 init_pid_history init_argv_history
    init_ownership
  rw [hs] at hseq
  have htd := teardown_loop_eq ah hah ARGV_HISTORY_SIZE 0 (by simp)
  simp only [Nat.cast_zero, List.drop_zero] at htd
  rw [hag, flatMap_released_slots] at htd
  refine ⟨ph, ah, tr, o, hs, hseq.symm, hah, hag, ?_, hperm, hnodup, ?_, htd⟩
  · rw [htr, hfresh]
  · intro j hj hf
    exact (List.nodup_append.mp hnodup).2.2 hf hj
/-! ## The end of the input -/

/-- C11: with the single line `ls` on its input, then the end of the input,
`main` is still in its loop after any number of iterations: the call on `ls`
returns 1, every later `fgets` returns `NULL`, `keepRunning` keeps the value
1, and each iteration only prints the prompt.  With an empty input the test
of the loop reads a `keepRunning` that was never written. -/
theorem main_loops_at_end_of_input (fuel : Nat) :
    main (fuel + 1) [(parent_env 100, "ls\n".toList)] =
      Run.unfinished
        ([Event.printf_prompt, Event.fork 100, Event.wait] ++
          List.replicate fuel Event.printf_prompt) ∧
    main (fuel + 1) [] = Run.fault := by
  constructor
  · have he : msh_exec (parent_env 100) (msh_get_arguments "ls\n".toList)
        init_pid_history init_argv_history =
        some ⟨Outcome.ret 1, record_pid init_pid_history 100,
          record_command init_argv_history (tokenize "ls\n"),
          [Event.fork 100, Event.wait]⟩ := by decide
    simp only [main, main_loop, he, loop_exit]
    rw [if_pos (by decide), main_loop_eof fuel 1 _ _ _ (by decide)]
    rfl
  · rfl

/-! ## Frame properties of recalls -/

/-- C12: for every state, a recall vector that has no effective vector (its
offset is rejected, or the slot it designates is empty) leaves both histories
as they were whenever the call does not fault: every slot and both write
cursors are unchanged, the recall vector is released, one of the messages
"Invalid n." and "Command not in history." is printed and 1 is returned.  On
a sound command history the call does not fault. -/
theorem failed_recall_frame (env : Env) (argv : Argv) (ph : pid_history_t)
    (ah : argv_history_t) (rest : List Char)
    (hname : command_name argv = some ('!' :: rest))
    (hnone : effective_argv argv ah = none) :
    (∀ r, msh_exec env argv ph ah = some r →
      r.argv_history = ah ∧ r.pid_history = ph ∧ r.outcome = Outcome.ret 1 ∧
      ∃ fr, free_argv (some argv) = some fr ∧
        (r.trace = fr ++ [Event.puts "Invalid n.".toList] ∨
          r.trace = fr ++ [Event.puts "Command not in history.".toList])) ∧
    (ah.wf → terminated argv → ∃ r, msh_exec env argv ph ah = some r) := by
  have hrec := is_recall_of_name argv rest hname
  constructor
  · intro r h
    obtain ⟨fr, hfr, hr⟩ := msh_exec_rejected env argv ph ah r hrec hnone h
    rcases hr with hr | hr
    · subst hr
      exact ⟨rfl, rfl, rfl, fr, hfr, Or.inl rfl⟩
    · subst hr
      exact ⟨rfl, rfl, rfl, fr, hfr, Or.inr rfl⟩
  · intro hah hv
    have hrs := recall_suffix_of_name argv rest hname
    rw [msh_exec_recall env argv ph ah hah hv rest hrs]
    have hrs2 : recall_suffix ((read argv 0).join) = some rest := hrs
    simp only [effective_argv, hrs2] at hnone
    by_cases hn : 0 ≤ atoi rest ∧ atoi rest < ARGV_HISTORY_SIZE
    · rw [if_pos hn] at hnone ⊢
      rw [hnone]
      exact ⟨_, rfl⟩
    · rw [if_neg hn]
      exact ⟨_, rfl⟩

/-- The recalls `!15` and `!3` on the initial state: the first is rejected as
invalid, the second is not in the history. -/
theorem failed_recall_frame_witness :
    command_name (tokenize "!15\n") = some ('!' :: "15".toList) ∧
    effective_argv (tokenize "!15\n") init_argv_history = none ∧
    init_argv_history.wf ∧ terminated (tokenize "!15\n") ∧
    (∃ r, msh_exec (parent_env 100) (tokenize "!15\n") init_pid_history
        init_argv_history = some r ∧
      r.argv_history = init_argv_history ∧ r.pid_history = init_pid_history ∧
      r.outcome = Outcome.ret 1) ∧
    msh_exec (parent_env 100) (tokenize "!3\n") init_pid_history init_argv_history =
      some ⟨Outcome.ret 1, init_pid_history, init_argv_history,
        released (some (tokenize "!3\n")) ++
          [Event.puts "Command not in history.".toList]⟩ := by
  have h := failed_recall_frame (parent_env 100) (tokenize "!15\n") init_pid_history
    init_argv_history "15".toList (by decide) (by decide)
  obtain ⟨r, hr⟩ := h.2 (by decide) (by decide)
  obtain ⟨h1, h2, h3, _⟩ := h.1 r hr
  exact ⟨by decide, by decide, by decide, by decide, ⟨r, hr, h1, h2, h3⟩, by decide⟩

/-- C13: for every state and every vector whose first token begins with `!`,
whenever the call does not fault the command history is as it was, slots and
write cursor, whether the recall is rejected, not found or dispatched; so
every lookup, and the effective vector of any later recall, is the same after
the call as before.  On a sound state, in the interpreter process, the call
does not fault. -/
theorem recall_not_stored (env : Env) (argv : Argv) (ph : pid_history_t)
    (ah : argv_history_t) (rest : List Char)
    (hname : command_name argv = some ('!' :: rest)) :
    (∀ r, msh_exec env argv ph ah = some r →
      r.argv_history = ah ∧
      (∀ n, lookup_command r.argv_history n = lookup_command ah n) ∧
      ∀ later, effective_argv later r.argv_history = effective_argv later ah) ∧
    (ph.wf → ah.wf → terminated argv → env.fork ≠ 0 →
      ∃ r, msh_exec env argv ph ah = some r) := by
  have hrec := is_recall_of_name argv rest hname
  constructor
  · intro r h
    have he := (msh_exec_effect env argv ph ah r h).1
    rw [hrec] at he
    simp only [if_true] at he
    rw [he]
    exact ⟨rfl, fun _ => rfl, fun _ => rfl⟩
  · intro hph hah hv hf
    obtain ⟨r, _, he, _⟩ := msh_exec_step env argv ph ah hph hah hv hf
    exact ⟨r, he⟩

/-- The scenario `cd /tmp`, `pwd`, then `!1`: the recall is dispatched (the
directory change is made again) and the command history after it is the one
before it. -/
theorem recall_not_stored_witness :
    command_name (tokenize "!1\n") = some ('!' :: "1".toList) ∧
    pids_cd_pwd.wf ∧ history_cd_pwd.wf ∧ terminated (tokenize "!1\n") ∧
    (parent_env 102).fork ≠ 0 ∧
    (∃ r, msh_exec (parent_env 102) (tokenize "!1\n") pids_cd_pwd history_cd_pwd =
        some r ∧ r.argv_history = history_cd_pwd) ∧
    (msh_exec (parent_env 102) (tokenize "!1\n") pids_cd_pwd history_cd_pwd).map
        Result.trace =
      some (released (some (tokenize "!1\n")) ++ [Event.chdir "/tmp".toList]) := by
  have h := recall_not_stored (parent_env 102) (tokenize "!1\n") pids_cd_pwd
    history_cd_pwd "1".toList (by decide)
  obtain ⟨r, hr⟩ := h.2 (by decide) (by decide) (by decide) (by decide)
  exact ⟨by decide, by decide, by decide, by decide, by decide,
    ⟨r, hr, (h.1 r hr).1⟩, by decide⟩

/-! ## Ownership of the argument vectors -/

/-- C14: starting from the initial state, let the vector of the call number
`j` of a sequence of calls be the allocation `j`.  After the calls, every
slot of the command history holds the vector of its owner; the memory
released in the trace is that of the allocations freed, in order (the recall
vector of a recall, the former occupant of the write slot otherwise); the
allocations freed together with the allocations held are exactly the
allocations made, each once: no allocation is freed twice, none is held by
two slots, none that a slot holds (as the effective vector of a call is) was
freed, and none is lost.  The loop of lines 191-193 then releases exactly the
allocations held.

Over a whole run: whenever `main`, reading lines whose vectors are these,
returns, it returns 0 after exactly `n` iterations of its loop (with fewer
it is still in the loop), each of which read one line and allocated one
vector; its trace is the trace of the `n` calls and prompts, which releases
the allocations freed by the calls, followed by the release of the
allocations the slots hold; so the memory released during the run is that of
the allocations 0 to `n - 1`, each exactly once.  And `main` does return when
a line names `exit` or `quit`, given one iteration per line. -/
theorem ownership_exact (inputs : List (Env × Argv))
    (hin : ∀ x ∈ inputs, terminated x.2 ∧ x.1.fork ≠ 0) :
    (∃ ph ah tr o,
      msh_exec_owned 0 inputs init_pid_history init_argv_history init_ownership =
        some (ph, ah, tr, o) ∧
      msh_exec_seq inputs init_pid_history init_argv_history = some (ph, ah, tr) ∧
      ah.history =
        o.owners.map (fun s => s.bind (fun j => inputs[j]?.map Prod.snd)) ∧
      tr.filter Event.is_free =
        o.freed.flatMap (fun j => released (inputs[j]?.map Prod.snd)) ∧
      (o.freed ++ o.owners.reduceOption).Perm (List.range inputs.length) ∧
      (o.freed ++ o.owners.reduceOption).Nodup ∧
      (∀ j ∈ o.owners.reduceOption, j ∉ o.freed) ∧
      teardown_loop ah ARGV_HISTORY_SIZE 0 =
        some (o.owners.reduceOption.flatMap
          (fun j => released (inputs[j]?.map Prod.snd))) ∧
      o.teardown.freed.Perm (List.range inputs.length) ∧
      o.teardown.freed.Nodup) ∧
    (∀ (stdin : List (Env × List Char)) (fuel : Nat) (status : Int)
        (t : List Event),
      stdin.map (fun x => (x.1, msh_get_arguments x.2)) = inputs →
      main fuel stdin = Run.returned status t →
      status = 0 ∧
      ∃ n ph ah tr o pre,
        0 < n ∧ n ≤ inputs.length ∧ n ≤ fuel ∧
        (∀ f, f < n → ∃ u, main f stdin = Run.unfinished u) ∧
        main n stdin = Run.returned 0 t ∧
        msh_exec_owned 0 (inputs.take n) init_pid_history init_argv_history
          init_ownership = some (ph, ah, tr, o) ∧
        t = pre ++ o.owners.reduceOption.flatMap
          (fun j => released (inputs[j]?.map Prod.snd)) ∧
        pre.filter Event.is_free =
          o.freed.flatMap (fun j => released (inputs[j]?.map Prod.snd)) ∧
        t.filter Event.is_free =
          o.teardown.freed.flatMap (fun j => released (inputs[j]?.map Prod.snd)) ∧
        o.teardown.freed.Perm (List.range n) ∧
        o.teardown.freed.Nodup) ∧
    (∀ (stdin : List (Env × List Char)) (fuel : Nat),
      stdin.map (fun x => (x.1, msh_get_arguments x.2)) = inputs →
      (∃ x ∈ inputs, command_name x.2 = some "exit".toList ∨
        command_name x.2 = some "quit".toList) →
      inputs.length ≤ fuel →
      ∃ t, main fuel stdin = Run.returned 0 t) := by
  have hlines : ∀ (stdin : List (Env × List Char)),
      stdin.map (fun x => (x.1, msh_get_arguments x.2)) = inputs →
      ∀ x ∈ stdin, terminated (msh_get_arguments x.2) ∧ x.1.fork ≠ 0 := by
    intro stdin hmap x hx
    exact hin (x.1, msh_get_arguments x.2)
      (by rw [← hmap]; exact List.mem_map.mpr ⟨x, hx, rfl⟩)
  refine ⟨?_, ?_, ?_⟩
  · obtain ⟨ph, ah, tr, o, hs, hseq, _, hag, htr, hperm, hnodup, hheld, htd⟩ :=
      msh_exec_owned_init (fun j => inputs[j]?.map Prod.snd) inputs hin
        (fun _ _ => rfl)
    exact ⟨ph, ah, tr, o, hs, hseq, hag, htr, hperm, hnodup, hheld, htd, hperm,
      hnodup⟩
  · intro stdin fuel status t hmap hmain
    obtain ⟨hst, n, ph2, ah2, tr2, pre, hn0, hn1, hn2, hunf, hret, hseq2, _, ht, hf⟩ :=
      main_loop_returned stdin fuel none init_pid_history init_argv_history []
        status t init_pid_history_wf init_argv_history_wf (by simp)
        (hlines stdin hmap) hmain
    have hlen : stdin.length = inputs.length := by rw [← hmap, List.length_map]
    rw [hlen] at hn1
    have htake : (stdin.take n).map (fun x => (x.1, msh_get_arguments x.2)) =
        inputs.take n := by rw [← hmap, List.map_take]
    rw [htake] at hseq2
    have hlt : (inputs.take n).length = n := by
      rw [List.length_take]; omega
    obtain ⟨ph, ah, tr, o, hs, hseq, _, hag, htr, hperm, hnodup, _, _⟩ :=
      msh_exec_owned_init (fun j => inputs[j]?.map Prod.snd) (inputs.take n)
        (fun x hx => hin x (List.mem_of_mem_take hx))
        (fun k hk => by
          rw [hlt] at hk
          simp only [List.getElem?_take, hk, if_true])
    rw [hseq] at hseq2
    simp only [Option.some.injEq, Prod.mk.injEq] at hseq2
    obtain ⟨_, hah2, htr2⟩ := hseq2
    rw [hlt] at hperm
    have hheld : ah2.history.flatMap released =
        o.owners.reduceOption.flatMap
          (fun j => released (inputs[j]?.map Prod.snd)) := by
      rw [← hah2, hag, flatMap_released_slots]
    have hpre : pre.filter Event.is_free =
        o.freed.flatMap (fun j => released (inputs[j]?.map Prod.snd)) := by
      rw [hf, ← htr2, htr]
    have ht2 : t = pre ++ o.owners.reduceOption.flatMap
        (fun j => released (inputs[j]?.map Prod.snd)) := by
      rw [ht, hheld]; simp
    refine ⟨hst, n, ph, ah, tr, o, pre, hn0, hn1, hn2, hunf, hret, hs, ht2, hpre,
      ?_, hperm, hnodup⟩
    rw [ht, List.filter_append, List.filter_append, filter_free_flatMap_released,
      hheld, hpre]
    simp [Ownership.teardown, List.flatMap_append]
  · intro stdin fuel hmap hex hfuel
    have hlen : stdin.length = inputs.length := by rw [← hmap, List.length_map]
    apply main_loop_exits stdin fuel none init_pid_history init_argv_history []
      init_pid_history_wf init_argv_history_wf (hlines stdin hmap)
    · obtain ⟨x, hx, hname⟩ := hex
      rw [← hmap] at hx
      obtain ⟨y, hy, rfl⟩ := List.mem_map.mp hx
      exact ⟨y, hy, hname⟩
    · rw [hlen]; exact hfuel

/-- The lines `cd /tmp`, `pwd`, `!1`, `history`, `exit` on the input of
`main`: the run returns 0 at the fifth iteration; the calls released the
allocation 2 (the recall vector) and nothing else, and the run ends with the
release of the allocations 0, 1, 3 and 4, which the slots 0 to 3 held. -/
theorem ownership_exact_witness :
    (∀ x ∈ session_cd_pwd_exit, terminated x.2 ∧ x.1.fork ≠ 0) ∧
    main 5 stdin_cd_pwd_exit =
      Run.returned 0
        ([Event.printf_prompt, Event.chdir "/tmp".toList,
          Event.printf_prompt, Event.fork 101, Event.wait,
          Event.printf_prompt] ++ released (some (tokenize "!1\n")) ++
          [Event.chdir "/tmp".toList, Event.printf_prompt] ++
          history_lines 0
            [tokenize "cd /tmp\n", tokenize "pwd\n", tokenize "history\n"] ++
          [Event.printf_prompt] ++
          released (some (tokenize "cd /tmp\n")) ++
          released (some (tokenize "pwd\n")) ++
          released (some (tokenize "history\n")) ++
          released (some (tokenize "exit\n"))) ∧
    (∃ ph ah tr o pre,
      main 5 stdin_cd_pwd_exit =
        Run.returned 0
          (pre ++ [0, 1, 3, 4].flatMap
            (fun j => released (session_cd_pwd_exit[j]?.map Prod.snd))) ∧
      pre.filter Event.is_free = released (some (tokenize "!1\n")) ∧
      msh_exec_owned 0 session_cd_pwd_exit init_pid_history init_argv_history
        init_ownership = some (ph, ah, tr, o) ∧
      o.owners = [some 0, some 1, some 3, some 4] ++ List.replicate 11 none ∧
      o.freed = [2] ∧
      o.teardown.freed = [2, 0, 1, 3, 4] ∧
      o.teardown.freed.Perm (List.range 5) ∧
      o.teardown.freed.Nodup) := by
  have h := ownership_exact session_cd_pwd_exit (by decide)
  refine ⟨by decide, by decide, ?_⟩
  obtain ⟨t, hm⟩ := h.2.2 stdin_cd_pwd_exit 5 rfl
    ⟨(parent_env 104, tokenize "exit\n"),
      by simp [session_cd_pwd_exit, stdin_cd_pwd_exit, tokenize],
      Or.inl (by decide)⟩ (by decide)
  obtain ⟨_, n, ph, ah, tr, o, pre, hn0, _, hn2, _, hret, hs, ht, hpre, _, hperm,
    hnodup⟩ := h.2.1 stdin_cd_pwd_exit 5 0 t rfl hm
  have hn : n = 5 := by
    by_contra hne
    have hlt : n < 5 := by omega
    interval_cases n
    · obtain ⟨u, hu⟩ : ∃ u, main 1 stdin_cd_pwd_exit = Run.unfinished u := ⟨_, rfl⟩
      rw [hu] at hret
      cases hret
    · obtain ⟨u, hu⟩ : ∃ u, main 2 stdin_cd_pwd_exit = Run.unfinished u := ⟨_, rfl⟩
      rw [hu] at hret
      cases hret
    · obtain ⟨u, hu⟩ : ∃ u, main 3 stdin_cd_pwd_exit = Run.unfinished u := ⟨_, rfl⟩
      rw [hu] at hret
      cases hret
    · obtain ⟨u, hu⟩ : ∃ u, main 4 stdin_cd_pwd_exit = Run.unfinished u := ⟨_, rfl⟩
      rw [hu] at hret
      cases hret
  subst hn
  have htake : List.take 5 session_cd_pwd_exit = session_cd_pwd_exit := rfl
  rw [htake] at hs
  have hown : (msh_exec_owned 0 session_cd_pwd_exit init_pid_history
      init_argv_history init_ownership).map (fun s => s.2.2.2) =
      some ⟨[some 0, some 1, some 3, some 4] ++ List.replicate 11 none, [2]⟩ := by
    decide
  rw [hs] at hown
  simp only [Option.map_some', Option.some.injEq] at hown
  subst hown
  refine ⟨ph, ah, tr, _, pre, ?_, ?_, hs, rfl, rfl, rfl, hperm, hnodup⟩
  · rw [hm, ht]; rfl
  · rw [hpre]; rfl

/-! ## The launch of an external command -/

/-- C15: on a sound command history, let `v` be the effective vector of a
call, `c` its name, not a built-in, whose longest candidate path fits the
buffer.  In the child (the process in which `fork` returned 0) `msh_exec`
tries `./c`, `/usr/local/bin/c`, `/usr/bin/c` and `/bin/c` in that order,
each with the tokens of `v`, up to the first one `execvp` accepts, which
replaces the image; when none is accepted it prints `c: Command not found.`
and the child exits with 1.  In the parent (the process in which `fork`
returned a positive value) `msh_exec` waits, records the identifier and
returns 1, whatever the child did. -/
theorem child_search_order (env : Env) (argv v : Argv) (c : Token)
    (ph : pid_history_t) (ah : argv_history_t)
    (hah : ah.wf) (hv : terminated argv)
    (heff : effective_argv argv ah = some v)
    (hname : command_name v = some c) (hext : c ∉ builtins)
    (hfit : c.length + 15 < LINE_MAX_LEN) :
    candidate_paths c =
      ["./".toList ++ c, "/usr/local/bin/".toList ++ c, "/usr/bin/".toList ++ c,
        "/bin/".toList ++ c] ∧
    (env.fork = 0 →
      msh_exec env argv ph ah =
        some ⟨(search env c (argv_tokens v)).1, ph,
          if is_recall argv then ah else record_command ah argv,
          (if is_recall argv then released (some argv)
              else released (ah.view.head?.join)) ++
            Event.fork 0 :: (search env c (argv_tokens v)).2⟩) ∧
    (env.fork > 0 → ph.wf →
      msh_exec env argv ph ah =
        some ⟨Outcome.ret 1, record_pid ph env.fork,
          if is_recall argv then ah else record_command ah argv,
          (if is_recall argv then released (some argv)
              else released (ah.view.head?.join)) ++
            [Event.fork env.fork, Event.wait]⟩) := by
  have hvt := effective_terminated argv v ah hah hv heff
  have hd := msh_exec_dispatches env argv v ph ah hah hv heff
  rw [hname] at hd
  refine ⟨rfl, ?_, ?_⟩
  · intro hf
    rw [hd, (msh_dispatch_external env c v ph _ hext hvt hfit).1 hf]
    rfl
  · intro hf hph
    rw [hd, (msh_dispatch_external env c v ph _ hext hvt hfit).2 hf hph]
    rfl

/-- The line `ls -l` on the state after `cd /tmp`, `pwd`: a child that can
only launch `/bin/ls` fails three times, then launches it; a child that can
launch nothing prints the message and exits; the parent returns 1. -/
theorem child_search_order_witness :
    history_cd_pwd.wf ∧ terminated (tokenize "ls -l\n") ∧
    effective_argv (tokenize "ls -l\n") history_cd_pwd = some (tokenize "ls -l\n") ∧
    command_name (tokenize "ls -l\n") = some "ls".toList ∧
    "ls".toList ∉ builtins ∧ "ls".toList.length + 15 < LINE_MAX_LEN ∧
    msh_exec child_env_bin_ls (tokenize "ls -l\n") pids_cd_pwd history_cd_pwd =
      some ⟨Outcome.exec "/bin/ls".toList ["ls".toList, "-l".toList],
        pids_cd_pwd, record_command history_cd_pwd (tokenize "ls -l\n"),
        [Event.fork 0,
          Event.execvp_failed "./ls".toList ["ls".toList, "-l".toList],
          Event.execvp_failed "/usr/local/bin/ls".toList ["ls".toList, "-l".toList],
          Event.execvp_failed "/usr/bin/ls".toList ["ls".toList, "-l".toList]]⟩ ∧
    msh_exec child_env_nothing (tokenize "ls -l\n") pids_cd_pwd history_cd_pwd =
      some ⟨Outcome.exit 1, pids_cd_pwd,
        record_command history_cd_pwd (tokenize "ls -l\n"),
        [Event.fork 0,
          Event.execvp_failed "./ls".toList ["ls".toList, "-l".toList],
          Event.execvp_failed "/usr/local/bin/ls".toList ["ls".toList, "-l".toList],
          Event.execvp_failed "/usr/bin/ls".toList ["ls".toList, "-l".toList],
          Event.execvp_failed "/bin/ls".toList ["ls".toList, "-l".toList],
          Event.printf_not_found "ls".toList]⟩ ∧
    msh_exec (parent_env 102) (tokenize "ls -l\n") pids_cd_pwd history_cd_pwd =
      some ⟨Outcome.ret 1, record_pid pids_cd_pwd 102,
        record_command history_cd_pwd (tokenize "ls -l\n"),
        [Event.fork 102, Event.wait]⟩ :=
  ⟨by decide, by decide, by decide, by decide, by decide, by decide,
    ((child_search_order child_env_bin_ls (tokenize "ls -l\n") (tokenize "ls -l\n")
      "ls".toList pids_cd_pwd history_cd_pwd (by decide) (by decide) (by decide)
      (by decide) (by decide) (by decide)).2.1 rfl).trans (by decide),
    ((child_search_order child_env_nothing (tokenize "ls -l\n") (tokenize "ls -l\n")
      "ls".toList pids_cd_pwd history_cd_pwd (by decide) (by decide) (by decide)
      (by decide) (by decide) (by decide)).2.1 rfl).trans (by decide),
    ((child_search_order (parent_env 102) (tokenize "ls -l\n") (tokenize "ls -l\n")
      "ls".toList pids_cd_pwd history_cd_pwd (by decide) (by decide) (by decide)
      (by decide) (by decide) (by decide)).2.2 (by decide) (by decide)).trans
        (by decide)⟩

/-! ## Frame properties of the process-identifier history -/

/-- C16: for every state and vector, whenever the call does not fault: the
process-identifier history is as it was when there is no effective vector
(the recall fails), when the effective command is not external (its name is
absent or a built-in) and when `fork` does not return a positive value; when
the effective command is external and `fork` returns `pid > 0`, the slot at
the old cursor holds `pid`, every other slot is as it was, and the cursor is
the old one plus one modulo 20.  On a sound state, in the interpreter
process, the call does not fault. -/
theorem pid_history_effect (env : Env) (argv : Argv) (ph : pid_history_t)
    (ah : argv_history_t) :
    (∀ r, msh_exec env argv ph ah = some r →
      ((¬ (∃ v, effective_argv argv ah = some v ∧ is_external v) ∨ env.fork ≤ 0) →
        r.pid_history = ph) ∧
      ((∃ v, effective_argv argv ah = some v ∧ is_external v) → env.fork > 0 →
        r.pid_history = record_pid ph env.fork ∧
        r.pid_history.history.length = ph.history.length ∧
        r.pid_history.history[ph.current_index.toNat]? = some env.fork ∧
        (∀ i : Nat, i ≠ ph.current_index.toNat →
          r.pid_history.history[i]? = ph.history[i]?) ∧
        r.pid_history.current_index = (ph.current_index + 1) % 20)) ∧
    (ph.wf → ah.wf → terminated argv → env.fork ≠ 0 →
      ∃ r, msh_exec env argv ph ah = some r) := by
  constructor
  · intro r h
    rcases (msh_exec_effect env argv ph ah r h).2.2 with
      ⟨hex, hf, hp, hlo, hhi⟩ | ⟨hn, hp⟩
    · constructor
      · rintro (h1 | h1)
        · exact absurd hex h1
        · omega
      · intro _ _
        have hlt : ph.current_index.toNat < ph.history.length := by omega
        refine ⟨hp, ?_, ?_, ?_, ?_⟩
        · rw [hp]; simp [record_pid]
        · rw [hp]
          simp only [record_pid]
          rw [List.getElem?_set_self hlt]
        · intro i hi
          rw [hp]
          simp only [record_pid]
          rw [List.getElem?_set_ne (Ne.symm hi)]
        · rw [hp]
          simp only [record_pid]
          exact c_mod_eq_emod _ _ (by omega) (by decide)
    · constructor
      · intro _; exact hp
      · intro hex hf
        exact absurd ⟨hex, hf⟩ hn
  · intro hph hah hv hf
    obtain ⟨r, _, he, _⟩ := msh_exec_step env argv ph ah hph hah hv hf
    exact ⟨r, he⟩

/-- The line `ls` on the state after `cd /tmp`, `pwd`, the child being 102:
slot 1 receives 102 and the cursor moves from 1 to 2. -/
theorem pid_history_effect_witness :
    pids_cd_pwd.wf ∧ history_cd_pwd.wf ∧ terminated (tokenize "ls\n") ∧
    (parent_env 102).fork ≠ 0 ∧
    (∃ r, msh_exec (parent_env 102) (tokenize "ls\n") pids_cd_pwd history_cd_pwd =
      some r ∧ r.pid_history = record_pid pids_cd_pwd 102) ∧
    (record_pid pids_cd_pwd 102).current_index = 2 ∧
    (record_pid pids_cd_pwd 102).history =
      [101, 102, 0, 0, 0, 0, 0, 0, 0, 0, 0, 0, 0, 0, 0, 0, 0, 0, 0, 0] := by
  have h := pid_history_effect (parent_env 102) (tokenize "ls\n") pids_cd_pwd
    history_cd_pwd
  obtain ⟨r, hr⟩ := h.2 (by decide) (by decide) (by decide) (by decide)
  have hext : ∃ v, effective_argv (tokenize "ls\n") history_cd_pwd = some v ∧
      is_external v :=
    ⟨tokenize "ls\n", by decide, "ls".toList, by decide, by decide⟩
  exact ⟨by decide, by decide, by decide, by decide,
    ⟨r, hr, ((h.1 r hr).2 hext (by decide)).1⟩, by decide, by decide⟩

/-! ## The write cursors -/

/-- C17: when on entry the cursor of the command history is in `[0, 15)` and
that of the process-identifier history in `[0, 20)`, they are so after every
call that does not fault, on any vector; and with such cursors the index of
the recall lookup `(current_index - 1 - n + 15) % 15` for `0 ≤ n < 15` and
the indices `(current_index + i) % size` of the two listings are inside
their arrays (the index of a store is the cursor itself).  On a sound state,
in the interpreter process, the call does not fault. -/
theorem cursors_stay_in_range (env : Env) (argv : Argv) (ph : pid_history_t)
    (ah : argv_history_t)
    (ha0 : 0 ≤ ah.current_index) (ha1 : ah.current_index < ARGV_HISTORY_SIZE)
    (hp0 : 0 ≤ ph.current_index) (hp1 : ph.current_index < PID_HISTORY_SIZE) :
    (∀ r, msh_exec env argv ph ah = some r →
      0 ≤ r.argv_history.current_index ∧
      r.argv_history.current_index < ARGV_HISTORY_SIZE ∧
      0 ≤ r.pid_history.current_index ∧
      r.pid_history.current_index < PID_HISTORY_SIZE) ∧
    (∀ n : Int, 0 ≤ n → n < ARGV_HISTORY_SIZE →
      0 ≤ c_mod (ah.current_index - 1 - n + ARGV_HISTORY_SIZE) ARGV_HISTORY_SIZE ∧
      c_mod (ah.current_index - 1 - n + ARGV_HISTORY_SIZE) ARGV_HISTORY_SIZE <
        ARGV_HISTORY_SIZE) ∧
    (∀ i : Int, 0 ≤ i → i < ARGV_HISTORY_SIZE →
      0 ≤ c_mod (ah.current_index + i) ARGV_HISTORY_SIZE ∧
      c_mod (ah.current_index + i) ARGV_HISTORY_SIZE < ARGV_HISTORY_SIZE) ∧
    (∀ i : Int, 0 ≤ i → i < PID_HISTORY_SIZE →
      0 ≤ c_mod (ph.current_index + i) PID_HISTORY_SIZE ∧
      c_mod (ph.current_index + i) PID_HISTORY_SIZE < PID_HISTORY_SIZE) ∧
    (ph.wf → ah.wf → terminated argv → env.fork ≠ 0 →
      ∃ r, msh_exec env argv ph ah = some r) := by
  have h15 : (0 : Int) < ARGV_HISTORY_SIZE := by decide
  have h20 : (0 : Int) < PID_HISTORY_SIZE := by decide
  refine ⟨?_, ?_, ?_, ?_, ?_⟩
  · intro r h
    obtain ⟨e1, _, e2⟩ := msh_exec_effect env argv ph ah r h
    have hA : 0 ≤ r.argv_history.current_index ∧
        r.argv_history.current_index < ARGV_HISTORY_SIZE := by
      rw [e1]
      cases is_recall argv
      · simp only [Bool.false_eq_true, if_false, record_command]
        exact c_mod_range _ _ (by omega) h15
      · simp only [if_true]
        exact ⟨ha0, ha1⟩
    have hP : 0 ≤ r.pid_history.current_index ∧
        r.pid_history.current_index < PID_HISTORY_SIZE := by
      rcases e2 with ⟨_, _, hp, _⟩ | ⟨_, hp⟩
      · rw [hp]
        simp only [record_pid]
        exact c_mod_range _ _ (by omega) h20
      · rw [hp]
        exact ⟨hp0, hp1⟩
    exact ⟨hA.1, hA.2, hP.1, hP.2⟩
  · intro n hn0 hn1
    exact c_mod_range _ _ (by omega) h15
  · intro i hi0 _
    exact c_mod_range _ _ (by omega) h15
  · intro i hi0 _
    exact c_mod_range _ _ (by omega) h20
  · intro hph hah hv hf
    obtain ⟨r, _, he, _⟩ := msh_exec_step env argv ph ah hph hah hv hf
    exact ⟨r, he⟩

/-- The line `ls` on the state after `cd /tmp`, `pwd`: the cursors 2 and 1
become 3 and 2. -/
theorem cursors_stay_in_range_witness :
    0 ≤ history_cd_pwd.current_index ∧
    history_cd_pwd.current_index < ARGV_HISTORY_SIZE ∧
    0 ≤ pids_cd_pwd.current_index ∧ pids_cd_pwd.current_index < PID_HISTORY_SIZE ∧
    (∃ r, msh_exec (parent_env 102) (tokenize "ls\n") pids_cd_pwd history_cd_pwd =
        some r ∧
      0 ≤ r.argv_history.current_index ∧
      r.argv_history.current_index < ARGV_HISTORY_SIZE ∧
      0 ≤ r.pid_history.current_index ∧
      r.pid_history.current_index < PID_HISTORY_SIZE) ∧
    (msh_exec (parent_env 102) (tokenize "ls\n") pids_cd_pwd history_cd_pwd).map
        (fun r => (r.argv_history.current_index, r.pid_history.current_index)) =
      some (3, 2) := by
  have h := cursors_stay_in_range (parent_env 102) (tokenize "ls\n") pids_cd_pwd
    history_cd_pwd (by decide) (by decide) (by decide) (by decide)
  obtain ⟨r, hr⟩ := h.2.2.2.2 (by decide) (by decide) (by decide) (by decide)
  exact ⟨by decide, by decide, by decide, by decide, ⟨r, hr, h.1 r hr⟩, by decide⟩

/-! ## Recalls are never stored -/

/-- C18: in every state reached from the initial state by a sequence of calls
of `msh_exec`, no vector held by the command history has a first token that
begins with `!`; hence the effective vector of a recall, when there is one,
is not itself a recall. -/
theorem no_recall_stored (inputs : List (Env × Argv)) (ph : pid_history_t)
    (ah : argv_history_t) (tr : List Event)
    (hs : msh_exec_seq inputs init_pid_history init_argv_history =
      some (ph, ah, tr)) :
    (∀ v, some v ∈ ah.history →
      is_recall v = false ∧ ∀ rest, command_name v ≠ some ('!' :: rest)) ∧
    (∀ argv v, is_recall argv = true → effective_argv argv ah = some v →
      is_recall v = false ∧ ∀ rest, command_name v ≠ some ('!' :: rest)) := by
  have hstored : ∀ v, some v ∈ ah.history →
      is_recall v = false ∧ ∀ rest, command_name v ≠ some ('!' :: rest) := by
    intro v hv
    rw [msh_exec_seq_effect inputs _ _ ph ah tr hs] at hv
    have hnr : is_recall v = false := by
      rcases mem_foldl_record_command _ _ v hv with h | h
      · simp [init_argv_history] at h
      · simp only [non_recalls, List.mem_filter, Bool.not_eq_true'] at h
        exact h.2
    refine ⟨hnr, fun rest hc => ?_⟩
    rw [is_recall_of_name v rest hc] at hnr
    exact absurd hnr (by simp)
  refine ⟨hstored, ?_⟩
  intro argv v hrec heff
  apply hstored
  simp only [is_recall] at hrec
  obtain ⟨rs, hrs⟩ := Option.isSome_iff_exists.mp hrec
  simp only [effective_argv, hrs] at heff
  split_ifs at heff
  simp only [lookup_command] at heff
  cases hread : read ah.history
      (c_mod (ah.current_index - 1 - atoi rs + ARGV_HISTORY_SIZE) ARGV_HISTORY_SIZE) with
  | none => rw [hread] at heff; simp [Option.join] at heff
  | some slot =>
    rw [hread] at heff
    have : slot = some v := by simpa [Option.join] using heff
    rw [this] at hread
    exact read_mem _ _ _ hread

/-- The session `cd /tmp`, `pwd`, `!1`, `history`, each call made in the
interpreter process. -/
theorem no_recall_stored_witness :
    msh_exec_seq
        (session_cd_pwd ++
          [(parent_env 102, tokenize "!1\n"), (parent_env 103, tokenize "history\n")])
        init_pid_history init_argv_history =
      some (pids_cd_pwd, record_command history_cd_pwd (tokenize "history\n"),
        [Event.chdir "/tmp".toList, Event.fork 101, Event.wait] ++
          released (some (tokenize "!1\n")) ++
          Event.chdir "/tmp".toList ::
            history_lines 0
              [tokenize "cd /tmp\n", tokenize "pwd\n", tokenize "history\n"]) ∧
    ((∀ v, some v ∈
        (record_command history_cd_pwd (tokenize "history\n")).history →
      is_recall v = false ∧ ∀ rest, command_name v ≠ some ('!' :: rest)) ∧
    (∀ argv v, is_recall argv = true →
      effective_argv argv (record_command history_cd_pwd (tokenize "history\n")) =
        some v →
      is_recall v = false ∧ ∀ rest, command_name v ≠ some ('!' :: rest))) := by
  have h1 : msh_exec_seq
        (session_cd_pwd ++
          [(parent_env 102, tokenize "!1\n"), (parent_env 103, tokenize "history\n")])
        init_pid_history init_argv_history =
      some (pids_cd_pwd, record_command history_cd_pwd (tokenize "history\n"),
        [Event.chdir "/tmp".toList, Event.fork 101, Event.wait] ++
          released (some (tokenize "!1\n")) ++
          Event.chdir "/tmp".toList ::
            history_lines 0
              [tokenize "cd /tmp\n", tokenize "pwd\n", tokenize "history\n"]) := by
    decide
  exact ⟨h1, no_recall_stored _ _ _ _ h1⟩

/-! ## Display indices and recall offsets -/

/-- C19, as stated, fails: after the single command `ls` the listing has one
line, of display index 0, and the vector it prints is the one `!0` resolves
to. -/
theorem listing_index_zero_is_offset_zero :
    (msh_exec_seq [(parent_env 100, tokenize "ls\n")] init_pid_history
        init_argv_history).map (fun s => s.2.1) =
      some (record_command init_argv_history (tokenize "ls\n")) ∧
    history_loop (record_command init_argv_history (tokenize "ls\n"))
        ARGV_HISTORY_SIZE 0 0 =
      some (history_lines 0 [tokenize "ls\n"]) ∧
    lookup_command (record_command init_argv_history (tokenize "ls\n")) 0 =
      some (tokenize "ls\n") ∧
    effective_argv (tokenize "!0\n")
        (record_command init_argv_history (tokenize "ls\n")) =
      some (tokenize "ls\n") := by
  decide

/-- C19, amended: starting from the empty history, after any sequence of
calls whose vectors that are not recalls are `c_1 .. c_k`, let `m = min k 15`.
The `history` loop prints the last `m` of them, numbered 0 .. m-1; for
`i < m` the vector printed with display index `i` is the one offset `m-1-i`
resolves to, and offset `i` resolves to the vector printed with display
index `m-1-i` (the same line only when `2 * i = m - 1`). -/
theorem listing_index_mirrors_offset (inputs : List (Env × Argv)) (i : Nat)
    (hin : ∀ x ∈ inputs, terminated x.2 ∧ x.1.fork ≠ 0)
    (hi : i < min (non_recalls inputs).length ARGV_HISTORY_SIZE) :
    ∃ ph ah tr,
      msh_exec_seq inputs init_pid_history init_argv_history = some (ph, ah, tr) ∧
      history_loop ah ARGV_HISTORY_SIZE 0 0 =
        some (history_lines 0
          ((non_recalls inputs).drop
            ((non_recalls inputs).length - ARGV_HISTORY_SIZE))) ∧
      ((non_recalls inputs).drop
          ((non_recalls inputs).length - ARGV_HISTORY_SIZE)).length =
        min (non_recalls inputs).length ARGV_HISTORY_SIZE ∧
      lookup_command ah
          ((min (non_recalls inputs).length ARGV_HISTORY_SIZE - 1 - i : Nat) : Int) =
        ((non_recalls inputs).drop
          ((non_recalls inputs).length - ARGV_HISTORY_SIZE))[i]? ∧
      lookup_command ah (i : Int) =
        ((non_recalls inputs).drop
          ((non_recalls inputs).length - ARGV_HISTORY_SIZE))[
            min (non_recalls inputs).length ARGV_HISTORY_SIZE - 1 - i]? := by
  obtain ⟨ph, ah, tr, hs, _, hah, ea, _⟩ :=
    msh_exec_seq_spec inputs _ _ init_pid_history_wf init_argv_history_wf hin
  have hct := non_recalls_terminated inputs hin
  have hview : ah.view.reduceOption =
      (non_recalls inputs).drop ((non_recalls inputs).length - ARGV_HISTORY_SIZE) := by
    rw [ea, foldl_record_command_view _ _ init_argv_history_wf hct,
      init_argv_history_view]
    exact reduceOption_view_after_records _
  have hloop := history_loop_view ah hah
  rw [hview] at hloop
  have hl1 := lookup_after_records (non_recalls inputs) hct
    (min (non_recalls inputs).length ARGV_HISTORY_SIZE - 1 - i)
    (by simp only [ARGV_HISTORY_SIZE] at hi ⊢; omega)
  have hl2 := lookup_after_records (non_recalls inputs) hct i
    (by simp only [ARGV_HISTORY_SIZE] at hi ⊢; omega)
  rw [← ea] at hl1 hl2
  simp only [ARGV_HISTORY_SIZE] at hi hl1 hl2 ⊢
  refine ⟨ph, ah, tr, hs, hloop, ?_, ?_, ?_⟩
  · simp only [List.length_drop]
    omega
  · rw [hl1, if_pos (by omega), List.getElem?_drop]
    congr 1
    omega
  · rw [hl2, if_pos (by omega), List.getElem?_drop]
    congr 1
    omega

/-- The session `cd /tmp`, `pwd`, `history` and the display index 0: the
first line of the listing is `cd /tmp`, which offset 2 resolves to. -/
theorem listing_index_mirrors_offset_witness :
    (∀ x ∈ session_cd_pwd_history, terminated x.2 ∧ x.1.fork ≠ 0) ∧
    0 < min (non_recalls session_cd_pwd_history).length ARGV_HISTORY_SIZE ∧
    (∃ ph ah tr,
      msh_exec_seq session_cd_pwd_history init_pid_history init_argv_history =
        some (ph, ah, tr) ∧
      history_loop ah ARGV_HISTORY_SIZE 0 0 =
        some (history_lines 0
          ((non_recalls session_cd_pwd_history).drop
            ((non_recalls session_cd_pwd_history).length - ARGV_HISTORY_SIZE))) ∧
      ((non_recalls session_cd_pwd_history).drop
          ((non_recalls session_cd_pwd_history).length - ARGV_HISTORY_SIZE)).length =
        min (non_recalls session_cd_pwd_history).length ARGV_HISTORY_SIZE ∧
      lookup_command ah
          ((min (non_recalls session_cd_pwd_history).length ARGV_HISTORY_SIZE - 1 - 0 :
            Nat) : Int) =
        ((non_recalls session_cd_pwd_history).drop
          ((non_recalls session_cd_pwd_history).length - ARGV_HISTORY_SIZE))[0]? ∧
      lookup_command ah ((0 : Nat) : Int) =
        ((non_recalls session_cd_pwd_history).drop
          ((non_recalls session_cd_pwd_history).length - ARGV_HISTORY_SIZE))[
            min (non_recalls session_cd_pwd_history).length ARGV_HISTORY_SIZE - 1 - 0]?) ∧
    ((non_recalls session_cd_pwd_history).drop
        ((non_recalls session_cd_pwd_history).length - ARGV_HISTORY_SIZE))[0]? =
      some (tokenize "cd /tmp\n") :=
  ⟨by decide, by decide,
    listing_index_mirrors_offset session_cd_pwd_history 0 (by decide) (by decide),
    by decide⟩

/-! ## The lenient parse of the recall offset -/

/-- C20: the token `!-4294967296` is `!-m` with `m ≥ 1`, but `atoi` returns 0
for `-4294967296`, so the recall is not rejected: after `ls` was launched it
releases the recall vector and launches `ls` again, and "Invalid n." is not
printed.  The tokens `!` and `!abc` are treated as `!0`, and `!1x` as `!1`. -/
theorem recall_negative_wraps :
    atoi ('-' :: decimal 4294967296) = 0 ∧
    command_name (tokenize "!-4294967296\n") =
      some ('!' :: '-' :: decimal 4294967296) ∧
    (msh_exec_seq
      [(parent_env 100, tokenize "ls\n"), (parent_env 101, tokenize "!-4294967296\n")]
      init_pid_history init_argv_history).map (fun s => s.2.2) =
      some [Event.fork 100, Event.wait,
        Event.free_str "!-4294967296".toList,
        Event.free_vec (tokenize "!-4294967296\n"),
        Event.fork 101, Event.wait] ∧
    effective_argv (tokenize "!\n") history_cd_pwd = some (tokenize "pwd\n") ∧
    effective_argv (tokenize "!abc\n") history_cd_pwd = some (tokenize "pwd\n") ∧
    effective_argv (tokenize "!1x\n") history_cd_pwd = some (tokenize "cd /tmp\n") := by
  decide


end Msh
